import Mathlib

/-!
# bplint: the picture-string linter

A shallow embedding of `ckPicStr`, `ckVarblen`, `ckRanges` and `Lint` of
`bplint.go`, and theorems about them.

Conventions of the embedding.

* A Go `string` is a sequence of bytes: `Str := List Nat`, every byte below 256.
  `pic[i]` is `byteAt pic i`, `pic[a:b]` is `slice pic a b`.  Every index
  and slice expression of the source is guarded (by `pi > 0`, `pi < len(pic)-1`, ...)
  so that it is in range; the only run-time panics that remain are an index
  into the output buffer `rp` and the explicit `panic("May not happen!")`.
* Go `int` values that the source never lets go below zero (`pi`, `curpicend`,
  lengths) are `Nat`; the output index `ri`, which does go to `-1`, is `Int`.
* The bit counter `bi uint16` is a `Ctr`: the field `val` is the Go variable,
  with every addition reduced modulo `2^16`; the field `exact` is a ghost
  copy that is never reduced and never read by the code.
* `uint8` arithmetic is done modulo `256`.
* `rwid.StringWidth` (package go-runewidth) is a parameter `sw : Str → Nat`.
-/

namespace Bplint

/-- A Go string: its bytes. -/
abbrev Str := List Nat

/-- UTF-8 encoding of one character. -/
def utf8 (c : Char) : Str :=
  let n := c.toNat
  if n < 0x80 then [n]
  else if n < 0x800 then [0xC0 + n / 64, 0x80 + n % 64]
  else if n < 0x10000 then [0xE0 + n / 4096, 0x80 + n / 64 % 64, 0x80 + n % 64]
  else [0xF0 + n / 262144, 0x80 + n / 4096 % 64, 0x80 + n / 64 % 64, 0x80 + n % 64]

/-- The bytes of a string literal of the source. -/
def bytes (s : String) : Str := s.toList.flatMap utf8

/-- Indexing `pic[i]`. -/
def byteAt (s : Str) (i : Nat) : Nat := s.getD i 0

/-- Slicing `pic[a:b]`. -/
def slice (s : Str) (a b : Nat) : Str := (s.take b).drop a

/-- Decimal rendering, the verb `%d` of `fmt`. -/
def dec (n : Nat) : Str := (Nat.toDigits 10 n).map Char.toNat

/-- The filler rune U+00A8 (diaeresis) as written by `WriteRune`. -/
def dia : Str := [0xC2, 0xA8]

/-- The bit counter `bi uint16`, with a ghost exact copy. -/
structure Ctr where
  val : Nat
  exact : Nat
deriving DecidableEq, Repr

/-- Statement `bi += x` on a `uint16`. -/
def Ctr.add (c : Ctr) (x : Nat) : Ctr := ⟨(c.val + x) % 65536, c.exact + x⟩

/-- One element of the output buffer: `type part struct`. -/
structure Part where
  bits : Str
  mark : Str
  pics : Str
deriving DecidableEq, Repr

/-! ## Error messages -/

def errMisleading : Str :=
  bytes ("Misleading use of B/E/F number. See section \x27Valid Numbers\x27 in docs.")

def errBadHex : Str :=
  bytes ("Bad shape of a Hex number. See section \x27Valid Numbers\x27 in docs.")

def errMisplaced : Str := bytes ("Misplaced @")

def errBadBitcount : Str := bytes ("Bad bitcount.")

def errIPv4 : Str := bytes ("Invalid pic for IPv4.")

def errNoStart : Str := bytes ("Can\x27t find valid start command for this dd@.")

def errOverflow : Str := bytes ("Pic string takes more than 64 bits!")

/-! ## ckVarblen -/

/-- In `ckVarblen`: the bit count
`k := (10 * uint8(pic[pi-2]-48)) + uint8(pic[pi-1]-48)`, in `uint8` arithmetic. -/
def bitCount (pic : Str) (pi : Nat) : Nat :=
  (10 * ((byteAt pic (pi - 2) + 256 - 48) % 256) % 256
    + (byteAt pic (pi - 1) + 256 - 48) % 256) % 256

/-- In `ckVarblen`: the distance `d` of the letter `D` from the `@`:
`d = 4; if k > 16 { d = int(k / 3) }`. -/
def leadDist (k : Nat) : Nat := if k > 16 then k / 3 else 4

/-- Function `ckVarblen(pic, pi, bi)`: the new `pi`, the new `bi`, the error. -/
def ckVarblen (pic : Str) (pi : Nat) (bi : Ctr) : Nat × Ctr × Option Str :=
  if pi < 3 then (0, bi, some errMisplaced)
  else
    let k := bitCount pic pi
    let d := leadDist k
    if k = 0 ∨ k > 64 then (pi - 2, bi, some errBadBitcount)
    else if pi > 2 ∧ byteAt pic (pi - 3) = 33 then (pi - 3, bi.add k, none)
    else if pi > d - 1 ∧ byteAt pic (pi - d) = 68 then (pi - d, bi.add k, none)
    else if pi > 13 ∧ byteAt pic (pi - 14) = 73 then
      if slice pic (pi - 14) (pi - 14 + 15) ≠ bytes ("IPv4.Address32@") then
        (pi - 14, bi.add 32, some errIPv4)
      else (pi - 14, bi.add 32, none)
    else (pi - 2, bi, some errNoStart)

/-! ## ckRanges -/

/-- The loop at label `nextH`: `bi += 4` while the byte to the left is `H`. -/
def nextH (pic : Str) : Nat → Ctr → Nat × Ctr
  | 0, bi => (0, bi.add 4)
  | p + 1, bi => if byteAt pic p = 72 then nextH pic p (bi.add 4) else (p + 1, bi.add 4)

/-- The loop at label `nextF`: `bi += 3` while the byte to the left is `F`;
`efs` counts the letters. -/
def nextF (pic : Str) : Nat → Ctr → Nat → Nat × Ctr × Nat
  | 0, bi, efs => (0, bi.add 3, efs)
  | p + 1, bi, efs =>
    if byteAt pic p = 70 then nextF pic p (bi.add 3) (efs + 1) else (p + 1, bi.add 3, efs)

/-- The loop at label `nextE`: `bi += 2` while the byte to the left is `E`. -/
def nextE (pic : Str) : Nat → Ctr → Nat → Nat × Ctr × Nat
  | 0, bi, efs => (0, bi.add 2, efs)
  | p + 1, bi, efs =>
    if byteAt pic p = 69 then nextE pic p (bi.add 2) (efs + 1) else (p + 1, bi.add 2, efs)

/-- In `ckRanges`, case `H`, after the run: "only single B|E|F allowed after
H's".  The letter left of `pi` adds its bits and is taken in; any other byte
leaves `pi` where it is (`pi++` then `pi--`). -/
def hexCompleter (pic : Str) (pi : Nat) (bi : Ctr) : Nat × Ctr :=
  if pi > 0 then
    let c := byteAt pic (pi - 1)
    if c = 70 then (pi - 1, bi.add 3)
    else if c = 69 then (pi - 1, bi.add 2)
    else if c = 66 then (pi - 1, bi.add 1)
    else (pi + 1 - 1, bi)
  else (pi, bi)

/-- In `ckRanges`, case `F`, after the run: exactly two `F` with an `E` to the
left make an octal; gives the new `pi`, the new `bi` and the flag `oct`. -/
def octPrefix (pic : Str) (pi : Nat) (bi : Ctr) (efs : Nat) : Nat × Ctr × Bool :=
  if efs = 2 ∧ pi > 0 ∧ byteAt pic (pi - 1) = 69 then (pi - 1, bi.add 2, true)
  else (pi, bi, false)

/-- Function `ckRanges(pic, pi, bi)`: the new `pi`, the new `bi`, the error.
In each case the error return and the final `return pi, bi, nil` give the same
`pi` and `bi`, so the checks only decide the third component. -/
def ckRanges (pic : Str) (pi : Nat) (bi : Ctr) : Nat × Ctr × Option Str :=
  let w := byteAt pic pi
  if w = 72 then -- 'H'
    let r1 := nextH pic pi bi
    let r2 := hexCompleter pic r1.1 r1.2
    -- check for wrongs, no hex continuation can be glued after FEB
    (r2.1, r2.2,
      if r2.1 > 0 ∧ (byteAt pic (r2.1 - 1) = 72 ∨ byteAt pic (r2.1 - 1) = 70 ∨
          byteAt pic (r2.1 - 1) = 69 ∨ byteAt pic (r2.1 - 1) = 66) then
        some errBadHex
      else none)
  else if w = 67 then (pi, bi.add 8, none) -- 'C'
  else if w = 65 then (pi, bi.add 7, none) -- 'A'
  else if w = 71 then (pi, bi.add 5, none) -- 'G'
  else if w = 70 then -- 'F'
    let n : Nat := 0 -- declared, never assigned
    let off := if pi < pic.length - 1 then byteAt pic (pi + 1) else 0
    let r1 := nextF pic pi bi 1
    let efs := r1.2.2
    let r2 := octPrefix pic r1.1 r1.2.1 efs
    let oct := r2.2.2
    let nn := if r2.1 > 0 then byteAt pic (r2.1 - 1) else 0
    (r2.1, r2.2.1,
      if off = 42 then none
      else if efs = 1 ∧ (n < 65 ∨ n > 72) then none
      else if oct = true ∧ (nn < 49 ∨ nn ||| 1 = 0x3b ∨ nn > 72) then none
      else some errMisleading)
  else if w = 69 then -- 'E'
    let r1 := nextE pic pi bi 1
    let efs := r1.2.2
    let off := if r1.1 < pic.length - 1 then byteAt pic (r1.1 + 1) else 0
    let n := if r1.1 > 0 then byteAt pic (r1.1 - 1) else 0
    (r1.1, r1.2.1,
      if off = 42 then none
      else if efs = 1 ∧ r1.1 = 0 then none
      else if efs = 1 ∧ (n < 65 ∨ n > 72) then none
      else some errMisleading)
  else (pi, bi, none)

/-! ## Rendering of one field -/

/-- The bits segment `bDesc` of a field; `none` is `panic("May not happen!")`.
`bi` and `cbs` are the counter values `bi` and `curbitstart`. -/
def bitDesc (bi cbs lenC : Nat) : Option Str :=
  let lenB := (bi + 65536 - cbs) % 65536
  let bDesc1 : Str :=
    if lenB = 1 then
      let short := [124] ++ dec cbs
      if lenC > short.length then
        [124] ++ List.replicate (lenC - short.length) 32 ++ dec cbs
      else short
    else []
  if lenB > 1 then
    let hi := dec ((bi + 65535) % 65536)
    let bdMid := [124] ++ hi ++ [32] ++ dec lenB ++ [98, 32] ++ dec cbs
    let bdLong := [124] ++ hi ++ [46, 46, 32] ++ dec lenB ++ [98, 32, 46, 46] ++ dec cbs
    if lenC ≤ bdMid.length then some bdMid
    else if lenC ≤ bdLong.length then some bdLong
    else if lenC > bdLong.length then
      let adj := lenC - bdLong.length
      some ([124] ++ hi ++ [46, 46, 32] ++ List.replicate (adj - adj / 2) 32 ++ dec lenB
        ++ [98] ++ List.replicate (adj / 2) 32 ++ [32, 46, 46] ++ dec cbs)
    else none
  else some bDesc1

/-- The branch "output previous part" of `ckPicStr`: the part of the field
that ends at `curpicend`, when the scan stands at `pi`. -/
def renderPart (sw : Str → Nat) (pic : Str) (pi curpicend : Nat) (bi cbs : Ctr) :
    Option Part :=
  let lenB := (bi.val + 65536 - cbs.val) % 65536
  let lenC := sw (slice pic pi curpicend) + 1
  match bitDesc bi.val cbs.val lenC with
  | none => none
  | some bDesc =>
    let s : Str :=
      if lenC > 0 then
        (List.replicate (bDesc.length - lenC) dia).flatten ++ slice pic (pi + 1) (curpicend + 1) ++ dia
      else []
    let m : Str :=
      if lenB > 0 then [32] ++ List.replicate (bDesc.length - 2) 32 ++ [94] else []
    some ⟨bDesc, m, s⟩

/-! ## The caret line of a positional error -/

/-- Size in bytes of the first rune of a string, as `range` over a string
decodes it (an invalid or truncated sequence is one byte). -/
def runeLen : Str → Nat
  | [] => 0
  | b0 :: t =>
    if b0 < 0xC2 ∨ 0xF4 < b0 then 1
    else
      let sz := if b0 < 0xE0 then 2 else if b0 < 0xF0 then 3 else 4
      let lo := if b0 = 0xE0 then 0xA0 else if b0 = 0xF0 then 0x90 else 0x80
      let hi := if b0 = 0xED then 0x9F else if b0 = 0xF4 then 0x8F else 0xBF
      match t with
      | [] => 1
      | b1 :: t1 =>
        if b1 < lo ∨ hi < b1 then 1
        else if sz ≤ 2 then 2
        else
          match t1 with
          | [] => 1
          | b2 :: t2 =>
            if b2 < 0x80 ∨ 0xBF < b2 then 1
            else if sz ≤ 3 then 3
            else
              match t2 with
              | [] => 1
              | b3 :: _ => if b3 < 0x80 ∨ 0xBF < b3 then 1 else 4

/-- The byte indices `i` visited by `for i := range s`, starting at index `i`. -/
def runeStarts : Nat → Nat → Str → List Nat
  | 0, _, _ => []
  | f + 1, i, s =>
    match s with
    | [] => []
    | _ :: _ => i :: runeStarts f (i + runeLen s) (s.drop (runeLen s))

/-- The string `sp` built on an error: one mark per rune of `pic[:curpicend]`,
a caret from index `pi-2` on. -/
def caretLine (pic : Str) (pi curpicend : Nat) : Str :=
  (runeStarts curpicend 0 (pic.take curpicend)).map
    (fun i => if i ≥ pi - 2 then 94 else 32)

/-! ## ckPicStr -/

/-- The local variables of `ckPicStr` at the head of its loop.  `rp` holds the
slots `ri+1 .. 255` of the output buffer; the slots below are untouched. -/
structure State where
  pi : Nat
  bi : Ctr
  quoted : Bool
  label : Bool
  ri : Int
  curbitstart : Ctr
  curpicend : Nat
  prevcmd : Nat
  rp : List Part
deriving DecidableEq, Repr

/-- What one pass through the loop body ends in. -/
inductive Step
  | cont (st : State)
  | brk (st : State)
  | fail (rp : List Part) (err : Str)
  | panic
deriving DecidableEq, Repr

/-- The second `switch` of the loop body: the command `w` found at `pi`.
Gives the new `pi`, the new `bi`, the new `prevcmd` and the error. -/
def command (pic : Str) (pi : Nat) (bi : Ctr) (w : Nat) : Nat × Ctr × Nat × Option Str :=
  if w ||| 3 = 63 ∨ w = 66 then
    -- single bits; `bi++`, then the check for a glued A..H
    let e : Option Str :=
      if pi > 0 ∧ w = 66 then
        let nn := byteAt pic (pi - 1)
        if nn ≠ 66 ∧ ¬ (nn < 49 ∨ nn ||| 1 = 0x3b ∨ nn > 72) then some errMisleading
        else none
      else none
    (pi, bi.add 1, 76, e)
  else if w = 64 then
    let r := ckVarblen pic pi bi
    (r.1, r.2.1, 78, r.2.2)
  else
    let r := ckRanges pic pi bi
    (r.1, r.2.1, 78, r.2.2)

/-- The part that the loop body writes to `rp[ri]`: the tail of the picture
when no command was seen yet (`prevcmd == 'T'`), else the previous field. -/
def outPart (sw : Str → Nat) (pic : Str) (st : State) : Option Part :=
  if st.prevcmd = 84 then some ⟨[], [], slice pic (st.pi + 1) (st.curpicend + 1)⟩
  else renderPart sw pic st.pi st.curpicend st.bi st.curbitstart

/-- The part of the loop body after the first `switch`: output of the previous
part, then the command `w` found at `st.pi`. -/
def emit (sw : Str → Nat) (pic : Str) (st : State) (w : Nat) : Step :=
  if st.ri < 0 ∨ 255 < st.ri then .panic
  else
    match outPart sw pic st with
    | none => .panic
    | some p =>
      let st1 := { st with rp := p :: st.rp, ri := st.ri - 1 }
      if st1.pi ≤ 0 then .brk st1
      else
        let st2 := { st1 with curpicend := st1.pi, curbitstart := st1.bi }
        let r := command pic st2.pi st2.bi w
        match r.2.2.2 with
        | some e =>
          .fail [⟨[], slice pic 1 pic.length, caretLine pic r.1 st2.curpicend ++ bytes ("HERE")⟩] e
        | none => .cont { st2 with pi := r.1, bi := r.2.1, prevcmd := r.2.2.1 }

/-- One pass through the body of the loop `for pi > 0 && ri >= 0`. -/
def body (sw : Str → Nat) (pic : Str) (st : State) : Step :=
  let pi := st.pi - 1
  let w := byteAt pic pi
  if pi = 0 then emit sw pic { st with pi := pi } 63
  else if pi > 0 ∧ byteAt pic (pi - 1) = 92 then .cont { st with pi := pi - 1 }
  else if w = 39 ∧ (st.label = true ∨ st.quoted = true) then
    .cont { st with pi := pi, label := false, quoted := false }
  else if w = 39 then .cont { st with pi := pi, quoted := true }
  else if st.quoted = true ∧ w ≠ 39 then .cont { st with pi := pi }
  else if st.label = true ∧ w ||| 3 ≠ 63 then .cont { st with pi := pi }
  else if w ||| 3 = 63 then emit sw pic { st with pi := pi, label := true } w
  else if w = 68 ∨ w < 0x3c ∨ w > 0x48 then .cont { st with pi := pi }
  else emit sw pic { st with pi := pi } w

/-- What the loop ends in. -/
inductive Run
  | done (st : State)
  | fail (rp : List Part) (err : Str)
  | panic
  | fuel
deriving DecidableEq, Repr

/-- The loop `for pi > 0 && ri >= 0`, at most `n` passes. -/
def run (sw : Str → Nat) (pic : Str) : Nat → State → Run
  | n, st =>
    if st.pi > 0 ∧ st.ri ≥ 0 then
      match n with
      | 0 => .fuel
      | n + 1 =>
        match body sw pic st with
        | .cont st1 => run sw pic n st1
        | .brk st1 => .done st1
        | .fail rp e => .fail rp e
        | .panic => .panic
    else .done st

/-- The string `pic` of `ckPicStr`. -/
def mkPic (inp : Str) : Str := [63] ++ inp ++ [32]

/-- The state of `ckPicStr` when it enters its loop. -/
def init (inp : Str) : State :=
  { pi := (mkPic inp).length - 1
    bi := ⟨0, 0⟩
    quoted := false
    label := false
    ri := 254
    curbitstart := ⟨0, 0⟩
    curpicend := (mkPic inp).length - 1 - 1
    prevcmd := 84
    rp := [⟨[124], [124], []⟩] }

/-- The loop of `ckPicStr` on the input `inp`. -/
def scan (sw : Str → Nat) (inp : Str) : Run :=
  run sw (mkPic inp) (mkPic inp).length (init inp)

/-- Result of a Go function that may panic or (in the model) run out of fuel. -/
inductive Res (α : Type)
  | ret (a : α)
  | panic
  | fuel
deriving DecidableEq, Repr

/-- Function `ckPicStr(inp)`: the slice `rp[ri:]` and the error. -/
def ckPicStr (sw : Str → Nat) (inp : Str) : Res (List Part × Option Str) :=
  match scan sw inp with
  | .fuel => .fuel
  | .panic => .panic
  | .fail rp e => .ret (rp, some e)
  | .done st =>
    if st.ri < 0 ∨ 255 < st.ri then .panic
    else if st.bi.val > 64 then
      .ret (⟨bytes (" ERR:"), bytes ("     "), bytes ("cmds:¨")⟩ :: st.rp, some errOverflow)
    else .ret (⟨bytes ("bits:"), bytes ("     "), bytes ("cmds:¨")⟩ :: st.rp, none)

/-- Function `Lint(pic)`: the four lines `o[0] .. o[3]`. -/
def Lint (sw : Str → Nat) (pic : Str) : Res (List Str) :=
  match ckPicStr sw pic with
  | .fuel => .fuel
  | .panic => .panic
  | .ret (rp, err) =>
    let e0 : Str :=
      match err with
      | some e => bytes ("Error: ") ++ e
      | none => bytes ("OK.")
    .ret [e0, (rp.map Part.bits).flatten, (rp.map Part.mark).flatten, (rp.map Part.pics).flatten]

/-- A sample display width: additive over bytes, one column for an ASCII
byte and for the lead byte of a two-byte character, two columns for the lead
byte of a three-byte character from U+3000 up, none for a continuation byte. -/
def sampleWidth (s : Str) : Nat :=
  (s.map (fun b => if 0x80 ≤ b ∧ b < 0xC0 then 0 else if 0xE3 ≤ b ∧ b ≤ 0xEF then 2 else 1)).sum

/-! ## Definitions used in the statements and the proofs -/

/-- Bits of the completing letter of a hex number: 1 for `B`, 2 for `E`, 3 for
`F`, none when there is no completing letter. -/
def completerBits (comp : Str) : Nat :=
  if comp = [66] then 1 else if comp = [69] then 2 else if comp = [70] then 3 else 0

/-- The bits segment of a single-bit field in the words of the specification:
`|l`, with spaces between the bar and `l` up to the length `c + 1`. -/
def singleBitSpec (l c : Nat) : Str :=
  [124] ++ List.replicate (c + 1 - ([124] ++ dec l).length) 32 ++ dec l

/-- The bits segment of a multi-bit field in the words of the specification:
`|h wb l` if the label fits, else `|h.. wb ..l` if it fits, else that form
with `adj` spaces around `wb`. -/
def multiBitSpec (h w l c : Nat) : Str :=
  let mid := [124] ++ dec h ++ [32] ++ dec w ++ [98, 32] ++ dec l
  let long := [124] ++ dec h ++ [46, 46, 32] ++ dec w ++ [98, 32, 46, 46] ++ dec l
  let adj := c + 1 - long.length
  if c + 1 ≤ mid.length then mid
  else if c + 1 ≤ long.length then long
  else [124] ++ dec h ++ [46, 46, 32] ++ List.replicate (adj - adj / 2) 32 ++ dec w ++ [98]
    ++ List.replicate (adj / 2) 32 ++ [32, 46, 46] ++ dec l

/-- The bits segment of the field of width `w` (as the 16-bit counter has it),
high bit `h`, low bit `l`, whose label has display width `c`. -/
def bitsSegment (h w l c : Nat) : Str :=
  if w = 1 then singleBitSpec l c else if w > 1 then multiBitSpec h w l c else []

/-- The 16-bit counter agrees with its ghost exact copy. -/
def Ctr.ok (c : Ctr) : Prop := c.val = c.exact % 65536

/-- The state after the output of the part `p` and a successful command `w`. -/
def afterCmd (pic : Str) (st : State) (p : Part) (w : Nat) : State :=
  { st with
    rp := p :: st.rp
    ri := st.ri - 1
    curpicend := st.pi
    curbitstart := st.bi
    pi := (command pic st.pi st.bi w).1
    bi := (command pic st.pi st.bi w).2.1
    prevcmd := (command pic st.pi st.bi w).2.2.1 }

/-- The state after the output of the last part `p`, at the sentinel. -/
def afterLast (st : State) (p : Part) : State :=
  { st with rp := p :: st.rp, ri := st.ri - 1 }

/-- A pass of the loop that outputs nothing: `continue` in the first switch. -/
def State.skipTo (st st1 : State) : Prop :=
  st1.pi < st.pi ∧ st1.bi = st.bi ∧ st1.ri = st.ri ∧ st1.rp = st.rp ∧
    st1.curpicend = st.curpicend ∧ st1.curbitstart = st.curbitstart ∧ st1.prevcmd = st.prevcmd ∧
    (st1.label = true → st.label = true)

/-- The state in which `emit` runs: `pi` decremented, maybe `label` set. -/
def State.atCmd (st st0 : State) : Prop :=
  st0.pi = st.pi - 1 ∧ st0.bi = st.bi ∧ st0.ri = st.ri ∧ st0.rp = st.rp ∧
    st0.curpicend = st.curpicend ∧ st0.curbitstart = st.curbitstart ∧ st0.prevcmd = st.prevcmd

/-- The state `t` is reached from `s` by passes of the loop. -/
inductive Reach (sw : Str → Nat) (pic : Str) : State → State → Prop
  | refl (s : State) : Reach sw pic s s
  | step {s t u : State} : Reach sw pic s t → 0 < t.pi → 0 ≤ t.ri →
      body sw pic t = .cont u → Reach sw pic s u

/-- Removal of every filler character `¨` (the bytes `C2 A8`) from a line. -/
def stripDia : Str → Str
  | [] => []
  | [b] => [b]
  | b :: c :: r => if b = 0xC2 ∧ c = 0xA8 then stripDia r else b :: stripDia (c :: r)

/-- The string contains the character `¨` (the bytes `C2 A8`). -/
def hasDia : Str → Bool
  | [] => false
  | [_] => false
  | b :: c :: r => (b = 0xC2 ∧ c = 0xA8) || hasDia (c :: r)

/-- The cmds segments written so far, concatenated. -/
def picsOf (rp : List Part) : Str := (rp.map Part.pics).flatten

/-- Invariant of the loop of `ckPicStr` on the picture `pic`. -/
def Inv (pic : Str) (st : State) : Prop :=
  st.ri + st.rp.length = 255 ∧ st.bi.ok ∧ 1 ≤ st.pi ∧
  st.pi ≤ st.curpicend + 1 ∧ st.curpicend + 2 ≤ pic.length ∧
  (st.prevcmd = 84 → picsOf st.rp = [] ∧ st.curpicend + 2 = pic.length) ∧
  (st.prevcmd ≠ 84 → st.pi ≤ st.curpicend ∧ byteAt pic st.curpicend ≠ 0xC2) ∧
  (hasDia pic = false →
    stripDia (picsOf st.rp) = slice pic (st.curpicend + 1) (pic.length - 1))

/-- The bits segments written so far, concatenated. -/
def bitsOf (rp : List Part) : Str := (rp.map Part.bits).flatten

/-- The mark segments written so far, concatenated. -/
def marksOf (rp : List Part) : Str := (rp.map Part.mark).flatten

/-- Number of fields in the output: `rp` holds the closing part, the tail of
the picture and one part for each field. -/
def fieldCount (st : State) : Nat := st.rp.length - 2

/-- The state in which the loop was left (the initial state of the empty
picture if it was not left normally). -/
def finalState (r : Run) : State :=
  match r with
  | .done st => st
  | _ => init []

/-- The part of a field that is one single-bit command `c` alone, at bit `l`,
in the words of the specification: a single-bit segment as wide as the label,
a mark under its last column, the label `c` after the filler. -/
def singleBitField (sw : Str → Nat) (c l : Nat) : Part :=
  { bits := singleBitSpec l (sw [c])
    mark := [32] ++ List.replicate ((singleBitSpec l (sw [c])).length - 2) 32 ++ [94]
    pics := (List.replicate ((singleBitSpec l (sw [c])).length - (sw [c] + 1)) dia).flatten
      ++ [c] ++ dia }

/-- A position `p` returned with an error for the command at `cpe` from which
the caret line has a caret. -/
def caretCond (pic : Str) (p cpe : Nat) : Prop :=
  p ≤ 2 ∨ p + 2 ≤ cpe ∨ (1 ≤ p ∧ p ≤ cpe ∧ byteAt pic (p - 1) < 128) ∨
    (p < cpe ∧ byteAt pic p < 128)

/-! ## Bytes and counters -/

theorem lor3_val (w : Nat) : w ||| 3 = 4 * (w / 4) + 3 := by
  have h1 : (w ||| 3) % 2 = 1 := by simp [Nat.or_mod_two_eq_one]
  have h2 : (w ||| 3) / 2 = w / 2 ||| 1 := by rw [Nat.or_div_two]
  have h3 : (w / 2 ||| 1) % 2 = 1 := by simp [Nat.or_mod_two_eq_one]
  have h4 : (w / 2 ||| 1) / 2 = w / 2 / 2 := by rw [Nat.or_div_two]; simp
  omega

theorem lor3_iff (w : Nat) : w ||| 3 = 63 ↔ 60 ≤ w ∧ w ≤ 63 := by
  rw [lor3_val]; omega

theorem lor1_val (w : Nat) : w ||| 1 = 2 * (w / 2) + 1 := by
  have h1 : (w ||| 1) % 2 = 1 := by simp [Nat.or_mod_two_eq_one]
  have h2 : (w ||| 1) / 2 = w / 2 := by rw [Nat.or_div_two]; simp
  omega

theorem lor1_iff (w : Nat) : w ||| 1 = 0x3b ↔ w = 58 ∨ w = 59 := by
  rw [lor1_val]; omega

theorem Ctr.add_add (c : Ctr) (x y : Nat) : (c.add x).add y = c.add (x + y) := by
  simp only [Ctr.add, Ctr.mk.injEq]
  constructor <;> omega

theorem byteAt_append_left (a b : Str) (i : Nat) (h : i < a.length) :
    byteAt (a ++ b) i = byteAt a i := by
  unfold byteAt; exact List.getD_append _ _ _ _ h

theorem byteAt_append_right (a b : Str) (i : Nat) (h : a.length ≤ i) :
    byteAt (a ++ b) i = byteAt b (i - a.length) := by
  unfold byteAt; exact List.getD_append_right _ _ _ _ h

theorem byteAt_replicate (n x i : Nat) (h : i < n) : byteAt (List.replicate n x) i = x := by
  simp [byteAt, List.getD_eq_getElem?_getD, List.getElem?_replicate, h]

theorem byteAt_getLast (a : Str) (x : Nat) (h : a.getLast? = some x) :
    byteAt a (a.length - 1) = x := by
  rw [List.getLast?_eq_getElem?] at h
  simp [byteAt, List.getD_eq_getElem?_getD, h]

/-! ## Runs of `H` in `ckRanges` -/

theorem nextH_run (pic : Str) (a : Nat) (hstop : a = 0 ∨ byteAt pic (a - 1) ≠ 72) :
    ∀ (m : Nat) (bi : Ctr), (∀ i, i < m → byteAt pic (a + i) = 72) →
      nextH pic (a + m) bi = (a, bi.add (4 * (m + 1))) := by
  intro m
  induction m with
  | zero =>
    intro bi _
    cases a with
    | zero => simp [nextH]
    | succ p =>
      have h : byteAt pic p ≠ 72 := by simpa using hstop
      simp [nextH, h]
  | succ m ih =>
    intro bi hrun
    have h1 : byteAt pic (a + m) = 72 := hrun m (by omega)
    have h2 : nextH pic (a + (m + 1)) bi = nextH pic (a + m) (bi.add 4) := by
      show nextH pic (a + m + 1) bi = _
      simp [nextH, h1]
    rw [h2, ih (bi.add 4) (fun i hi => hrun i (by omega)), Ctr.add_add]
    congr 2
    omega

theorem ckRanges_hex_aux (pic : Str) (a n : Nat) (bi : Ctr) (hn : 1 ≤ n)
    (hrun : ∀ i, i < n → byteAt pic (a + i) = 72)
    (hstop : a = 0 ∨ byteAt pic (a - 1) ≠ 72) :
    ckRanges pic (a + n - 1) bi =
      ((hexCompleter pic a (bi.add (4 * n))).1, (hexCompleter pic a (bi.add (4 * n))).2,
        if (hexCompleter pic a (bi.add (4 * n))).1 > 0 ∧
          (byteAt pic ((hexCompleter pic a (bi.add (4 * n))).1 - 1) = 72 ∨
           byteAt pic ((hexCompleter pic a (bi.add (4 * n))).1 - 1) = 70 ∨
           byteAt pic ((hexCompleter pic a (bi.add (4 * n))).1 - 1) = 69 ∨
           byteAt pic ((hexCompleter pic a (bi.add (4 * n))).1 - 1) = 66) then
          some errBadHex
        else none) := by
  obtain ⟨m, rfl⟩ : ∃ m, n = m + 1 := ⟨n - 1, by omega⟩
  have hw : byteAt pic (a + (m + 1) - 1) = 72 := by
    have := hrun m (by omega)
    simpa using this
  have hH : nextH pic (a + (m + 1) - 1) bi = (a, bi.add (4 * (m + 1))) := by
    have := nextH_run pic a hstop m bi (fun i hi => hrun i (by omega))
    simpa using this
  unfold ckRanges
  simp only [hw, hH, if_true]

theorem byteAt_shape_run (pre comp post : Str) (n i : Nat) (h : i < n) :
    byteAt (pre ++ comp ++ List.replicate n 72 ++ post) (pre.length + comp.length + i) = 72 := by
  rw [byteAt_append_left _ _ _ (by simp; omega),
    byteAt_append_right _ _ _ (by simp)]
  simp only [List.length_append, Nat.add_sub_cancel_left]
  exact byteAt_replicate n 72 i h

theorem byteAt_shape_comp (pre comp post : Str) (n j : Nat) (h : j < comp.length) :
    byteAt (pre ++ comp ++ List.replicate n 72 ++ post) (pre.length + j) = byteAt comp j := by
  rw [byteAt_append_left _ _ _ (by simp; omega), byteAt_append_left _ _ _ (by simp; omega),
    byteAt_append_right _ _ _ (by simp)]
  simp

theorem byteAt_shape_pre (pre comp post : Str) (n j : Nat) (h : j < pre.length) :
    byteAt (pre ++ comp ++ List.replicate n 72 ++ post) j = byteAt pre j := by
  rw [byteAt_append_left _ _ _ (by simp; omega), byteAt_append_left _ _ _ (by simp; omega),
    byteAt_append_left _ _ _ h]

theorem ckRanges_hex_plain (pic : Str) (a n : Nat) (bi : Ctr) (hn : 1 ≤ n)
    (hrun : ∀ i, i < n → byteAt pic (a + i) = 72)
    (hbefore : a = 0 ∨ (byteAt pic (a - 1) ≠ 66 ∧ byteAt pic (a - 1) ≠ 69 ∧
      byteAt pic (a - 1) ≠ 70 ∧ byteAt pic (a - 1) ≠ 72)) :
    ckRanges pic (a + n - 1) bi = (a, bi.add (4 * n), none) := by
  rw [ckRanges_hex_aux pic a n bi hn hrun (by omega)]
  rcases hbefore with h | ⟨h1, h2, h3, h4⟩
  · simp [h, hexCompleter]
  · by_cases ha : a > 0
    · simp [ha, h1, h2, h3, h4, hexCompleter]
    · simp [ha, hexCompleter]

theorem ckRanges_hex_completed (pic : Str) (a n c : Nat) (bi : Ctr) (hn : 1 ≤ n)
    (hrun : ∀ i, i < n → byteAt pic (a + 1 + i) = 72)
    (hc : byteAt pic a = c) (hc3 : c = 66 ∨ c = 69 ∨ c = 70)
    (hbefore : a = 0 ∨ (byteAt pic (a - 1) ≠ 66 ∧ byteAt pic (a - 1) ≠ 69 ∧
      byteAt pic (a - 1) ≠ 70 ∧ byteAt pic (a - 1) ≠ 72)) :
    ckRanges pic (a + 1 + n - 1) bi = (a, bi.add (4 * n + completerBits [c]), none) := by
  have hstop : a + 1 = 0 ∨ byteAt pic (a + 1 - 1) ≠ 72 := by
    right; simp only [Nat.add_sub_cancel]; omega
  rw [ckRanges_hex_aux pic (a + 1) n bi hn hrun hstop]
  simp only [hexCompleter, Nat.add_sub_cancel, hc]
  rcases hbefore with h | ⟨h1, h2, h3, h4⟩
  · rcases hc3 with rfl | rfl | rfl <;> simp [h, completerBits, Ctr.add_add]
  · by_cases ha : a > 0
    · rcases hc3 with rfl | rfl | rfl <;>
        simp [ha, h1, h2, h3, h4, completerBits, Ctr.add_add]
    · rcases hc3 with rfl | rfl | rfl <;> simp [ha, completerBits, Ctr.add_add]

/-- C8. Hex widths: called on the last letter of a run of exactly `n ≥ 1`
letters `H` that is preceded by one completing letter `B`, `E` or `F`, or by
none, where the byte before the whole shape (if there is one) is none of
`B`, `E`, `F`, `H`, the function `ckRanges` succeeds, moves the position to
the first letter of the shape and commits exactly `4n` bits plus 1 for `B`,
2 for `E`, 3 for `F` (in the 16-bit counter: modulo `2^16`). -/
theorem ckRanges_hex_widths (pre comp post : Str) (n : Nat) (bi : Ctr) (hn : 1 ≤ n)
    (hcomp : comp = [] ∨ comp = [66] ∨ comp = [69] ∨ comp = [70])
    (hpre : ∀ x, pre.getLast? = some x → x ≠ 66 ∧ x ≠ 69 ∧ x ≠ 70 ∧ x ≠ 72) :
    ckRanges (pre ++ comp ++ List.replicate n 72 ++ post)
        (pre.length + comp.length + n - 1) bi
      = (pre.length, bi.add (4 * n + completerBits comp), none) := by
  have hlast : pre.length = 0 ∨
      (byteAt (pre ++ comp ++ List.replicate n 72 ++ post) (pre.length - 1) ≠ 66 ∧
       byteAt (pre ++ comp ++ List.replicate n 72 ++ post) (pre.length - 1) ≠ 69 ∧
       byteAt (pre ++ comp ++ List.replicate n 72 ++ post) (pre.length - 1) ≠ 70 ∧
       byteAt (pre ++ comp ++ List.replicate n 72 ++ post) (pre.length - 1) ≠ 72) := by
    rcases List.eq_nil_or_concat pre with h | ⟨p, x, h⟩
    · left; simp [h]
    · right
      have hx := hpre x (by simp [h])
      have h1 : byteAt pre (pre.length - 1) = x := byteAt_getLast pre x (by simp [h])
      have hp : pre.length - 1 < pre.length := by simp [h]
      rw [byteAt_shape_pre pre comp post n _ hp, h1]
      exact hx
  have hrun := fun i (hi : i < n) => byteAt_shape_run pre comp post n i hi
  have hcomp0 : 0 < comp.length →
      byteAt (pre ++ comp ++ List.replicate n 72 ++ post) pre.length = byteAt comp 0 :=
    fun h => byteAt_shape_comp pre comp post n 0 h
  generalize pre ++ comp ++ List.replicate n 72 ++ post = pic at hlast hrun hcomp0 ⊢
  rcases hcomp with rfl | rfl | rfl | rfl
  · have := ckRanges_hex_plain pic pre.length n bi hn hrun hlast
    simpa [completerBits] using this
  · exact ckRanges_hex_completed pic pre.length n 66 bi hn hrun (hcomp0 (by simp))
      (by simp) hlast
  · exact ckRanges_hex_completed pic pre.length n 69 bi hn hrun (hcomp0 (by simp))
      (by simp) hlast
  · exact ckRanges_hex_completed pic pre.length n 70 bi hn hrun (hcomp0 (by simp))
      (by simp) hlast

theorem ckRanges_hex_widths_witness :
    ckRanges (bytes ("x:") ++ [66] ++ List.replicate 3 72 ++ bytes (" y")) (2 + 1 + 3 - 1) ⟨0, 0⟩
      = (2, ⟨13, 13⟩, none) :=
  ckRanges_hex_widths (bytes ("x:")) [66] (bytes (" y")) 3 ⟨0, 0⟩ (by decide) (by decide)
    (by decide)

/-! ## The bits segment -/

theorem singleBitSpec_length (l c : Nat) :
    (singleBitSpec l c).length = max (c + 1) (1 + (dec l).length) := by
  simp only [singleBitSpec, List.length_append, List.length_replicate, List.length_singleton]
  omega

theorem multiBitSpec_length_ge (h w l c : Nat) : c + 1 ≤ (multiBitSpec h w l c).length := by
  unfold multiBitSpec
  simp only
  split_ifs with h1 h2
  · exact h1
  · exact h2
  · simp only [List.length_append, List.length_replicate, List.length_singleton,
      List.length_cons, List.length_nil] at h1 h2 ⊢
    omega

theorem multiBitSpec_length_padded (h w l c : Nat)
    (hc : ([124] ++ dec h ++ [46, 46, 32] ++ dec w ++ [98, 32, 46, 46] ++ dec l).length < c + 1) :
    (multiBitSpec h w l c).length = c + 1 := by
  unfold multiBitSpec
  simp only [List.length_append, List.length_replicate, List.length_singleton,
      List.length_cons, List.length_nil] at hc ⊢
  split_ifs with h1 h2
  · omega
  · omega
  · simp only [List.length_append, List.length_replicate, List.length_singleton,
      List.length_cons, List.length_nil]
    omega

theorem bitDesc_eq (bi cbs c : Nat) :
    bitDesc bi cbs (c + 1) = some
      (if (bi + 65536 - cbs) % 65536 = 1 then singleBitSpec cbs c
       else if (bi + 65536 - cbs) % 65536 > 1 then
         multiBitSpec ((bi + 65535) % 65536) ((bi + 65536 - cbs) % 65536) cbs c
       else []) := by
  unfold bitDesc
  simp only
  by_cases h1 : (bi + 65536 - cbs) % 65536 = 1
  · have h2 : ¬ (1 > 1) := by omega
    simp only [h1, if_true, h2, if_false]
    unfold singleBitSpec
    split_ifs with h3
    · rfl
    · have : c + 1 - ([124] ++ dec cbs).length = 0 := by omega
      rw [this]; rfl
  · by_cases h2 : (bi + 65536 - cbs) % 65536 > 1
    · simp only [h1, if_false, h2, if_true]
      unfold multiBitSpec
      simp only
      split_ifs with h3 h4 h5
      · rfl
      · rfl
      · simp
      · omega
    · simp [h1, h2]

theorem toDigitsCore_length_ge (b : Nat) :
    ∀ (f n : Nat) (ds : List Char), ds.length ≤ (Nat.toDigitsCore b f n ds).length := by
  intro f
  induction f with
  | zero => intro n ds; simp [Nat.toDigitsCore]
  | succ f ih =>
    intro n ds
    simp only [Nat.toDigitsCore]
    split_ifs
    · simp
    · have := ih (n / b) (Nat.digitChar (n % b) :: ds)
      simp only [List.length_cons] at this
      omega

theorem dec_length_pos (n : Nat) : 1 ≤ (dec n).length := by
  simp only [dec, List.length_map, Nat.toDigits, Nat.toDigitsCore]
  split_ifs
  · simp
  · have := toDigitsCore_length_ge 10 n (n / 10) [Nat.digitChar (n % 10)]
    simpa using this

theorem bitsSegment_length_ge (h w l c : Nat) (hw : 1 ≤ w) :
    c + 1 ≤ (bitsSegment h w l c).length := by
  unfold bitsSegment
  split_ifs with h1 h2
  · rw [singleBitSpec_length]; omega
  · exact multiBitSpec_length_ge h w l c
  · omega

theorem bitsSegment_length_two (h w l c : Nat) (hw : 1 ≤ w) :
    2 ≤ (bitsSegment h w l c).length := by
  have hd := dec_length_pos
  unfold bitsSegment
  split_ifs with h1 h2
  · rw [singleBitSpec_length]; have := hd l; omega
  · have h3 := multiBitSpec_length_ge h w l c
    unfold multiBitSpec at h3 ⊢
    simp only at h3 ⊢
    split_ifs with h4 h5 <;>
      simp only [List.length_append, List.length_replicate, List.length_singleton,
        List.length_cons, List.length_nil] <;> omega
  · omega

theorem renderPart_eq (sw : Str → Nat) (pic : Str) (pi cpe : Nat) (bi cbs : Ctr) :
    renderPart sw pic pi cpe bi cbs = some
      { bits := bitsSegment ((bi.val + 65535) % 65536) ((bi.val + 65536 - cbs.val) % 65536)
          cbs.val (sw (slice pic pi cpe))
        mark :=
          if (bi.val + 65536 - cbs.val) % 65536 > 0 then
            [32] ++ List.replicate ((bitsSegment ((bi.val + 65535) % 65536)
              ((bi.val + 65536 - cbs.val) % 65536) cbs.val (sw (slice pic pi cpe))).length - 2) 32
              ++ [94]
          else []
        pics :=
          (List.replicate ((bitsSegment ((bi.val + 65535) % 65536)
              ((bi.val + 65536 - cbs.val) % 65536) cbs.val (sw (slice pic pi cpe))).length
              - (sw (slice pic pi cpe) + 1)) dia).flatten
            ++ slice pic (pi + 1) (cpe + 1) ++ dia } := by
  unfold renderPart
  simp only [bitDesc_eq, bitsSegment]
  simp

/-- C7. Bits-segment form: `ckPicStr` renders the bits segment of a multi-bit
field with high bit `h`, width `w`, low bit `l` and label width `c` as
`|h wb l` if `c+1` is at most its length, else as `|h.. wb ..l` if `c+1` is at
most its length, else as `|h.. ` + `adj - adj/2` spaces + `wb` + `adj/2`
spaces + ` ..l`, of length exactly `c+1`; a single-bit field as `|l`, with
spaces after the bar up to the length `c+1`.  The segment of a field of width
at least 1 is at least `c+1` long, and rendering never reaches
`panic("May not happen!")`. -/
theorem renderPart_bits_form (sw : Str → Nat) (pic : Str) (pi cpe : Nat) (bi cbs : Ctr) :
    ∃ p, renderPart sw pic pi cpe bi cbs = some p ∧
      p.bits =
        (if (bi.val + 65536 - cbs.val) % 65536 = 1 then
          singleBitSpec cbs.val (sw (slice pic pi cpe))
        else if (bi.val + 65536 - cbs.val) % 65536 > 1 then
          multiBitSpec ((bi.val + 65535) % 65536) ((bi.val + 65536 - cbs.val) % 65536) cbs.val
            (sw (slice pic pi cpe))
        else []) ∧
      (1 ≤ (bi.val + 65536 - cbs.val) % 65536 → sw (slice pic pi cpe) + 1 ≤ p.bits.length) ∧
      (1 < (bi.val + 65536 - cbs.val) % 65536 →
        ([124] ++ dec ((bi.val + 65535) % 65536) ++ [46, 46, 32]
          ++ dec ((bi.val + 65536 - cbs.val) % 65536) ++ [98, 32, 46, 46] ++ dec cbs.val).length
          < sw (slice pic pi cpe) + 1 →
        p.bits.length = sw (slice pic pi cpe) + 1) ∧
      ((bi.val + 65536 - cbs.val) % 65536 = 1 →
        ([124] ++ dec cbs.val).length < sw (slice pic pi cpe) + 1 →
        p.bits.length = sw (slice pic pi cpe) + 1) := by
  refine ⟨_, renderPart_eq sw pic pi cpe bi cbs, rfl, ?_, ?_, ?_⟩
  · intro hw
    exact bitsSegment_length_ge _ _ _ _ hw
  · intro hw hlong
    have h1 : ¬ ((bi.val + 65536 - cbs.val) % 65536 = 1) := by omega
    simp only [bitsSegment, h1, if_false, hw, if_true]
    exact multiBitSpec_length_padded _ _ _ _ hlong
  · intro hw hshort
    simp only [bitsSegment, hw, if_true]
    rw [singleBitSpec_length]
    simp only [List.length_append, List.length_singleton] at hshort
    omega

/-! ## The validators never move right, never reach the sentinel, keep the counter -/

theorem Ctr.add_ok (c : Ctr) (x : Nat) (h : c.ok) : (c.add x).ok := by
  simp only [Ctr.ok, Ctr.add] at h ⊢
  omega

theorem Ctr.add_exact_ge (c : Ctr) (x : Nat) : c.exact ≤ (c.add x).exact := by
  simp [Ctr.add]

theorem nextH_spec (pic : Str) (h0 : byteAt pic 0 ≠ 72) :
    ∀ (p : Nat) (bi : Ctr), (nextH pic p bi).1 ≤ p ∧ (1 ≤ p → 1 ≤ (nextH pic p bi).1) ∧
      (bi.ok → (nextH pic p bi).2.ok) := by
  intro p
  induction p with
  | zero => intro bi; simp [nextH]; exact Ctr.add_ok bi 4
  | succ p ih =>
    intro bi
    simp only [nextH]
    split_ifs with h
    · obtain ⟨h1, h2, h3⟩ := ih (bi.add 4)
      refine ⟨by omega, fun _ => ?_, fun hb => h3 (Ctr.add_ok bi 4 hb)⟩
      cases p with
      | zero => exact absurd h h0
      | succ q => exact h2 (by omega)
    · exact ⟨le_refl _, fun _ => by simp, Ctr.add_ok bi 4⟩

theorem nextH_le (pic : Str) : ∀ (p : Nat) (bi : Ctr), (nextH pic p bi).1 ≤ p := by
  intro p
  induction p with
  | zero => intro bi; simp [nextH]
  | succ p ih =>
    intro bi
    simp only [nextH]
    split_ifs with h
    · have := ih (bi.add 4); omega
    · exact le_refl _

theorem nextF_spec (pic : Str) (h0 : byteAt pic 0 ≠ 70) :
    ∀ (p : Nat) (bi : Ctr) (efs : Nat), (nextF pic p bi efs).1 ≤ p ∧
      (1 ≤ p → 1 ≤ (nextF pic p bi efs).1) ∧ (bi.ok → (nextF pic p bi efs).2.1.ok) := by
  intro p
  induction p with
  | zero => intro bi efs; simp [nextF]; exact Ctr.add_ok bi 3
  | succ p ih =>
    intro bi efs
    simp only [nextF]
    split_ifs with h
    · obtain ⟨h1, h2, h3⟩ := ih (bi.add 3) (efs + 1)
      refine ⟨by omega, fun _ => ?_, fun hb => h3 (Ctr.add_ok bi 3 hb)⟩
      cases p with
      | zero => exact absurd h h0
      | succ q => exact h2 (by omega)
    · exact ⟨le_refl _, fun _ => by simp, Ctr.add_ok bi 3⟩

theorem nextF_le (pic : Str) :
    ∀ (p : Nat) (bi : Ctr) (efs : Nat), (nextF pic p bi efs).1 ≤ p := by
  intro p
  induction p with
  | zero => intro bi efs; simp [nextF]
  | succ p ih =>
    intro bi efs
    simp only [nextF]
    split_ifs with h
    · have := ih (bi.add 3) (efs + 1); omega
    · exact le_refl _

theorem nextE_spec (pic : Str) (h0 : byteAt pic 0 ≠ 69) :
    ∀ (p : Nat) (bi : Ctr) (efs : Nat), (nextE pic p bi efs).1 ≤ p ∧
      (1 ≤ p → 1 ≤ (nextE pic p bi efs).1) ∧ (bi.ok → (nextE pic p bi efs).2.1.ok) := by
  intro p
  induction p with
  | zero => intro bi efs; simp [nextE]; exact Ctr.add_ok bi 2
  | succ p ih =>
    intro bi efs
    simp only [nextE]
    split_ifs with h
    · obtain ⟨h1, h2, h3⟩ := ih (bi.add 2) (efs + 1)
      refine ⟨by omega, fun _ => ?_, fun hb => h3 (Ctr.add_ok bi 2 hb)⟩
      cases p with
      | zero => exact absurd h h0
      | succ q => exact h2 (by omega)
    · exact ⟨le_refl _, fun _ => by simp, Ctr.add_ok bi 2⟩

theorem nextE_le (pic : Str) :
    ∀ (p : Nat) (bi : Ctr) (efs : Nat), (nextE pic p bi efs).1 ≤ p := by
  intro p
  induction p with
  | zero => intro bi efs; simp [nextE]
  | succ p ih =>
    intro bi efs
    simp only [nextE]
    split_ifs with h
    · have := ih (bi.add 2) (efs + 1); omega
    · exact le_refl _

theorem hexCompleter_spec (pic : Str) (pi : Nat) (bi : Ctr) (h0 : byteAt pic 0 = 63) :
    (hexCompleter pic pi bi).1 ≤ pi ∧ (1 ≤ pi → 1 ≤ (hexCompleter pic pi bi).1) ∧
      (bi.ok → (hexCompleter pic pi bi).2.ok) := by
  have key : ∀ x, byteAt pic (pi - 1) = x → x ≠ 63 → 1 ≤ pi → 1 ≤ pi - 1 := by
    intro x hx hne hp
    by_contra hc
    have h5 : pi - 1 = 0 := by omega
    rw [h5, h0] at hx
    exact hne hx.symm
  unfold hexCompleter
  simp only
  split_ifs with h1 h2 h3 h4
  · exact ⟨by simp, key 70 h2 (by decide), fun hb => Ctr.add_ok _ _ hb⟩
  · exact ⟨by simp, key 69 h3 (by decide), fun hb => Ctr.add_ok _ _ hb⟩
  · exact ⟨by simp, key 66 h4 (by decide), fun hb => Ctr.add_ok _ _ hb⟩
  · exact ⟨by simp, fun hp => by simpa using hp, fun hb => hb⟩
  · exact ⟨le_refl _, fun hp => hp, fun hb => hb⟩

theorem hexCompleter_le (pic : Str) (pi : Nat) (bi : Ctr) : (hexCompleter pic pi bi).1 ≤ pi := by
  unfold hexCompleter
  simp only
  split_ifs <;> simp

theorem octPrefix_spec (pic : Str) (pi : Nat) (bi : Ctr) (efs : Nat) (h0 : byteAt pic 0 = 63) :
    (octPrefix pic pi bi efs).1 ≤ pi ∧ (1 ≤ pi → 1 ≤ (octPrefix pic pi bi efs).1) ∧
      (bi.ok → (octPrefix pic pi bi efs).2.1.ok) := by
  unfold octPrefix
  split_ifs with h1
  · refine ⟨by simp, fun hp => ?_, fun hb => Ctr.add_ok _ _ hb⟩
    simp only
    by_contra hc
    have h5 : pi - 1 = 0 := by omega
    rw [h5, h0] at h1
    omega
  · exact ⟨le_refl _, fun hp => hp, fun hb => hb⟩

theorem octPrefix_le (pic : Str) (pi : Nat) (bi : Ctr) (efs : Nat) :
    (octPrefix pic pi bi efs).1 ≤ pi := by
  unfold octPrefix
  split_ifs <;> simp

theorem ckRanges_le (pic : Str) (pi : Nat) (bi : Ctr) : (ckRanges pic pi bi).1 ≤ pi := by
  have hH := nextH_le pic pi bi
  have hF := nextF_le pic pi bi 1
  have hE := nextE_le pic pi bi 1
  have hH2 := hexCompleter_le pic (nextH pic pi bi).1 (nextH pic pi bi).2
  have hF2 := octPrefix_le pic (nextF pic pi bi 1).1 (nextF pic pi bi 1).2.1
    (nextF pic pi bi 1).2.2
  unfold ckRanges
  simp only
  by_cases h1 : byteAt pic pi = 72
  · rw [if_pos h1]; exact hH2.trans hH
  rw [if_neg h1]
  by_cases h2 : byteAt pic pi = 67
  · rw [if_pos h2]
  rw [if_neg h2]
  by_cases h3 : byteAt pic pi = 65
  · rw [if_pos h3]
  rw [if_neg h3]
  by_cases h4 : byteAt pic pi = 71
  · rw [if_pos h4]
  rw [if_neg h4]
  by_cases h5 : byteAt pic pi = 70
  · rw [if_pos h5]; exact hF2.trans hF
  rw [if_neg h5]
  by_cases h6 : byteAt pic pi = 69
  · rw [if_pos h6]; exact hE
  rw [if_neg h6]

theorem ckRanges_spec (pic : Str) (pi : Nat) (bi : Ctr) (h0 : byteAt pic 0 = 63)
    (hpi : 1 ≤ pi) :
    1 ≤ (ckRanges pic pi bi).1 ∧ (bi.ok → (ckRanges pic pi bi).2.1.ok) := by
  obtain ⟨-, hH1, hH2⟩ := nextH_spec pic (by omega) pi bi
  obtain ⟨-, hF1, hF2⟩ := nextF_spec pic (by omega) pi bi 1
  obtain ⟨-, hE1, hE2⟩ := nextE_spec pic (by omega) pi bi 1
  obtain ⟨-, hC1, hC2⟩ := hexCompleter_spec pic (nextH pic pi bi).1 (nextH pic pi bi).2 h0
  obtain ⟨-, hO1, hO2⟩ := octPrefix_spec pic (nextF pic pi bi 1).1 (nextF pic pi bi 1).2.1
    (nextF pic pi bi 1).2.2 h0
  unfold ckRanges
  simp only
  by_cases h1 : byteAt pic pi = 72
  · rw [if_pos h1]; exact ⟨hC1 (hH1 hpi), fun hb => hC2 (hH2 hb)⟩
  rw [if_neg h1]
  by_cases h2 : byteAt pic pi = 67
  · rw [if_pos h2]; exact ⟨hpi, fun hb => Ctr.add_ok _ _ hb⟩
  rw [if_neg h2]
  by_cases h3 : byteAt pic pi = 65
  · rw [if_pos h3]; exact ⟨hpi, fun hb => Ctr.add_ok _ _ hb⟩
  rw [if_neg h3]
  by_cases h4 : byteAt pic pi = 71
  · rw [if_pos h4]; exact ⟨hpi, fun hb => Ctr.add_ok _ _ hb⟩
  rw [if_neg h4]
  by_cases h5 : byteAt pic pi = 70
  · rw [if_pos h5]; exact ⟨hO1 (hF1 hpi), fun hb => hO2 (hF2 hb)⟩
  rw [if_neg h5]
  by_cases h6 : byteAt pic pi = 69
  · rw [if_pos h6]; exact ⟨hE1 hpi, fun hb => hE2 hb⟩
  rw [if_neg h6]
  exact ⟨hpi, fun hb => hb⟩

theorem leadDist_ge (k : Nat) : 4 ≤ leadDist k := by
  unfold leadDist
  split_ifs <;> omega

theorem ckVarblen_le (pic : Str) (pi : Nat) (bi : Ctr) : (ckVarblen pic pi bi).1 ≤ pi := by
  unfold ckVarblen
  simp only
  split_ifs <;> simp only [] <;> omega

theorem ckVarblen_spec (pic : Str) (pi : Nat) (bi : Ctr) (h0 : byteAt pic 0 = 63)
    (hok : (ckVarblen pic pi bi).2.2 = none) :
    1 ≤ (ckVarblen pic pi bi).1 ∧ (bi.ok → (ckVarblen pic pi bi).2.1.ok) := by
  have key : ∀ d x, d ≤ pi → byteAt pic (pi - d) = x → x ≠ 63 → 1 ≤ pi - d := by
    intro d x hd hx hne
    by_contra hc
    have : pi - d = 0 := by omega
    rw [this, h0] at hx
    exact hne hx.symm
  have hd := leadDist_ge (bitCount pic pi)
  unfold ckVarblen at hok ⊢
  simp only at hok ⊢
  split_ifs at hok ⊢ with h1 h2 h3 h4 h5 h6
  all_goals simp only [reduceCtorEq] at hok
  · exact ⟨key 3 33 (by omega) h3.2 (by decide), fun hb => Ctr.add_ok _ _ hb⟩
  · exact ⟨key _ 68 (by omega) h4.2 (by decide), fun hb => Ctr.add_ok _ _ hb⟩
  · exact ⟨key 14 73 (by omega) h5.2 (by decide), fun hb => Ctr.add_ok _ _ hb⟩

/-! ## One pass of the loop -/

theorem command_le (pic : Str) (pi : Nat) (bi : Ctr) (w : Nat) :
    (command pic pi bi w).1 ≤ pi := by
  unfold command
  by_cases h1 : w ||| 3 = 63 ∨ w = 66
  · rw [if_pos h1]
  rw [if_neg h1]
  by_cases h2 : w = 64
  · rw [if_pos h2]; exact ckVarblen_le pic pi bi
  rw [if_neg h2]; exact ckRanges_le pic pi bi

theorem command_spec (pic : Str) (pi : Nat) (bi : Ctr) (w : Nat) (h0 : byteAt pic 0 = 63)
    (hpi : 1 ≤ pi) (hok : (command pic pi bi w).2.2.2 = none) :
    1 ≤ (command pic pi bi w).1 ∧ (bi.ok → (command pic pi bi w).2.1.ok) ∧
      (command pic pi bi w).2.2.1 ≠ 84 := by
  unfold command at hok ⊢
  by_cases h1 : w ||| 3 = 63 ∨ w = 66
  · rw [if_pos h1]
    exact ⟨hpi, fun hb => Ctr.add_ok _ _ hb, by simp⟩
  rw [if_neg h1] at hok ⊢
  by_cases h2 : w = 64
  · rw [if_pos h2] at hok ⊢
    obtain ⟨h3, h4⟩ := ckVarblen_spec pic pi bi h0 hok
    exact ⟨h3, h4, by simp⟩
  rw [if_neg h2] at hok ⊢
  obtain ⟨h3, h4⟩ := ckRanges_spec pic pi bi h0 hpi
  exact ⟨h3, h4, by simp⟩

theorem outPart_some (sw : Str → Nat) (pic : Str) (st : State) :
    ∃ p, outPart sw pic st = some p := by
  unfold outPart
  split_ifs
  · exact ⟨_, rfl⟩
  · exact ⟨_, renderPart_eq sw pic st.pi st.curpicend st.bi st.curbitstart⟩

theorem emit_eq (sw : Str → Nat) (pic : Str) (st : State) (w : Nat) (p : Part)
    (hp : outPart sw pic st = some p) :
    emit sw pic st w =
      if st.ri < 0 ∨ 255 < st.ri then .panic
      else if st.pi ≤ 0 then .brk (afterLast st p)
      else
        match (command pic st.pi st.bi w).2.2.2 with
        | some e =>
          .fail [⟨[], slice pic 1 pic.length,
            caretLine pic (command pic st.pi st.bi w).1 st.pi ++ bytes ("HERE")⟩] e
        | none => .cont (afterCmd pic st p w) := by
  unfold emit
  simp only [hp]
  rfl

theorem emit_cont (sw : Str → Nat) (pic : Str) (st st1 : State) (w : Nat)
    (h : emit sw pic st w = .cont st1) :
    0 < st.pi ∧ 0 ≤ st.ri ∧ st.ri ≤ 255 ∧ (command pic st.pi st.bi w).2.2.2 = none ∧
      ∃ p, outPart sw pic st = some p ∧ st1 = afterCmd pic st p w := by
  obtain ⟨p, hp⟩ := outPart_some sw pic st
  rw [emit_eq sw pic st w p hp] at h
  split_ifs at h with h1 h2
  have h3 : ¬ (st.ri < 0) := fun hc => h1 (Or.inl hc)
  have h4 : ¬ (255 < st.ri) := fun hc => h1 (Or.inr hc)
  cases hc : (command pic st.pi st.bi w).2.2.2 with
  | some e => rw [hc] at h; simp at h
  | none =>
    rw [hc] at h
    simp only [Step.cont.injEq] at h
    exact ⟨by omega, by omega, by omega, rfl, p, hp, h.symm⟩

theorem emit_brk (sw : Str → Nat) (pic : Str) (st st1 : State) (w : Nat)
    (h : emit sw pic st w = .brk st1) :
    st.pi = 0 ∧ 0 ≤ st.ri ∧ st.ri ≤ 255 ∧ ∃ p, outPart sw pic st = some p ∧ st1 = afterLast st p := by
  obtain ⟨p, hp⟩ := outPart_some sw pic st
  rw [emit_eq sw pic st w p hp] at h
  split_ifs at h with h1 h2
  · have h3 : ¬ (st.ri < 0) := fun hc => h1 (Or.inl hc)
    have h4 : ¬ (255 < st.ri) := fun hc => h1 (Or.inr hc)
    simp only [Step.brk.injEq] at h
    exact ⟨by omega, by omega, by omega, p, hp, h.symm⟩
  · cases hc : (command pic st.pi st.bi w).2.2.2 with
    | some e => rw [hc] at h; simp at h
    | none => rw [hc] at h; simp at h

theorem body_cases (sw : Str → Nat) (pic : Str) (st : State) (hpi : 0 < st.pi)
    (h0 : byteAt pic 0 = 63) :
    (∃ st1, body sw pic st = .cont st1 ∧ st.skipTo st1 ∧ 1 ≤ st1.pi) ∨
    (∃ st0 w, body sw pic st = emit sw pic st0 w ∧ st.atCmd st0 ∧
      (st0.pi = 0 ∨ (w = byteAt pic st0.pi ∧ 60 ≤ w ∧ w ≤ 72 ∧ w ≠ 68))) := by
  unfold body
  simp only
  by_cases c1 : st.pi - 1 = 0
  · right
    rw [if_pos c1]
    exact ⟨_, _, rfl, ⟨rfl, rfl, rfl, rfl, rfl, rfl, rfl⟩, Or.inl c1⟩
  rw [if_neg c1]
  by_cases c2 : st.pi - 1 > 0 ∧ byteAt pic (st.pi - 1 - 1) = 92
  · left
    rw [if_pos c2]
    refine ⟨_, rfl, ⟨by simp only; omega, rfl, rfl, rfl, rfl, rfl, rfl, fun h => h⟩, ?_⟩
    simp only
    by_contra hc
    have : st.pi - 1 - 1 = 0 := by omega
    rw [this, h0] at c2
    omega
  rw [if_neg c2]
  by_cases c3 : byteAt pic (st.pi - 1) = 39 ∧ (st.label = true ∨ st.quoted = true)
  · left
    rw [if_pos c3]
    exact ⟨_, rfl, ⟨by simp only; omega, rfl, rfl, rfl, rfl, rfl, rfl, by simp⟩,
      by simp only; omega⟩
  rw [if_neg c3]
  by_cases c4 : byteAt pic (st.pi - 1) = 39
  · left
    rw [if_pos c4]
    exact ⟨_, rfl, ⟨by simp only; omega, rfl, rfl, rfl, rfl, rfl, rfl, fun h => h⟩,
      by simp only; omega⟩
  rw [if_neg c4]
  by_cases c5 : st.quoted = true ∧ byteAt pic (st.pi - 1) ≠ 39
  · left
    rw [if_pos c5]
    exact ⟨_, rfl, ⟨by simp only; omega, rfl, rfl, rfl, rfl, rfl, rfl, fun h => h⟩,
      by simp only; omega⟩
  rw [if_neg c5]
  by_cases c6 : st.label = true ∧ byteAt pic (st.pi - 1) ||| 3 ≠ 63
  · left
    rw [if_pos c6]
    exact ⟨_, rfl, ⟨by simp only; omega, rfl, rfl, rfl, rfl, rfl, rfl, fun h => h⟩,
      by simp only; omega⟩
  rw [if_neg c6]
  by_cases c7 : byteAt pic (st.pi - 1) ||| 3 = 63
  · right
    rw [if_pos c7]
    have := (lor3_iff _).mp c7
    exact ⟨_, _, rfl, ⟨rfl, rfl, rfl, rfl, rfl, rfl, rfl⟩, Or.inr ⟨rfl, by omega, by omega, by omega⟩⟩
  rw [if_neg c7]
  by_cases c8 : byteAt pic (st.pi - 1) = 68 ∨ byteAt pic (st.pi - 1) < 0x3c ∨
      byteAt pic (st.pi - 1) > 0x48
  · left
    rw [if_pos c8]
    exact ⟨_, rfl, ⟨by simp only; omega, rfl, rfl, rfl, rfl, rfl, rfl, fun h => h⟩,
      by simp only; omega⟩
  rw [if_neg c8]
  right
  exact ⟨_, _, rfl, ⟨rfl, rfl, rfl, rfl, rfl, rfl, rfl⟩, Or.inr ⟨rfl, by omega, by omega, by omega⟩⟩

/-! ## The loop -/

theorem byteAt_mkPic_zero (inp : Str) : byteAt (mkPic inp) 0 = 63 := by
  simp [mkPic, byteAt]

theorem length_mkPic (inp : Str) : (mkPic inp).length = inp.length + 2 := by
  simp [mkPic]

theorem run_succ (sw : Str → Nat) (pic : Str) (n : Nat) (st : State) :
    run sw pic (n + 1) st =
      if st.pi > 0 ∧ st.ri ≥ 0 then
        match body sw pic st with
        | .cont st1 => run sw pic n st1
        | .brk st1 => .done st1
        | .fail rp e => .fail rp e
        | .panic => .panic
      else .done st := by
  rfl

theorem run_stop (sw : Str → Nat) (pic : Str) (n : Nat) (st : State)
    (h : ¬ (st.pi > 0 ∧ st.ri ≥ 0)) : run sw pic n st = .done st := by
  cases n with
  | zero => rw [run, if_neg h]
  | succ n => rw [run_succ, if_neg h]

theorem body_cont_pi (sw : Str → Nat) (pic : Str) (st st1 : State) (hpi : 0 < st.pi)
    (h0 : byteAt pic 0 = 63) (h : body sw pic st = .cont st1) :
    st1.pi < st.pi ∧ 1 ≤ st1.pi := by
  rcases body_cases sw pic st hpi h0 with ⟨s1, hb, hs, h1⟩ | ⟨st0, w, hb, ha, -⟩
  · rw [hb] at h
    simp only [Step.cont.injEq] at h
    subst h
    exact ⟨hs.1, h1⟩
  · rw [hb] at h
    obtain ⟨h1, -, -, h4, p, -, h5⟩ := emit_cont sw pic st0 st1 w h
    subst h5
    have h6 := command_le pic st0.pi st0.bi w
    have h7 := (command_spec pic st0.pi st0.bi w h0 h1 h4).1
    have h8 := ha.1
    simp only [afterCmd]
    omega

theorem run_fuel (sw : Str → Nat) (pic : Str) (h0 : byteAt pic 0 = 63) :
    ∀ (n : Nat) (st : State), st.pi ≤ n → ∀ m, st.pi ≤ m →
      run sw pic n st = run sw pic m st := by
  intro n
  induction n with
  | zero =>
    intro st hn m _
    rw [run_stop sw pic 0 st (by omega), run_stop sw pic m st (by omega)]
  | succ n ih =>
    intro st hn m hm
    by_cases hc : st.pi > 0 ∧ st.ri ≥ 0
    · obtain ⟨k, rfl⟩ : ∃ k, m = k + 1 := ⟨m - 1, by omega⟩
      rw [run_succ, run_succ, if_pos hc, if_pos hc]
      cases hb : body sw pic st with
      | cont st1 =>
        have := body_cont_pi sw pic st st1 hc.1 h0 hb
        exact ih st1 (by omega) k (by omega)
      | brk st1 => rfl
      | fail rp e => rfl
      | panic => rfl
    · rw [run_stop sw pic _ st hc, run_stop sw pic m st hc]

theorem Reach.head {sw : Str → Nat} {pic : Str} {s t u : State} (hs : 0 < s.pi)
    (hr : 0 ≤ s.ri) (hb : body sw pic s = .cont t) (h : Reach sw pic t u) :
    Reach sw pic s u := by
  induction h with
  | refl => exact Reach.step (Reach.refl s) hs hr hb
  | step _ h2 h3 h4 ih => exact Reach.step ih h2 h3 h4

theorem Reach.pi_le {sw : Str → Nat} {pic : Str} {s t : State} (h0 : byteAt pic 0 = 63)
    (h : Reach sw pic s t) : t.pi ≤ s.pi := by
  induction h with
  | refl => exact le_refl _
  | step _ h2 _ h4 ih =>
    have := body_cont_pi sw pic _ _ h2 h0 h4
    omega

theorem Reach.inv {sw : Str → Nat} {pic : Str} {s t : State} (P : State → Prop)
    (hs : P s)
    (hstep : ∀ a b, P a → 0 < a.pi → 0 ≤ a.ri → body sw pic a = .cont b → P b)
    (h : Reach sw pic s t) : P t := by
  induction h with
  | refl => exact hs
  | step _ h2 h3 h4 ih => exact hstep _ _ ih h2 h3 h4

theorem Reach.run_eq {sw : Str → Nat} {pic : Str} {s t : State} (h0 : byteAt pic 0 = 63)
    (h : Reach sw pic s t) (n : Nat) (hn : s.pi ≤ n) : run sw pic n s = run sw pic n t := by
  induction h with
  | refl => rfl
  | @step t u h1 h2 h3 h4 ih =>
    rw [ih]
    have h5 := Reach.pi_le h0 h1
    have h6 := body_cont_pi sw pic _ _ h2 h0 h4
    obtain ⟨k, rfl⟩ : ∃ k, n = k + 1 := ⟨n - 1, by omega⟩
    rw [run_succ, if_pos ⟨h2, h3⟩, h4]
    exact run_fuel sw pic h0 k u (by omega) (k + 1) (by omega)

theorem run_done_reach (sw : Str → Nat) (pic : Str) :
    ∀ (n : Nat) (s st1 : State), run sw pic n s = .done st1 →
      ∃ t, Reach sw pic s t ∧
        ((¬ (0 < t.pi ∧ 0 ≤ t.ri) ∧ st1 = t) ∨
         (0 < t.pi ∧ 0 ≤ t.ri ∧ body sw pic t = .brk st1)) := by
  intro n
  induction n with
  | zero =>
    intro s st1 h
    by_cases hc : s.pi > 0 ∧ s.ri ≥ 0
    · rw [run, if_pos hc] at h
      simp at h
    · rw [run_stop sw pic 0 s hc] at h
      simp only [Run.done.injEq] at h
      exact ⟨s, Reach.refl s, Or.inl ⟨hc, h.symm⟩⟩
  | succ n ih =>
    intro s st1 h
    rw [run_succ] at h
    split_ifs at h with hc
    · cases hb : body sw pic s with
      | cont s1 =>
        rw [hb] at h
        obtain ⟨t, ht, hfin⟩ := ih s1 st1 h
        exact ⟨t, Reach.head hc.1 hc.2 hb ht, hfin⟩
      | brk s1 =>
        rw [hb] at h
        simp only [Run.done.injEq] at h
        subst h
        exact ⟨s, Reach.refl s, Or.inr ⟨hc.1, hc.2, hb⟩⟩
      | fail rp e => rw [hb] at h; simp at h
      | panic => rw [hb] at h; simp at h
    · simp only [Run.done.injEq] at h
      exact ⟨s, Reach.refl s, Or.inl ⟨hc, h.symm⟩⟩

/-- The loop never runs out of fuel when it is given `pi` passes. -/
theorem run_ne_fuel (sw : Str → Nat) (pic : Str) (h0 : byteAt pic 0 = 63) :
    ∀ (n : Nat) (st : State), st.pi ≤ n → run sw pic n st ≠ .fuel := by
  intro n
  induction n with
  | zero =>
    intro st hn
    rw [run_stop sw pic 0 st (by omega)]
    simp
  | succ n ih =>
    intro st hn
    rw [run_succ]
    split_ifs with hc
    · cases hb : body sw pic st with
      | cont st1 =>
        have := body_cont_pi sw pic st st1 hc.1 h0 hb
        exact ih st1 (by omega)
      | brk st1 => simp
      | fail rp e => simp
      | panic => simp
    · simp

theorem scan_ne_fuel (sw : Str → Nat) (inp : Str) : scan sw inp ≠ .fuel := by
  unfold scan
  apply run_ne_fuel sw _ (byteAt_mkPic_zero inp)
  simp [init]

/-! ## Pictures without commands -/

theorem byteAt_mkPic_succ (inp : Str) (i : Nat) (h : i < inp.length) :
    byteAt (mkPic inp) (i + 1) = byteAt inp i := by
  unfold mkPic
  rw [List.append_assoc, byteAt_append_right _ _ _ (by simp)]
  simp only [List.length_singleton, Nat.add_sub_cancel]
  exact byteAt_append_left _ _ _ h

theorem byteAt_mem (s : Str) (i : Nat) (h : i < s.length) : byteAt s i ∈ s := by
  unfold byteAt
  rw [List.getD_eq_getElem _ _ h]
  exact List.getElem_mem h

theorem slice_mkPic (inp : Str) : slice (mkPic inp) 1 (inp.length + 1) = inp := by
  unfold slice mkPic
  rw [List.append_assoc, List.singleton_append, List.take_succ_cons, List.drop_succ_cons,
    List.drop_zero, List.take_left']
  rfl

theorem run_no_commands (sw : Str → Nat) (pic : Str) (h0 : byteAt pic 0 = 63) :
    ∀ (n : Nat) (st : State), st.pi ≤ n → 1 ≤ st.pi → st.label = false → st.prevcmd = 84 →
      0 ≤ st.ri → st.ri ≤ 255 →
      (∀ i, 1 ≤ i → i < st.pi → ¬ (60 ≤ byteAt pic i ∧ byteAt pic i ≤ 72 ∧ byteAt pic i ≠ 68)) →
      ∃ st1, run sw pic n st = .done st1 ∧ st1.ri = st.ri - 1 ∧ st1.bi = st.bi ∧
        st1.rp = ⟨[], [], slice pic 1 (st.curpicend + 1)⟩ :: st.rp := by
  intro n
  induction n with
  | zero => intro st hn hpi; omega
  | succ n ih =>
    intro st hn hpi hlab hprev hri hri2 hno
    rw [run_succ, if_pos ⟨hpi, hri⟩]
    rcases body_cases sw pic st hpi h0 with ⟨s1, hb, hs, h1⟩ | ⟨st0, w, hb, ha, hw⟩
    · rw [hb]
      obtain ⟨a1, a2, a3, a4, a5, a6, a7, a8⟩ := hs
      have hl : s1.label = false := by
        cases hc : s1.label with
        | false => rfl
        | true => rw [a8 hc] at hlab; exact absurd hlab (by simp)
      obtain ⟨st1, e1, e2, e3, e4⟩ := ih s1 (by omega) h1 hl (by rw [a7]; exact hprev)
        (by rw [a3]; exact hri) (by rw [a3]; exact hri2) (fun i hi1 hi2 => hno i hi1 (by omega))
      exact ⟨st1, e1, by rw [e2, a3], by rw [e3, a2], by rw [e4, a4, a5]⟩
    · rw [hb]
      obtain ⟨a1, a2, a3, a4, a5, a6, a7⟩ := ha
      have hz : st0.pi = 0 := by
        rcases hw with hz | ⟨hw1, hw2, hw3, hw4⟩
        · exact hz
        · by_contra hc
          exact hno st0.pi (by omega) (by omega) (by rw [← hw1]; exact ⟨hw2, hw3, hw4⟩)
      have hp : outPart sw pic st0 = some ⟨[], [], slice pic 1 (st.curpicend + 1)⟩ := by
        unfold outPart
        rw [if_pos (by rw [a7]; exact hprev), hz, a5]
      rw [emit_eq sw pic st0 w _ hp, if_neg (by rw [a3]; omega), if_pos (by omega)]
      exact ⟨_, rfl, by simp [afterLast, a3], by simp [afterLast, a2], by simp [afterLast, a4]⟩

/-- C1. For every input that contains none of the bytes `<`, `=`, `>`, `?`,
`@`, `A`, `B`, `C`, `E`, `F`, `G`, `H` (in particular for the empty input),
`Lint` returns exactly the four lines `OK.`, `bits:|`, five spaces and a bar,
and `cmds:¨` followed by the input unchanged. -/
theorem Lint_no_commands (sw : Str → Nat) (inp : Str)
    (h : ∀ b ∈ inp, b ∉ [60, 61, 62, 63, 64, 65, 66, 67, 69, 70, 71, 72]) :
    Lint sw inp =
      .ret [bytes ("OK."), bytes ("bits:|"), bytes ("     |"), bytes ("cmds:¨") ++ inp] := by
  have h0 := byteAt_mkPic_zero inp
  have hlen := length_mkPic inp
  have hno : ∀ i, 1 ≤ i → i < (init inp).pi →
      ¬ (60 ≤ byteAt (mkPic inp) i ∧ byteAt (mkPic inp) i ≤ 72 ∧ byteAt (mkPic inp) i ≠ 68) := by
    intro i hi1 hi2
    simp only [init, hlen] at hi2
    obtain ⟨j, rfl⟩ : ∃ j, i = j + 1 := ⟨i - 1, by omega⟩
    rw [byteAt_mkPic_succ inp j (by omega)]
    have hm := h _ (byteAt_mem inp j (by omega))
    simp only [List.mem_cons, List.mem_singleton, List.not_mem_nil, or_false, not_or] at hm
    omega
  obtain ⟨st1, e1, e2, e3, e4⟩ := run_no_commands sw (mkPic inp) h0 (mkPic inp).length (init inp)
    (by simp [init]) (by simp [init, hlen]) rfl rfl (by simp [init]) (by simp [init]) hno
  have hsl : slice (mkPic inp) 1 ((init inp).curpicend + 1) = inp := by
    have : (init inp).curpicend + 1 = inp.length + 1 := by simp [init, hlen]
    rw [this]; exact slice_mkPic inp
  rw [hsl] at e4
  unfold Lint ckPicStr scan
  rw [e1]
  have hri : ¬ (st1.ri < 0 ∨ 255 < st1.ri) := by
    rw [e2]; simp [init]
  have hbi : ¬ (st1.bi.val > 64) := by
    rw [e3]; simp [init]
  simp only [hri, hbi, if_false, e4, init]
  simp
  decide

theorem Lint_no_commands_witness :
    Lint sampleWidth (bytes ("PicString")) =
      .ret [bytes ("OK."), bytes ("bits:|"), bytes ("     |"),
        bytes ("cmds:¨") ++ bytes ("PicString")] :=
  Lint_no_commands sampleWidth (bytes ("PicString")) (by decide)

/-! ## Removing the filler -/

theorem stripDia_dia (r : Str) : stripDia (dia ++ r) = stripDia r := by
  simp [dia, stripDia]

theorem stripDia_fill (k : Nat) (r : Str) :
    stripDia ((List.replicate k dia).flatten ++ r) = stripDia r := by
  induction k with
  | zero => simp
  | succ k ih =>
    rw [List.replicate_succ, List.flatten_cons, List.append_assoc, stripDia_dia, ih]

theorem hasDia_cons (b : Nat) (s : Str) (h : hasDia (b :: s) = false) : hasDia s = false := by
  cases s with
  | nil => rfl
  | cons c r =>
    simp only [hasDia, Bool.or_eq_false_iff] at h
    exact h.2

theorem stripDia_label (x : Nat) (hx : x ≠ 0xC2) (r : Str) :
    ∀ l : Str, hasDia (l ++ [x]) = false →
      stripDia (l ++ [x] ++ dia ++ r) = l ++ [x] ++ stripDia r := by
  intro l
  induction l with
  | nil =>
    intro _
    simp [dia, stripDia, hx]
  | cons b l ih =>
    intro h
    have h2 := ih (hasDia_cons b _ h)
    cases l with
    | nil =>
      simp only [List.cons_append, List.nil_append, hasDia, Bool.or_eq_false_iff,
        decide_eq_false_iff_not] at h h2 ⊢
      rw [stripDia, if_neg h.1, h2]
    | cons c l =>
      simp only [List.cons_append, hasDia, Bool.or_eq_false_iff,
        decide_eq_false_iff_not] at h h2 ⊢
      rw [stripDia, if_neg h.1, h2]

theorem stripDia_id : ∀ l : Str, hasDia l = false → stripDia l = l := by
  intro l
  induction l with
  | nil => intro _; rfl
  | cons b l ih =>
    intro h
    have h2 := ih (hasDia_cons b _ h)
    cases l with
    | nil => rfl
    | cons c l =>
      simp only [hasDia, Bool.or_eq_false_iff, decide_eq_false_iff_not] at h
      rw [stripDia, if_neg h.1, h2]

theorem hasDia_drop (s : Str) (h : hasDia s = false) : ∀ n, hasDia (s.drop n) = false := by
  intro n
  induction n generalizing s with
  | zero => simpa using h
  | succ n ih =>
    cases s with
    | nil => rfl
    | cons b s => exact ih s (hasDia_cons b s h)

theorem hasDia_take : ∀ (n : Nat) (s : Str), hasDia s = false → hasDia (s.take n) = false := by
  intro n
  induction n with
  | zero => intro s _; rfl
  | succ n ih =>
    intro s h
    cases s with
    | nil => rfl
    | cons b s =>
      have h2 := ih s (hasDia_cons b s h)
      cases s with
      | nil => simp [hasDia]
      | cons c s =>
        cases n with
        | zero => rfl
        | succ n =>
          simp only [hasDia, Bool.or_eq_false_iff, decide_eq_false_iff_not] at h
          simp only [List.take_succ_cons] at h2 ⊢
          simp only [hasDia, Bool.or_eq_false_iff, decide_eq_false_iff_not]
          exact ⟨h.1, h2⟩

theorem hasDia_slice (s : Str) (h : hasDia s = false) (a b : Nat) :
    hasDia (slice s a b) = false :=
  hasDia_drop _ (hasDia_take b s h) a

theorem hasDia_append_singleton (x : Nat) (hx : x ≠ 0xA8) :
    ∀ s : Str, hasDia s = false → hasDia (s ++ [x]) = false := by
  intro s
  induction s with
  | nil => intro _; rfl
  | cons b s ih =>
    intro h
    have h2 := ih (hasDia_cons b s h)
    cases s with
    | nil =>
      simp only [List.cons_append, List.nil_append, hasDia, Bool.or_eq_false_iff,
        decide_eq_false_iff_not, Bool.or_false]
      omega
    | cons c s =>
      simp only [hasDia, Bool.or_eq_false_iff, decide_eq_false_iff_not] at h
      simp only [List.cons_append, hasDia, Bool.or_eq_false_iff, decide_eq_false_iff_not] at h2 ⊢
      exact ⟨h.1, h2⟩

theorem hasDia_mkPic (inp : Str) (h : hasDia inp = false) : hasDia (mkPic inp) = false := by
  have h1 := hasDia_append_singleton 32 (by decide) inp h
  unfold mkPic
  rw [List.append_assoc, List.singleton_append]
  cases hs : inp ++ [32] with
  | nil => rfl
  | cons c s =>
    rw [hs] at h1
    simp only [hasDia, Bool.or_eq_false_iff, decide_eq_false_iff_not]
    exact ⟨by omega, h1⟩

theorem slice_snoc (s : Str) (a c : Nat) (hac : a ≤ c) (hc : c < s.length) :
    slice s a (c + 1) = slice s a c ++ [byteAt s c] := by
  unfold slice byteAt
  rw [List.take_succ, List.drop_append_of_le_length (by simp; omega)]
  congr 1
  rw [List.getD_eq_getElem _ _ hc, List.getElem?_eq_getElem hc]
  simp

theorem slice_append (s : Str) (a b c : Nat) (hab : a ≤ b) (hbc : b ≤ c) (hc : c ≤ s.length) :
    slice s a b ++ slice s b c = slice s a c := by
  unfold slice
  have h1 : List.take b s = List.take b (List.take c s) := by
    rw [List.take_take]; congr 1; omega
  rw [h1]
  have hl : (List.take c s).length = c := by simp [List.length_take]; omega
  generalize List.take c s = t at hl ⊢
  have h2 : List.drop a (List.take b t ++ List.drop b t)
      = List.drop a (List.take b t) ++ List.drop b t :=
    List.drop_append_of_le_length (by simp [List.length_take]; omega)
  rw [← h2, List.take_append_drop]

/-! ## Invariant of the loop -/

theorem outPart_pics (sw : Str → Nat) (pic : Str) (st : State) (p : Part)
    (h : outPart sw pic st = some p) :
    (st.prevcmd = 84 → p.pics = slice pic (st.pi + 1) (st.curpicend + 1)) ∧
    (st.prevcmd ≠ 84 → ∃ k, p.pics =
      (List.replicate k dia).flatten ++ slice pic (st.pi + 1) (st.curpicend + 1) ++ dia) := by
  unfold outPart at h
  split_ifs at h with hc
  · simp only [Option.some.injEq] at h
    subst h
    exact ⟨fun _ => rfl, fun hn => absurd hc hn⟩
  · rw [renderPart_eq] at h
    simp only [Option.some.injEq] at h
    subst h
    exact ⟨fun hn => absurd hn hc, fun _ => ⟨_, rfl⟩⟩

/-- The stripped cmds segments after the output of one more part at `pi0`. -/
theorem stripDia_out (sw : Str → Nat) (pic : Str) (st st0 : State) (p : Part)
    (hinv : Inv pic st) (ha : st.atCmd st0) (hpi : 0 < st.pi)
    (hp : outPart sw pic st0 = some p) (hd : hasDia pic = false) :
    stripDia (picsOf (p :: st.rp)) = slice pic (st0.pi + 1) (pic.length - 1) := by
  obtain ⟨i1, i2, i3, i4, i5, i6, i7, i8⟩ := hinv
  obtain ⟨a1, a2, a3, a4, a5, a6, a7⟩ := ha
  obtain ⟨p1, p2⟩ := outPart_pics sw pic st0 p hp
  have hcons : picsOf (p :: st.rp) = p.pics ++ picsOf st.rp := by
    simp [picsOf]
  rw [hcons]
  by_cases hc : st.prevcmd = 84
  · obtain ⟨e1, e2⟩ := i6 hc
    rw [p1 (by rw [a7]; exact hc), e1, List.append_nil, a5]
    have : st.curpicend + 1 = pic.length - 1 := by omega
    rw [this]
    exact stripDia_id _ (hasDia_slice pic hd _ _)
  · obtain ⟨e1, e2⟩ := i7 hc
    obtain ⟨k, hk⟩ := p2 (by rw [a7]; exact hc)
    rw [hk, a5, List.append_assoc, List.append_assoc, stripDia_fill,
      slice_snoc pic (st0.pi + 1) st.curpicend (by omega) (by omega), ← List.append_assoc]
    have hlab : hasDia (slice pic (st0.pi + 1) st.curpicend ++ [byteAt pic st.curpicend])
        = false := by
      rw [← slice_snoc pic (st0.pi + 1) st.curpicend (by omega) (by omega)]
      exact hasDia_slice pic hd _ _
    rw [stripDia_label _ e2 _ _ hlab, i8 hd,
      ← slice_snoc pic (st0.pi + 1) st.curpicend (by omega) (by omega)]
    exact slice_append pic _ _ _ (by omega) (by omega) (by omega)

theorem Inv_init (inp : Str) : Inv (mkPic inp) (init inp) := by
  have hlen := length_mkPic inp
  refine ⟨by simp [init], by simp [init, Ctr.ok], by simp [init, hlen],
    by simp [init, hlen], by simp [init, hlen], fun _ => ⟨by simp [init, picsOf], by simp [init, hlen]⟩,
    fun h => absurd rfl h, fun _ => ?_⟩
  simp [init, hlen, picsOf, stripDia, slice]

theorem Inv_step (sw : Str → Nat) (pic : Str) (h0 : byteAt pic 0 = 63) (st st1 : State)
    (hinv : Inv pic st) (hpi : 0 < st.pi) (hb : body sw pic st = .cont st1) :
    Inv pic st1 := by
  have hinv' := hinv
  obtain ⟨i1, i2, i3, i4, i5, i6, i7, i8⟩ := hinv
  rcases body_cases sw pic st hpi h0 with ⟨s1, hb1, hs, h1⟩ | ⟨st0, w, hb1, ha, hw⟩
  · rw [hb1] at hb
    simp only [Step.cont.injEq] at hb
    subst hb
    obtain ⟨a1, a2, a3, a4, a5, a6, a7, a8⟩ := hs
    refine ⟨by rw [a3, a4]; exact i1, by rw [a2]; exact i2, h1, by rw [a5]; omega,
      by rw [a5]; exact i5, ?_, ?_, ?_⟩
    · intro h; rw [a4, a5]; exact i6 (by rw [← a7]; exact h)
    · intro h
      have := i7 (by rw [← a7]; exact h)
      rw [a5]; exact ⟨by omega, this.2⟩
    · intro h; rw [a4, a5]; exact i8 h
  · rw [hb1] at hb
    obtain ⟨e1, e2, e3, e4, p, hp, e5⟩ := emit_cont sw pic st0 st1 w hb
    have hstrip := fun hd => stripDia_out sw pic st st0 p hinv' ha hpi hp hd
    obtain ⟨a1, a2, a3, a4, a5, a6, a7⟩ := ha
    obtain ⟨c1, c2, c3⟩ := command_spec pic st0.pi st0.bi w h0 e1 e4
    have c4 := command_le pic st0.pi st0.bi w
    have hw2 : w = byteAt pic st0.pi ∧ 60 ≤ w ∧ w ≤ 72 ∧ w ≠ 68 := by
      rcases hw with hz | hw
      · omega
      · exact hw
    subst e5
    refine ⟨?_, ?_, c1, ?_, ?_, ?_, ?_, ?_⟩
    · simp only [afterCmd, List.length_cons]; rw [a3, a4]; push_cast; omega
    · simp only [afterCmd]; exact c2 (by rw [a2]; exact i2)
    · simp only [afterCmd]; omega
    · simp only [afterCmd]; omega
    · intro h; simp only [afterCmd] at h; exact absurd h c3
    · intro _
      simp only [afterCmd]
      exact ⟨c4, by rw [← hw2.1]; omega⟩
    · intro hd
      simp only [afterCmd]
      rw [a4]
      exact hstrip hd

theorem Inv_reach (sw : Str → Nat) (inp : Str) (t : State)
    (h : Reach sw (mkPic inp) (init inp) t) : Inv (mkPic inp) t :=
  Reach.inv (Inv (mkPic inp)) (Inv_init inp)
    (fun a b ha hpi _ hb => Inv_step sw (mkPic inp) (byteAt_mkPic_zero inp) a b ha hpi hb) h

/-- What holds when the loop is left with the output index in range. -/
theorem scan_done_inv (sw : Str → Nat) (inp : Str) (st : State)
    (hscan : scan sw inp = .done st) (hlen : st.rp.length ≤ 255) :
    st.ri + st.rp.length = 255 ∧ st.bi.ok ∧
      (hasDia inp = false → stripDia (picsOf st.rp) = inp) := by
  have h0 := byteAt_mkPic_zero inp
  obtain ⟨t, hr, hfin⟩ := run_done_reach sw (mkPic inp) _ _ _ hscan
  have hinv := Inv_reach sw inp t hr
  have hinv' := hinv
  obtain ⟨i1, i2, i3, i4, i5, i6, i7, i8⟩ := hinv
  rcases hfin with ⟨hc, rfl⟩ | ⟨hc1, hc2, hb⟩
  · exfalso
    have : ¬ (0 ≤ st.ri) := fun h => hc ⟨by omega, h⟩
    omega
  · rcases body_cases sw (mkPic inp) t hc1 h0 with ⟨s1, hb1, -, -⟩ | ⟨st0, w, hb1, ha, hw⟩
    · rw [hb1] at hb; simp at hb
    · rw [hb1] at hb
      obtain ⟨e1, e2, e3, p, hp, e4⟩ := emit_brk sw (mkPic inp) st0 st w hb
      have hstrip := fun hd => stripDia_out sw (mkPic inp) t st0 p hinv' ha hc1 hp hd
      obtain ⟨a1, a2, a3, a4, a5, a6, a7⟩ := ha
      subst e4
      refine ⟨?_, ?_, ?_⟩
      · simp only [afterLast, List.length_cons]; rw [a3, a4]; push_cast; omega
      · simp only [afterLast]; rw [a2]; exact i2
      · intro hd
        simp only [afterLast]
        rw [a4, hstrip (hasDia_mkPic inp hd), e1, length_mkPic]
        exact slice_mkPic inp

/-! ## The result of a completed scan -/

theorem Lint_of_done (sw : Str → Nat) (inp : Str) (st : State)
    (hscan : scan sw inp = .done st) (hlen : st.rp.length ≤ 255) :
    Lint sw inp = .ret
      [if st.bi.val > 64 then bytes ("Error: ") ++ errOverflow else bytes ("OK."),
       (if st.bi.val > 64 then bytes (" ERR:") else bytes ("bits:")) ++ bitsOf st.rp,
       bytes ("     ") ++ marksOf st.rp,
       bytes ("cmds:¨") ++ picsOf st.rp] := by
  obtain ⟨h1, -, -⟩ := scan_done_inv sw inp st hscan hlen
  have hri : ¬ (st.ri < 0 ∨ 255 < st.ri) := by omega
  unfold Lint ckPicStr
  rw [hscan]
  simp only [hri, if_false]
  split_ifs with hb
  · simp [bitsOf, marksOf, picsOf]
  · simp [bitsOf, marksOf, picsOf]

/-- C4. For every input that is scanned to its start without a positional
error, that produces at most 253 fields and whose exact total bit width `T`
satisfies `64 < T < 65536`, `Lint` returns the status
`Error: Pic string takes more than 64 bits!` and the whole diagram: the bits
line is ` ERR:` followed by the bits segments, the marks line and the cmds
line are the ones of a success.  When `T ≤ 64` the status is `OK.`, the prefix
of the bits line is `bits:`, and the rest is the same. -/
theorem Lint_overflow_renders (sw : Str → Nat) (inp : Str) (st : State)
    (hscan : scan sw inp = .done st) (hf : fieldCount st ≤ 253) :
    (64 < st.bi.exact → st.bi.exact < 65536 →
      Lint sw inp = .ret
        [bytes ("Error: Pic string takes more than 64 bits!"),
         bytes (" ERR:") ++ bitsOf st.rp,
         bytes ("     ") ++ marksOf st.rp,
         bytes ("cmds:¨") ++ picsOf st.rp]) ∧
    (st.bi.exact ≤ 64 →
      Lint sw inp = .ret
        [bytes ("OK."),
         bytes ("bits:") ++ bitsOf st.rp,
         bytes ("     ") ++ marksOf st.rp,
         bytes ("cmds:¨") ++ picsOf st.rp]) := by
  have hlen : st.rp.length ≤ 255 := by unfold fieldCount at hf; omega
  obtain ⟨-, h2, -⟩ := scan_done_inv sw inp st hscan hlen
  have hL := Lint_of_done sw inp st hscan hlen
  unfold Ctr.ok at h2
  constructor
  · intro h64 h65536
    have hv : st.bi.val > 64 := by omega
    rw [hL]
    simp only [hv, if_true]
    rfl
  · intro h64
    have hv : ¬ (st.bi.val > 64) := by omega
    rw [hL]
    simp only [hv, if_false]

theorem Lint_overflow_renders_witness :
    Lint sampleWidth (bytes ("=!64@")) = .ret
      [bytes ("Error: Pic string takes more than 64 bits!"),
       bytes (" ERR:") ++ bitsOf (finalState (scan sampleWidth (bytes ("=!64@")))).rp,
       bytes ("     ") ++ marksOf (finalState (scan sampleWidth (bytes ("=!64@")))).rp,
       bytes ("cmds:¨") ++ picsOf (finalState (scan sampleWidth (bytes ("=!64@")))).rp] :=
  (Lint_overflow_renders sampleWidth (bytes ("=!64@"))
    (finalState (scan sampleWidth (bytes ("=!64@")))) (by decide!) (by decide!)).1
    (by decide!) (by decide!)

/-- C5. Round trip of labels: for every input that contains no `¨` and is
scanned to its start without a positional error, with at most 253 fields,
`Lint` returns with the status `OK.` or the 64-bit overflow error, and
removing the leading `cmds:` and every filler `¨` from its cmds line gives
the input back. -/
theorem Lint_labels_roundtrip (sw : Str → Nat) (inp : Str) (st : State)
    (hd : hasDia inp = false) (hscan : scan sw inp = .done st) (hf : fieldCount st ≤ 253) :
    ∃ s b m c, Lint sw inp = .ret [s, b, m, c] ∧
      (s = bytes ("OK.") ∨ s = bytes ("Error: Pic string takes more than 64 bits!")) ∧
      stripDia (c.drop 5) = inp := by
  have hlen : st.rp.length ≤ 255 := by unfold fieldCount at hf; omega
  obtain ⟨-, -, h3⟩ := scan_done_inv sw inp st hscan hlen
  refine ⟨_, _, _, _, Lint_of_done sw inp st hscan hlen, ?_, ?_⟩
  · split_ifs
    · right; rfl
    · left; rfl
  · have : (bytes ("cmds:¨") ++ picsOf st.rp).drop 5 = dia ++ picsOf st.rp := by
      have h : bytes ("cmds:¨") = [99, 109, 100, 115, 58] ++ dia := by decide
      rw [h, List.append_assoc, List.drop_left' (by rfl)]
    rw [this, stripDia_dia, h3 hd]

theorem Lint_labels_roundtrip_witness :
    ∃ s b m c, Lint sampleWidth (bytes ("Id:0xFHH =")) = .ret [s, b, m, c] ∧
      (s = bytes ("OK.") ∨ s = bytes ("Error: Pic string takes more than 64 bits!")) ∧
      stripDia (c.drop 5) = bytes ("Id:0xFHH =") :=
  Lint_labels_roundtrip sampleWidth (bytes ("Id:0xFHH ="))
    (finalState (scan sampleWidth (bytes ("Id:0xFHH =")))) (by decide!) (by decide!) (by decide!)

/-! ## Passes that find a command -/

theorem body_zero (sw : Str → Nat) (pic : Str) (st : State) (h : st.pi - 1 = 0) :
    body sw pic st = emit sw pic { st with pi := st.pi - 1 } 63 := by
  unfold body
  simp only
  rw [if_pos h]

theorem body_mark (sw : Str → Nat) (pic : Str) (st : State) (hpi : st.pi - 1 ≠ 0)
    (hesc : byteAt pic (st.pi - 1 - 1) ≠ 92) (hq : st.quoted = false)
    (hw : 60 ≤ byteAt pic (st.pi - 1) ∧ byteAt pic (st.pi - 1) ≤ 63) :
    body sw pic st =
      emit sw pic { st with pi := st.pi - 1, label := true } (byteAt pic (st.pi - 1)) := by
  have h63 := (lor3_iff (byteAt pic (st.pi - 1))).mpr hw
  unfold body
  simp only
  rw [if_neg hpi, if_neg (fun h => hesc h.2), if_neg (fun h => by omega),
    if_neg (fun h => by omega), if_neg (fun h => by simp [hq] at h),
    if_neg (fun h => h.2 h63), if_pos h63]

theorem body_letter (sw : Str → Nat) (pic : Str) (st : State) (hpi : st.pi - 1 ≠ 0)
    (hesc : byteAt pic (st.pi - 1 - 1) ≠ 92) (hq : st.quoted = false) (hl : st.label = false)
    (hw : 64 ≤ byteAt pic (st.pi - 1) ∧ byteAt pic (st.pi - 1) ≤ 72 ∧
      byteAt pic (st.pi - 1) ≠ 68) :
    body sw pic st = emit sw pic { st with pi := st.pi - 1 } (byteAt pic (st.pi - 1)) := by
  have h63 : ¬ (byteAt pic (st.pi - 1) ||| 3 = 63) := by
    rw [lor3_iff]; omega
  unfold body
  simp only
  rw [if_neg hpi, if_neg (fun h => hesc h.2), if_neg (fun h => by omega),
    if_neg (fun h => by omega), if_neg (fun h => by simp [hq] at h),
    if_neg (fun h => by simp [hl] at h), if_neg h63, if_neg (fun h => by omega)]

theorem command_letter (pic : Str) (pi : Nat) (bi : Ctr) (w : Nat)
    (hw : 65 ≤ w ∧ w ≤ 72 ∧ w ≠ 66) :
    command pic pi bi w =
      ((ckRanges pic pi bi).1, (ckRanges pic pi bi).2.1, 78, (ckRanges pic pi bi).2.2) := by
  have h63 : ¬ (w ||| 3 = 63) := by rw [lor3_iff]; omega
  unfold command
  rw [if_neg (fun h => by rcases h with h | h <;> [exact h63 h; omega]),
    if_neg (fun h => by omega)]

theorem command_mark (pic : Str) (pi : Nat) (bi : Ctr) (w : Nat) (hw : 60 ≤ w ∧ w ≤ 63) :
    command pic pi bi w = (pi, bi.add 1, 76, none) := by
  have h63 := (lor3_iff w).mpr hw
  unfold command
  rw [if_pos (Or.inl h63), if_neg (fun h => by omega)]

theorem slice_mkPic_all (inp : Str) :
    slice (mkPic inp) 1 (mkPic inp).length = inp ++ [32] := by
  unfold slice mkPic
  rw [List.take_length]
  simp

/-! ## The hex-chain rule -/

theorem ckRanges_hex_glued (pic : Str) (a n : Nat) (bi : Ctr) (hn : 1 ≤ n) (ha : 2 ≤ a)
    (hrun : ∀ i, i < n → byteAt pic (a + i) = 72)
    (hcomp : byteAt pic (a - 1) = 66 ∨ byteAt pic (a - 1) = 69 ∨ byteAt pic (a - 1) = 70)
    (hprev : byteAt pic (a - 2) = 66 ∨ byteAt pic (a - 2) = 69 ∨ byteAt pic (a - 2) = 70 ∨
      byteAt pic (a - 2) = 72) :
    (ckRanges pic (a + n - 1) bi).1 = a - 1 ∧ (ckRanges pic (a + n - 1) bi).2.2 = some errBadHex := by
  rw [ckRanges_hex_aux pic a n bi hn hrun (Or.inr (by omega))]
  have hc : (hexCompleter pic a (bi.add (4 * n))).1 = a - 1 := by
    unfold hexCompleter
    simp only
    rw [if_pos (by omega)]
    split_ifs
    · rfl
    · rfl
    · rfl
    · omega
  simp only [hc]
  refine ⟨trivial, ?_⟩
  have h2 : a - 1 - 1 = a - 2 := by omega
  rw [h2, if_pos ⟨by omega, by omega⟩]

/-- C9, amended. Hex-chain rule: whenever the scan of a picture reaches,
unshielded, the last letter of a run of `n ≥ 1` letters `H` (at `a .. a+n-1`)
that is preceded by a completing letter `B`, `E` or `F`, itself preceded by
another of `B`, `E`, `F`, `H`, scanning stops there and `Lint` returns the
status `Error: Bad shape of a Hex number. See section 'Valid Numbers' in docs.`,
an empty bits line and the input as marks line. -/
theorem Lint_hex_chain_rejected (sw : Str → Nat) (inp : Str) (t : State) (a n : Nat)
    (hreach : Reach sw (mkPic inp) (init inp) t) (hri : 0 ≤ t.ri)
    (hq : t.quoted = false) (hl : t.label = false)
    (hn : 1 ≤ n) (ha : 2 ≤ a) (hp : t.pi = a + n)
    (hrun : ∀ i, i < n → byteAt (mkPic inp) (a + i) = 72)
    (hcomp : byteAt (mkPic inp) (a - 1) = 66 ∨ byteAt (mkPic inp) (a - 1) = 69 ∨
      byteAt (mkPic inp) (a - 1) = 70)
    (hprev : byteAt (mkPic inp) (a - 2) = 66 ∨ byteAt (mkPic inp) (a - 2) = 69 ∨
      byteAt (mkPic inp) (a - 2) = 70 ∨ byteAt (mkPic inp) (a - 2) = 72) :
    Lint sw inp = .ret
      [bytes ("Error: Bad shape of a Hex number. See section \x27Valid Numbers\x27 in docs."),
       [], inp ++ [32], caretLine (mkPic inp) (a - 1) (a + n - 1) ++ bytes ("HERE")] := by
  have h0 := byteAt_mkPic_zero inp
  have hesc : byteAt (mkPic inp) (a + n - 2) ≠ 92 := by
    by_cases h1 : n = 1
    · have e : a + n - 2 = a - 1 := by omega
      rw [e]; omega
    · have e : a + n - 2 = a + (n - 2) := by omega
      have := hrun (n - 2) (by omega)
      rw [e, this]; decide
  have hinv := Inv_reach sw inp t hreach
  obtain ⟨i1, -⟩ := hinv
  have hw : byteAt (mkPic inp) (t.pi - 1) = 72 := by
    have := hrun (n - 1) (by omega)
    rw [hp]
    have e : a + n - 1 = a + (n - 1) := by omega
    rw [e]; exact this
  have hbody : body sw (mkPic inp) t = emit sw (mkPic inp) { t with pi := t.pi - 1 } 72 := by
    have := body_letter sw (mkPic inp) t (by omega)
      (by rw [hp]; have e : a + n - 1 - 1 = a + n - 2 := by omega
          rw [e]; exact hesc) hq hl (by rw [hw]; omega)
    rw [hw] at this
    exact this
  obtain ⟨p, hpart⟩ := outPart_some sw (mkPic inp) { t with pi := t.pi - 1 }
  have hck := ckRanges_hex_glued (mkPic inp) a n t.bi hn ha hrun hcomp hprev
  have hcmd := command_letter (mkPic inp) (a + n - 1) t.bi 72 (by omega)
  have hemit : emit sw (mkPic inp) { t with pi := t.pi - 1 } 72 =
      .fail [⟨[], inp ++ [32], caretLine (mkPic inp) (a - 1) (a + n - 1) ++ bytes ("HERE")⟩]
        errBadHex := by
    rw [emit_eq sw (mkPic inp) _ 72 p hpart]
    have hri2 : ¬ (t.ri < 0 ∨ 255 < t.ri) := by
      have : (0 : Int) ≤ (t.rp.length : Int) := by positivity
      omega
    simp only [hp]
    rw [if_neg hri2, if_neg (by omega), hcmd]
    simp only [hck.1, hck.2, slice_mkPic_all]
  have hscan : scan sw inp = .fail
      [⟨[], inp ++ [32], caretLine (mkPic inp) (a - 1) (a + n - 1) ++ bytes ("HERE")⟩]
        errBadHex := by
    unfold scan
    rw [Reach.run_eq h0 hreach _ (by simp [init])]
    obtain ⟨k, hk⟩ : ∃ k, (mkPic inp).length = k + 1 := ⟨inp.length + 1, by rw [length_mkPic]⟩
    rw [hk, run_succ, if_pos ⟨by omega, hri⟩, hbody, hemit]
  unfold Lint ckPicStr
  rw [hscan]
  simp
  decide

theorem Lint_hex_chain_rejected_witness :
    Lint sampleWidth (bytes ("EFHH")) = .ret
      [bytes ("Error: Bad shape of a Hex number. See section \x27Valid Numbers\x27 in docs."),
       [], bytes ("EFHH") ++ [32], caretLine (mkPic (bytes ("EFHH"))) (3 - 1) (3 + 2 - 1)
         ++ bytes ("HERE")] :=
  Lint_hex_chain_rejected sampleWidth (bytes ("EFHH")) (init (bytes ("EFHH"))) 3 2
    (Reach.refl _) (by decide) (by decide) (by decide) (by decide) (by decide) (by decide)
    (by decide) (by decide) (by decide)

/-- C9, as stated, fails: on the picture `EFHH` the status of `Lint` is the
"Bad shape of a Hex number" error, not "Misleading use of B/E/F number". -/
theorem Lint_hex_chain_not_misleading :
    Lint sampleWidth (bytes ("EFHH")) = .ret
      [bytes ("Error: Bad shape of a Hex number. See section \x27Valid Numbers\x27 in docs."),
       [], bytes ("EFHH "), bytes ("^^^^HERE")] ∧
    bytes ("Error: Bad shape of a Hex number. See section \x27Valid Numbers\x27 in docs.") ≠
      bytes ("Error: Misleading use of B/E/F number. See section \x27Valid Numbers\x27 in docs.") := by
  decide!

/-- C10 fails on the code: the picture `EFHH*`, the rejected hex shape `EFHH`
followed by an asterisk, is rejected all the same by `ckRanges` and `Lint`
(case `H` of `ckRanges` never looks at the byte after the run), while the
asterisk does switch the checks off for the run of `F` in `FFF*`. -/
theorem Lint_hex_asterisk_rejected :
    (ckRanges (mkPic (bytes ("EFHH*"))) 4 ⟨0, 0⟩).2.2 = some errBadHex ∧
    Lint sampleWidth (bytes ("EFHH*")) = .ret
      [bytes ("Error: Bad shape of a Hex number. See section \x27Valid Numbers\x27 in docs."),
       [], bytes ("EFHH* "), bytes ("^^^^HERE")] ∧
    Lint sampleWidth (bytes ("FFF*")) = .ret
      [bytes ("OK."), bytes ("bits:|8 9b 0|"), bytes ("           ^|"),
       bytes ("cmds:¨¨¨¨FFF¨*")] := by
  decide!

/-! ## One long run of `H`: the 16-bit counter wraps -/

theorem slice_self (s : Str) (a : Nat) : slice s a a = [] := by
  unfold slice
  rw [List.drop_eq_nil_iff]
  exact List.length_take_le a s

theorem byteAt_mkPic_run (n i : Nat) (h : i < n) :
    byteAt (mkPic (List.replicate n 72)) (1 + i) = 72 := by
  rw [Nat.add_comm, byteAt_mkPic_succ _ i (by simpa using h)]
  exact byteAt_replicate n 72 i h

theorem run_cont (sw : Str → Nat) (pic : Str) (n : Nat) (st st1 : State) (hpi : 0 < st.pi)
    (hri : 0 ≤ st.ri) (hb : body sw pic st = .cont st1) :
    run sw pic (n + 1) st = run sw pic n st1 := by
  rw [run_succ, if_pos ⟨hpi, hri⟩, hb]

theorem run_brk (sw : Str → Nat) (pic : Str) (n : Nat) (st st1 : State) (hpi : 0 < st.pi)
    (hri : 0 ≤ st.ri) (hb : body sw pic st = .brk st1) :
    run sw pic (n + 1) st = .done st1 := by
  rw [run_succ, if_pos ⟨hpi, hri⟩, hb]

/-- The scan of a picture that is one run of `n` letters `H`: one field, whose
exact width is `4n`. -/
theorem scan_hex_run (sw : Str → Nat) (n : Nat) (hn : 1 ≤ n) :
    ∃ st p, scan sw (List.replicate n 72) = .done st ∧
      st.bi = (⟨0, 0⟩ : Ctr).add (4 * n) ∧
      st.rp = [p, ⟨[], [], []⟩, ⟨[124], [124], []⟩] ∧
      renderPart sw (mkPic (List.replicate n 72)) 0 n ((⟨0, 0⟩ : Ctr).add (4 * n)) ⟨0, 0⟩
        = some p := by
  have h0 := byteAt_mkPic_zero (List.replicate n 72)
  have hlen : (mkPic (List.replicate n 72)).length = n + 2 := by
    rw [length_mkPic]; simp
  have hw : byteAt (mkPic (List.replicate n 72)) n = 72 := by
    have := byteAt_mkPic_run n (n - 1) (by omega)
    have e : 1 + (n - 1) = n := by omega
    rw [e] at this; exact this
  have hw1 : byteAt (mkPic (List.replicate n 72)) (n - 1) ≠ 92 := by
    by_cases h1 : n = 1
    · subst h1; rw [h0]; decide
    · have := byteAt_mkPic_run n (n - 2) (by omega)
      have e : 1 + (n - 2) = n - 1 := by omega
      rw [e] at this; rw [this]; decide
  obtain ⟨p, hp⟩ := outPart_some sw (mkPic (List.replicate n 72))
    { pi := 0, bi := (⟨0, 0⟩ : Ctr).add (4 * n), quoted := false, label := false, ri := 253,
      curbitstart := ⟨0, 0⟩, curpicend := n, prevcmd := 78,
      rp := [⟨[], [], []⟩, ⟨[124], [124], []⟩] }
  -- the command found in the first pass
  have hck : ckRanges (mkPic (List.replicate n 72)) n ⟨0, 0⟩
      = (1, (⟨0, 0⟩ : Ctr).add (4 * n), none) := by
    have := ckRanges_hex_plain (mkPic (List.replicate n 72)) 1 n ⟨0, 0⟩ hn
      (fun i hi => byteAt_mkPic_run n i hi) (Or.inr (by simp only [Nat.sub_self]; omega))
    have e : 1 + n - 1 = n := by omega
    rw [e] at this; exact this
  have hcmd : command (mkPic (List.replicate n 72)) n ⟨0, 0⟩ 72
      = (1, (⟨0, 0⟩ : Ctr).add (4 * n), 78, none) := by
    rw [command_letter _ _ _ 72 (by omega), hck]
  have hpi : (init (List.replicate n 72)).pi = n + 1 := by simp [init, hlen]
  have hcpe : (init (List.replicate n 72)).curpicend = n := by simp [init, hlen]
  have hb1 : body sw (mkPic (List.replicate n 72)) (init (List.replicate n 72)) =
      .cont (afterCmd (mkPic (List.replicate n 72))
        { init (List.replicate n 72) with pi := n } ⟨[], [], []⟩ 72) := by
    have hb := body_letter sw (mkPic (List.replicate n 72)) (init (List.replicate n 72))
      (by rw [hpi]; omega) (by rw [hpi]; exact hw1) rfl rfl
      (by rw [hpi]; simp only [Nat.add_sub_cancel]; rw [hw]; omega)
    rw [hpi] at hb
    simp only [Nat.add_sub_cancel] at hb
    rw [hw] at hb
    rw [hb]
    have hout : outPart sw (mkPic (List.replicate n 72))
        { init (List.replicate n 72) with pi := n } = some ⟨[], [], []⟩ := by
      simp [outPart, init, hlen, slice_self]
    rw [emit_eq sw _ _ 72 _ hout, if_neg (by simp [init]), if_neg (by simp only; omega)]
    simp only [init] at hcmd ⊢
    rw [hcmd]
  have hst1 : afterCmd (mkPic (List.replicate n 72))
        { init (List.replicate n 72) with pi := n } ⟨[], [], []⟩ 72 =
      { pi := 1, bi := (⟨0, 0⟩ : Ctr).add (4 * n), quoted := false, label := false, ri := 253,
        curbitstart := ⟨0, 0⟩, curpicend := n, prevcmd := 78,
        rp := [⟨[], [], []⟩, ⟨[124], [124], []⟩] } := by
    simp only [afterCmd, init] at hcmd ⊢
    rw [hcmd]
    rfl
  rw [hst1] at hb1
  have hb2 : body sw (mkPic (List.replicate n 72))
      { pi := 1, bi := (⟨0, 0⟩ : Ctr).add (4 * n), quoted := false, label := false, ri := 253,
        curbitstart := ⟨0, 0⟩, curpicend := n, prevcmd := 78,
        rp := [⟨[], [], []⟩, ⟨[124], [124], []⟩] } =
      .brk (afterLast
        { pi := 0, bi := (⟨0, 0⟩ : Ctr).add (4 * n), quoted := false, label := false, ri := 253,
          curbitstart := ⟨0, 0⟩, curpicend := n, prevcmd := 78,
          rp := [⟨[], [], []⟩, ⟨[124], [124], []⟩] } p) := by
    have hz := body_zero sw (mkPic (List.replicate n 72))
      { pi := 1, bi := (⟨0, 0⟩ : Ctr).add (4 * n), quoted := false, label := false, ri := 253,
        curbitstart := ⟨0, 0⟩, curpicend := n, prevcmd := 78,
        rp := [⟨[], [], []⟩, ⟨[124], [124], []⟩] } rfl
    rw [hz]
    exact (emit_eq sw _ _ 63 p hp).trans (by rw [if_neg (by simp), if_pos (by simp)])
  refine ⟨afterLast
    { pi := 0, bi := (⟨0, 0⟩ : Ctr).add (4 * n), quoted := false, label := false, ri := 253,
      curbitstart := ⟨0, 0⟩, curpicend := n, prevcmd := 78,
      rp := [⟨[], [], []⟩, ⟨[124], [124], []⟩] } p, p, ?_, ?_, ?_, ?_⟩
  · unfold scan
    rw [hlen, run_cont sw _ (n + 1) _ _ (by rw [hpi]; omega) (by simp [init]) hb1,
      run_brk sw _ n _ _ (by simp) (by simp) hb2]
  · rfl
  · rfl
  · unfold outPart at hp
    rw [if_neg (by simp)] at hp
    exact hp

theorem Lint_hex_run_wrapped (sw : Str → Nat) (n : Nat) (hn : 1 ≤ n)
    (hwrap : (4 * n) % 65536 = 0) :
    ∃ st, scan sw (List.replicate n 72) = .done st ∧ st.bi.exact = 4 * n ∧ st.bi.val = 0 ∧
      Lint sw (List.replicate n 72) = .ret
        [bytes ("OK."), bytes ("bits:|"), bytes ("     |"),
         bytes ("cmds:¨") ++ List.replicate n 72 ++ dia] := by
  obtain ⟨st, p, hs, hbi, hrp, hrender⟩ := scan_hex_run sw n hn
  have hval : st.bi.val = 0 := by rw [hbi]; simp [Ctr.add, hwrap]
  have hexact : st.bi.exact = 4 * n := by rw [hbi]; simp [Ctr.add]
  refine ⟨st, hs, hexact, hval, ?_⟩
  rw [renderPart_eq] at hrender
  have hv : ((⟨0, 0⟩ : Ctr).add (4 * n)).val = 0 := by simp [Ctr.add, hwrap]
  simp only [hv] at hrender
  have hsl : slice (mkPic (List.replicate n 72)) (0 + 1) (n + 1) = List.replicate n 72 := by
    have := slice_mkPic (List.replicate n 72)
    simpa using this
  rw [hsl] at hrender
  simp only [Option.some.injEq] at hrender
  rw [Lint_of_done sw _ st hs (by rw [hrp]; simp), hval, hrp, ← hrender]
  simp [bitsOf, marksOf, picsOf, bitsSegment]
  decide

/-- C2 fails on the code: on the picture of 16384 letters `H` the scan
consumes one command of exact width `4 * 16384 = 65536`, the 16-bit counter
`bi` wraps to 0, and `Lint` returns the status `OK.`. -/
theorem Lint_counter_wraps (sw : Str → Nat) :
    ∃ st, scan sw (List.replicate 16384 72) = .done st ∧ st.bi.exact = 65536 ∧ st.bi.val = 0 ∧
      Lint sw (List.replicate 16384 72) = .ret
        [bytes ("OK."), bytes ("bits:|"), bytes ("     |"),
         bytes ("cmds:¨") ++ List.replicate 16384 72 ++ dia] :=
  Lint_hex_run_wrapped sw 16384 (by decide) (by decide)

theorem sampleWidth_append (a b : Str) : sampleWidth (a ++ b) = sampleWidth a + sampleWidth b := by
  simp [sampleWidth]

theorem sampleWidth_run (n : Nat) : sampleWidth (List.replicate n 72) = n := by
  induction n with
  | zero => rfl
  | succ n ih =>
    rw [List.replicate_succ, ← List.singleton_append, sampleWidth_append, ih]
    have : sampleWidth [72] = 1 := by decide
    omega

/-- C6 fails on the code: with the sample display width (additive, one column
for every ASCII byte and for the filler `¨`), the result for the picture of
16384 letters `H` has no positional error, its bits line and its marks line
are 6 bytes long and its tail label is empty, yet its cmds line is 16391
columns wide: the field, whose width the 16-bit counter has wrapped to 0, got
no bits segment and no mark. -/
theorem Lint_alignment_wraps :
    (∀ a b, sampleWidth (a ++ b) = sampleWidth a + sampleWidth b) ∧
    (∀ c, c < 128 → sampleWidth [c] = 1) ∧ sampleWidth dia = 1 ∧
    ∃ b m c, Lint sampleWidth (List.replicate 16384 72) = .ret [bytes ("OK."), b, m, c] ∧
      b.length = 6 ∧ m.length = 6 ∧ sampleWidth c = 16391 := by
  refine ⟨sampleWidth_append, ?_, by decide, ?_⟩
  · intro c hc
    have h1 : ¬ (128 ≤ c ∧ c < 192) := by omega
    have h2 : ¬ (227 ≤ c ∧ c ≤ 239) := by omega
    simp [sampleWidth, h1, h2]
  · obtain ⟨st, -, -, -, hL⟩ := Lint_hex_run_wrapped sampleWidth 16384 (by decide) (by decide)
    refine ⟨_, _, _, hL, by decide, by decide, ?_⟩
    rw [sampleWidth_append, sampleWidth_append]
    have h1 : sampleWidth (bytes ("cmds:¨")) = 6 := by decide
    have h2 : sampleWidth dia = 1 := by decide
    have h3 : sampleWidth (List.replicate 16384 72) = 16384 := sampleWidth_run 16384
    rw [h1, h2, h3]

/-! ## Many single-bit marks: the output buffer runs out -/

theorem run_marks (sw : Str → Nat) (pic : Str) :
    ∀ (n : Nat) (st : State), st.pi ≤ n → 1 ≤ st.pi → st.quoted = false →
      (∀ i, i < st.pi → 60 ≤ byteAt pic i ∧ byteAt pic i ≤ 63) →
      (st.pi : Int) - 1 ≤ st.ri → st.ri ≤ 255 →
      ∃ st1, run sw pic n st = .done st1 ∧ st1.ri = st.ri - st.pi := by
  intro n
  induction n with
  | zero => intro st h1 h2; omega
  | succ n ih =>
    intro st hn hpi hq hm hri hri2
    by_cases hz : st.pi - 1 = 0
    · obtain ⟨p, hp⟩ := outPart_some sw pic { st with pi := st.pi - 1 }
      have hb : body sw pic st = .brk (afterLast { st with pi := st.pi - 1 } p) := by
        rw [body_zero sw pic st hz, emit_eq sw pic _ 63 p hp,
          if_neg (by simp only; omega), if_pos (by simp only; omega)]
      refine ⟨_, run_brk sw pic n st _ hpi (by omega) hb, ?_⟩
      simp only [afterLast]
      omega
    · have hw := hm (st.pi - 1) (by omega)
      have hw2 := hm (st.pi - 1 - 1) (by omega)
      obtain ⟨p, hp⟩ := outPart_some sw pic { st with pi := st.pi - 1, label := true }
      have hcmd := command_mark pic (st.pi - 1) st.bi (byteAt pic (st.pi - 1)) hw
      have hb : body sw pic st =
          .cont (afterCmd pic { st with pi := st.pi - 1, label := true } p
            (byteAt pic (st.pi - 1))) := by
        rw [body_mark sw pic st hz (by omega) hq hw, emit_eq sw pic _ _ p hp,
          if_neg (by simp only; omega), if_neg (by simp only; omega)]
        simp only [hcmd]
      rw [run_cont sw pic n st _ hpi (by omega) hb]
      obtain ⟨st1, e1, e2⟩ := ih (afterCmd pic { st with pi := st.pi - 1, label := true } p
          (byteAt pic (st.pi - 1)))
        (by simp only [afterCmd, hcmd]; omega) (by simp only [afterCmd, hcmd]; omega)
        (by simp only [afterCmd]; exact hq)
        (fun i hi => hm i (by simp only [afterCmd, hcmd] at hi; omega))
        (by simp only [afterCmd, hcmd]; omega) (by simp only [afterCmd]; omega)
      refine ⟨st1, e1, ?_⟩
      rw [e2]
      simp only [afterCmd, hcmd]
      omega

theorem Lint_marks_overrun (sw : Str → Nat) (inp : Str) (hlen : inp.length = 254)
    (hall : ∀ b ∈ inp, 60 ≤ b ∧ b ≤ 63) : Lint sw inp = .panic := by
  have hl : (mkPic inp).length = 256 := by
    rw [length_mkPic, hlen]
  have hm : ∀ i, i < (init inp).pi →
      60 ≤ byteAt (mkPic inp) i ∧ byteAt (mkPic inp) i ≤ 63 := by
    intro i hi
    simp only [init, hl] at hi
    cases i with
    | zero => rw [byteAt_mkPic_zero]; omega
    | succ j =>
      rw [byteAt_mkPic_succ _ j (by omega)]
      exact hall _ (byteAt_mem inp j (by omega))
  obtain ⟨st1, e1, e2⟩ := run_marks sw (mkPic inp) (mkPic inp).length (init inp)
    (by simp [init]) (by simp [init, hl]) rfl hm (by simp [init, hl]) (by simp [init])
  have hri : st1.ri < 0 := by
    rw [e2]; simp [init, hl]
  unfold Lint ckPicStr scan
  rw [e1]
  simp [hri]

/-- C3 fails on the code: on the picture of 254 marks `=` the loop of
`ckPicStr` fills the slots 254 .. 0 of the buffer and leaves `ri = -1`; the
statement `rp[ri].bits = ...` after the loop then indexes the buffer out of
range, so `Lint` panics instead of returning its four lines. -/
theorem Lint_buffer_overrun (sw : Str → Nat) : Lint sw (List.replicate 254 61) = .panic :=
  Lint_marks_overrun sw (List.replicate 254 61) (List.length_replicate 254 61)
    (fun b hb => by rw [List.eq_of_mem_replicate hb]; omega)

/-! ## Column alignment of one field -/

theorem slice_cons (s : Str) (a c : Nat) (hac : a < c) (hc : c ≤ s.length) :
    slice s a c = byteAt s a :: slice s (a + 1) c := by
  unfold slice byteAt
  have h1 : a < (List.take c s).length := by simp [List.length_take]; omega
  rw [List.drop_eq_getElem_cons h1, List.getElem_take, List.getD_eq_getElem _ _ (by omega)]

theorem width_fill (sw : Str → Nat) (hadd : ∀ a b, sw (a ++ b) = sw a + sw b)
    (hdia : sw dia = 1) (k : Nat) : sw (List.replicate k dia).flatten = k := by
  induction k with
  | zero =>
    have := hadd [] []
    simp only [List.append_nil] at this
    simp only [List.replicate_zero, List.flatten_nil]
    omega
  | succ k ih =>
    rw [List.replicate_succ, List.flatten_cons, hadd, hdia, ih]
    omega

/-- The part of C6 that holds: when the display width is additive and the
command bytes at both ends of the label and the filler `¨` are one column
wide, a field of width at least 1 (as the 16-bit counter has it) gets a bits
segment, a mark segment and a cmds segment of one and the same width. -/
theorem renderPart_aligned (sw : Str → Nat) (hadd : ∀ a b, sw (a ++ b) = sw a + sw b)
    (hdia : sw dia = 1) (pic : Str) (pi cpe : Nat) (bi cbs : Ctr) (hpi : pi < cpe)
    (hcpe : cpe < pic.length) (h1 : sw [byteAt pic pi] = 1) (h2 : sw [byteAt pic cpe] = 1)
    (hw : 1 ≤ (bi.val + 65536 - cbs.val) % 65536) :
    ∃ p, renderPart sw pic pi cpe bi cbs = some p ∧ p.mark.length = p.bits.length ∧
      sw p.pics = p.bits.length := by
  refine ⟨_, renderPart_eq sw pic pi cpe bi cbs, ?_, ?_⟩
  · have h2 := bitsSegment_length_two ((bi.val + 65535) % 65536)
      ((bi.val + 65536 - cbs.val) % 65536) cbs.val (sw (slice pic pi cpe)) hw
    simp only
    rw [if_pos (by omega)]
    simp only [List.length_append, List.length_replicate, List.length_singleton]
    omega
  · have h3 := bitsSegment_length_ge ((bi.val + 65535) % 65536)
      ((bi.val + 65536 - cbs.val) % 65536) cbs.val (sw (slice pic pi cpe)) hw
    simp only
    rw [hadd, hadd, hdia, width_fill sw hadd hdia, slice_snoc pic (pi + 1) cpe (by omega) hcpe,
      hadd, h2]
    have h4 : sw (slice pic pi cpe) = 1 + sw (slice pic (pi + 1) cpe) := by
      rw [slice_cons pic pi cpe hpi (by omega), ← List.singleton_append, hadd, h1]
    omega

/-! ## Runs of `F` and of `E` in `ckRanges` -/

theorem nextF_run (pic : Str) (a : Nat) (hstop : a = 0 ∨ byteAt pic (a - 1) ≠ 70) :
    ∀ (m : Nat) (bi : Ctr) (efs : Nat), (∀ i, i < m → byteAt pic (a + i) = 70) →
      nextF pic (a + m) bi efs = (a, bi.add (3 * (m + 1)), efs + m) := by
  intro m
  induction m with
  | zero =>
    intro bi efs _
    cases a with
    | zero => simp [nextF]
    | succ p =>
      have h : byteAt pic p ≠ 70 := by simpa using hstop
      simp [nextF, h]
  | succ m ih =>
    intro bi efs hrun
    have h1 : byteAt pic (a + m) = 70 := hrun m (by omega)
    have h2 : nextF pic (a + (m + 1)) bi efs = nextF pic (a + m) (bi.add 3) (efs + 1) := by
      show nextF pic (a + m + 1) bi efs = _
      simp [nextF, h1]
    rw [h2, ih (bi.add 3) (efs + 1) (fun i hi => hrun i (by omega)), Ctr.add_add]
    congr 2
    · congr 1; omega
    · omega

theorem nextE_run (pic : Str) (a : Nat) (hstop : a = 0 ∨ byteAt pic (a - 1) ≠ 69) :
    ∀ (m : Nat) (bi : Ctr) (efs : Nat), (∀ i, i < m → byteAt pic (a + i) = 69) →
      nextE pic (a + m) bi efs = (a, bi.add (2 * (m + 1)), efs + m) := by
  intro m
  induction m with
  | zero =>
    intro bi efs _
    cases a with
    | zero => simp [nextE]
    | succ p =>
      have h : byteAt pic p ≠ 69 := by simpa using hstop
      simp [nextE, h]
  | succ m ih =>
    intro bi efs hrun
    have h1 : byteAt pic (a + m) = 69 := hrun m (by omega)
    have h2 : nextE pic (a + (m + 1)) bi efs = nextE pic (a + m) (bi.add 2) (efs + 1) := by
      show nextE pic (a + m + 1) bi efs = _
      simp [nextE, h1]
    rw [h2, ih (bi.add 2) (efs + 1) (fun i hi => hrun i (by omega)), Ctr.add_add]
    congr 2
    · congr 1; omega
    · omega

/-- Case `F` of `ckRanges`, called on the last letter of the run of `n`
letters `F` at `a .. a+n-1`. -/
theorem ckRanges_F_aux (pic : Str) (a n : Nat) (bi : Ctr) (hn : 1 ≤ n)
    (hrun : ∀ i, i < n → byteAt pic (a + i) = 70)
    (hstop : a = 0 ∨ byteAt pic (a - 1) ≠ 70) :
    ckRanges pic (a + n - 1) bi =
      ((octPrefix pic a (bi.add (3 * n)) n).1, (octPrefix pic a (bi.add (3 * n)) n).2.1,
        if (if a + n - 1 < pic.length - 1 then byteAt pic (a + n - 1 + 1) else 0) = 42 then none
        else if n = 1 ∧ ((0 : Nat) < 65 ∨ (0 : Nat) > 72) then none
        else if (octPrefix pic a (bi.add (3 * n)) n).2.2 = true ∧
            ((if (octPrefix pic a (bi.add (3 * n)) n).1 > 0 then
                byteAt pic ((octPrefix pic a (bi.add (3 * n)) n).1 - 1) else 0) < 49 ∨
             (if (octPrefix pic a (bi.add (3 * n)) n).1 > 0 then
                byteAt pic ((octPrefix pic a (bi.add (3 * n)) n).1 - 1) else 0) ||| 1 = 0x3b ∨
             (if (octPrefix pic a (bi.add (3 * n)) n).1 > 0 then
                byteAt pic ((octPrefix pic a (bi.add (3 * n)) n).1 - 1) else 0) > 72) then none
        else some errMisleading) := by
  obtain ⟨m, rfl⟩ : ∃ m, n = m + 1 := ⟨n - 1, by omega⟩
  have hw : byteAt pic (a + (m + 1) - 1) = 70 := by
    have := hrun m (by omega)
    simpa using this
  have hF : nextF pic (a + (m + 1) - 1) bi 1 = (a, bi.add (3 * (m + 1)), m + 1) := by
    have := nextF_run pic a hstop m bi 1 (fun i hi => hrun i (by omega))
    simp only [Nat.add_sub_cancel, Nat.add_comm 1 m] at this ⊢
    exact this
  unfold ckRanges
  simp only [hw, hF]
  rw [if_neg (by decide), if_neg (by decide), if_neg (by decide), if_neg (by decide),
    if_pos True.intro]

/-- Case `E` of `ckRanges`, called on the last letter of the run of `n`
letters `E` at `a .. a+n-1`: the byte `off` is read at `a + 1`. -/
theorem ckRanges_E_aux (pic : Str) (a n : Nat) (bi : Ctr) (hn : 1 ≤ n)
    (hrun : ∀ i, i < n → byteAt pic (a + i) = 69)
    (hstop : a = 0 ∨ byteAt pic (a - 1) ≠ 69) :
    ckRanges pic (a + n - 1) bi =
      (a, bi.add (2 * n),
        if (if a < pic.length - 1 then byteAt pic (a + 1) else 0) = 42 then none
        else if n = 1 ∧ a = 0 then none
        else if n = 1 ∧ ((if a > 0 then byteAt pic (a - 1) else 0) < 65 ∨
            (if a > 0 then byteAt pic (a - 1) else 0) > 72) then none
        else some errMisleading) := by
  obtain ⟨m, rfl⟩ : ∃ m, n = m + 1 := ⟨n - 1, by omega⟩
  have hw : byteAt pic (a + (m + 1) - 1) = 69 := by
    have := hrun m (by omega)
    simpa using this
  have hE : nextE pic (a + (m + 1) - 1) bi 1 = (a, bi.add (2 * (m + 1)), m + 1) := by
    have := nextE_run pic a hstop m bi 1 (fun i hi => hrun i (by omega))
    simp only [Nat.add_sub_cancel, Nat.add_comm 1 m] at this ⊢
    exact this
  unfold ckRanges
  simp only [hw, hE]
  rw [if_neg (by decide), if_neg (by decide), if_neg (by decide), if_neg (by decide),
    if_neg (by decide), if_pos True.intro]

/-! ## The octal rule and the runs of `F` and `E` -/

theorem byteAt_mid (pre mid post : Str) (j : Nat) (h : j < mid.length) :
    byteAt (pre ++ mid ++ post) (pre.length + j) = byteAt mid j := by
  rw [byteAt_append_left _ _ _ (by simp; omega), byteAt_append_right _ _ _ (by simp)]
  simp

theorem byteAt_pre (pre mid post : Str) (j : Nat) (h : j < pre.length) :
    byteAt (pre ++ mid ++ post) j = byteAt pre j := by
  rw [byteAt_append_left _ _ _ (by simp; omega), byteAt_append_left _ _ _ h]

theorem byteAt_post (pre mid post : Str) (j : Nat) :
    byteAt (pre ++ mid ++ post) (pre.length + mid.length + j) = byteAt post j := by
  rw [byteAt_append_right _ _ _ (by simp)]
  simp

theorem byteAt_zero_head (s : Str) : byteAt s 0 = s.head?.getD 0 := by
  cases s <;> simp [byteAt]

/-- C11. Octal rule: called on the last letter of a group `EFF` (exactly two
`F` after an `E`) that is not followed by `*`, `ckRanges` moves the position
to the `E`, commits 2+3+3 = 8 bits, and accepts the group if the byte `x`
before the `E` is below `1`, is `:` or `;`, or is above `H` (so for `0` and
`:`), and rejects it with "Misleading use of B/E/F number. ..." otherwise, in
particular if `x` is one of `B`, `E`, `F`, `H`. -/
theorem ckRanges_octal (pre post : Str) (x : Nat) (bi : Ctr) (hoff : post.head? ≠ some 42) :
    ckRanges (pre ++ [x, 69, 70, 70] ++ post) (pre.length + 3) bi =
        (pre.length + 1, bi.add 8,
          if x < 49 ∨ x = 58 ∨ x = 59 ∨ x > 72 then none else some errMisleading) ∧
      (x = 48 ∨ x = 58 →
        ckRanges (pre ++ [x, 69, 70, 70] ++ post) (pre.length + 3) bi =
          (pre.length + 1, bi.add 8, none)) ∧
      (x = 66 ∨ x = 69 ∨ x = 70 ∨ x = 72 →
        ckRanges (pre ++ [x, 69, 70, 70] ++ post) (pre.length + 3) bi =
          (pre.length + 1, bi.add 8, some errMisleading)) := by
  have hx : byteAt (pre ++ [x, 69, 70, 70] ++ post) pre.length = x := by
    have := byteAt_mid pre [x, 69, 70, 70] post 0 (by simp)
    simpa [byteAt] using this
  have hE : byteAt (pre ++ [x, 69, 70, 70] ++ post) (pre.length + 1) = 69 := by
    have := byteAt_mid pre [x, 69, 70, 70] post 1 (by simp)
    simpa [byteAt] using this
  have hF1 : byteAt (pre ++ [x, 69, 70, 70] ++ post) (pre.length + 2) = 70 := by
    have := byteAt_mid pre [x, 69, 70, 70] post 2 (by simp)
    simpa [byteAt] using this
  have hF2 : byteAt (pre ++ [x, 69, 70, 70] ++ post) (pre.length + 3) = 70 := by
    have := byteAt_mid pre [x, 69, 70, 70] post 3 (by simp)
    simpa [byteAt] using this
  have hlen : (pre ++ [x, 69, 70, 70] ++ post).length = pre.length + 4 + post.length := by
    simp; omega
  have hoff2 : ¬ ((if pre.length + 2 + 2 - 1 < (pre ++ [x, 69, 70, 70] ++ post).length - 1 then
      byteAt (pre ++ [x, 69, 70, 70] ++ post) (pre.length + 2 + 2 - 1 + 1) else 0) = 42) := by
    split_ifs with h
    · have h4 := byteAt_post pre [x, 69, 70, 70] post 0
      have e : pre.length + 2 + 2 - 1 + 1 = pre.length + [x, 69, 70, 70].length + 0 := by
        simp
      rw [e, h4, byteAt_zero_head]
      cases hp : post.head? with
      | none => simp
      | some c =>
        rw [hp] at hoff
        simp only [Option.getD_some]
        intro hc
        exact hoff (by rw [hc])
    · decide
  have hmain : ckRanges (pre ++ [x, 69, 70, 70] ++ post) (pre.length + 3) bi =
      (pre.length + 1, bi.add 8,
        if x < 49 ∨ x = 58 ∨ x = 59 ∨ x > 72 then none else some errMisleading) := by
    generalize hpic : pre ++ [x, 69, 70, 70] ++ post = pic at hx hE hF1 hF2 hlen hoff2
    have hrun : ∀ i, i < 2 → byteAt pic (pre.length + 2 + i) = 70 := by
      intro i hi
      interval_cases i
      · exact hF1
      · exact hF2
    have haux := ckRanges_F_aux pic (pre.length + 2) 2 bi (by omega) hrun
      (Or.inr (by have e : pre.length + 2 - 1 = pre.length + 1 := by omega
                  rw [e, hE]; decide))
    have e3 : pre.length + 2 + 2 - 1 = pre.length + 3 := by omega
    have hoct : octPrefix pic (pre.length + 2) (bi.add (3 * 2)) 2 =
        (pre.length + 1, bi.add 8, true) := by
      unfold octPrefix
      have e : pre.length + 2 - 1 = pre.length + 1 := by omega
      rw [e, hE, if_pos ⟨rfl, by omega, rfl⟩, Ctr.add_add]
    rw [hoct] at haux
    simp only [Nat.add_sub_cancel, hx] at haux
    rw [e3] at haux
    rw [haux, if_neg (by rw [← e3]; exact hoff2), if_neg (by omega)]
    simp only [true_and, if_pos (Nat.succ_pos pre.length)]
    have hcond : (x < 49 ∨ x ||| 1 = 0x3b ∨ x > 72) ↔ (x < 49 ∨ x = 58 ∨ x = 59 ∨ x > 72) := by
      rw [lor1_iff]
      constructor
      · rintro (h | h | h)
        · exact Or.inl h
        · rcases h with h | h
          · exact Or.inr (Or.inl h)
          · exact Or.inr (Or.inr (Or.inl h))
        · exact Or.inr (Or.inr (Or.inr h))
      · rintro (h | h | h | h)
        · exact Or.inl h
        · exact Or.inr (Or.inl (Or.inl h))
        · exact Or.inr (Or.inl (Or.inr h))
        · exact Or.inr (Or.inr h)
    by_cases hc : x < 49 ∨ x = 58 ∨ x = 59 ∨ x > 72
    · rw [if_pos hc, if_pos (hcond.mpr hc)]
    · rw [if_neg hc, if_neg (fun h => hc (hcond.mp h))]
  refine ⟨hmain, fun h => ?_, fun h => ?_⟩
  · rw [hmain, if_pos (by omega)]
  · rw [hmain, if_neg (by omega)]

theorem ckRanges_octal_witness :
    ckRanges (bytes ("ones: ") ++ [48, 69, 70, 70] ++ bytes (" and")) (6 + 3) ⟨0, 0⟩ =
        (6 + 1, ⟨8, 8⟩, none) :=
  ((ckRanges_octal (bytes ("ones: ")) (bytes (" and")) 48 ⟨0, 0⟩ (by decide)).2.1
    (Or.inl rfl))

theorem ckRanges_lone_F (pic : Str) (pi : Nat) (bi : Ctr) (hw : byteAt pic pi = 70)
    (hstop : pi = 0 ∨ byteAt pic (pi - 1) ≠ 70) :
    ckRanges pic pi bi = (pi, bi.add 3, none) := by
  have haux := ckRanges_F_aux pic pi 1 bi (le_refl 1)
    (fun i hi => by have : i = 0 := by omega
                    subst this; exact hw) hstop
  have hoct : octPrefix pic pi (bi.add (3 * 1)) 1 = (pi, bi.add 3, false) := by
    unfold octPrefix
    rw [if_neg (by omega)]
  rw [hoct] at haux
  simp only [Nat.add_sub_cancel] at haux
  rw [haux]
  by_cases h : (if pi < pic.length - 1 then byteAt pic (pi + 1) else 0) = 42
  · rw [if_pos h]
  · rw [if_neg h, if_pos ⟨True.intro, Or.inl (by decide)⟩]

/-- C12 fails on the code: in case `F` of `ckRanges` the byte `n` that the
test of a lone `F` looks at is never assigned, so a lone `F` is accepted
whatever stands before it; the picture `HF` is accepted with `OK.`, as a 4-bit
field `H` and a 3-bit field `F`. -/
theorem ckRanges_lone_F_unchecked :
    (∀ (pic : Str) (pi : Nat) (bi : Ctr), byteAt pic pi = 70 →
      (pi = 0 ∨ byteAt pic (pi - 1) ≠ 70) → ckRanges pic pi bi = (pi, bi.add 3, none)) ∧
    ckRanges (mkPic (bytes ("HF"))) 2 ⟨0, 0⟩ = (2, ⟨3, 3⟩, none) ∧
    Lint sampleWidth (bytes ("HF")) = .ret
      [bytes ("OK."), bytes ("bits:|6 4b 3|2 3b 0|"), bytes ("           ^      ^|"),
       bytes ("cmds:¨¨¨¨¨¨H¨¨¨¨¨¨F¨")] :=
  ⟨ckRanges_lone_F, by decide!, by decide!⟩

theorem ckRanges_E_run_asterisk (pre post : Str) (n : Nat) (bi : Ctr) (hn : 2 ≤ n)
    (hpre : pre.getLast? ≠ some 69) :
    ckRanges (pre ++ List.replicate n 69 ++ ([42] ++ post)) (pre.length + n - 1) bi =
      (pre.length, bi.add (2 * n), some errMisleading) := by
  have hrun : ∀ i, i < n →
      byteAt (pre ++ List.replicate n 69 ++ ([42] ++ post)) (pre.length + i) = 69 := by
    intro i hi
    rw [byteAt_mid pre _ _ i (by simpa using hi)]
    exact byteAt_replicate n 69 i hi
  have hstop : pre.length = 0 ∨
      byteAt (pre ++ List.replicate n 69 ++ ([42] ++ post)) (pre.length - 1) ≠ 69 := by
    rcases List.eq_nil_or_concat pre with h | ⟨p, x, h⟩
    · left; simp [h]
    · right
      have h1 : byteAt pre (pre.length - 1) = x := byteAt_getLast pre x (by simp [h])
      rw [byteAt_pre pre _ _ _ (by simp [h]), h1]
      intro hx
      apply hpre
      simp [h, hx]
  have hlen : (pre ++ List.replicate n 69 ++ ([42] ++ post)).length
      = pre.length + n + 1 + post.length := by
    simp; omega
  generalize pre ++ List.replicate n 69 ++ ([42] ++ post) = pic at hrun hstop hlen ⊢
  rw [ckRanges_E_aux pic pre.length n bi (by omega) hrun hstop]
  have hoff : ¬ ((if pre.length < pic.length - 1 then byteAt pic (pre.length + 1) else 0) = 42) := by
    rw [if_pos (by omega), hrun 1 (by omega)]
    decide
  rw [if_neg hoff, if_neg (by omega), if_neg (by omega)]

/-- C20 fails on the code: in case `E` of `ckRanges` the byte `off` is read
after the loop has moved `pi` to the first `E`, so for a run of `n ≥ 2`
letters `E` it is the second `E`, never the asterisk after the run, and the
run is rejected; `EE*` gives the "Misleading use" error, while the asterisk
works after a single `E`. -/
theorem ckRanges_E_run_asterisk_rejected :
    (∀ (pre post : Str) (n : Nat) (bi : Ctr), 2 ≤ n → pre.getLast? ≠ some 69 →
      ckRanges (pre ++ List.replicate n 69 ++ ([42] ++ post)) (pre.length + n - 1) bi =
        (pre.length, bi.add (2 * n), some errMisleading)) ∧
    Lint sampleWidth (bytes ("EE*")) = .ret
      [bytes ("Error: Misleading use of B/E/F number. See section \x27Valid Numbers\x27 in docs."),
       [], bytes ("EE* "), bytes ("^^HERE")] ∧
    Lint sampleWidth (bytes ("E*")) = .ret
      [bytes ("OK."), bytes ("bits:|1 2b 0|"), bytes ("           ^|"),
       bytes ("cmds:¨¨¨¨¨¨E¨*")] :=
  ⟨ckRanges_E_run_asterisk, by decide!, by decide!⟩

/-! ## Errors found in a reachable state -/

theorem Lint_of_fail (sw : Str → Nat) (inp : Str) (rp : List Part) (e : Str)
    (h : scan sw inp = .fail rp e) :
    Lint sw inp = .ret [bytes ("Error: ") ++ e, (rp.map Part.bits).flatten,
      (rp.map Part.mark).flatten, (rp.map Part.pics).flatten] := by
  unfold Lint ckPicStr
  rw [h]

theorem Lint_fail_at (sw : Str → Nat) (inp : Str) (t st0 : State) (w : Nat) (e : Str)
    (hreach : Reach sw (mkPic inp) (init inp) t) (hpi : 2 ≤ t.pi) (hri : 0 ≤ t.ri)
    (hbody : body sw (mkPic inp) t = emit sw (mkPic inp) st0 w)
    (h1 : st0.pi = t.pi - 1) (h2 : st0.bi = t.bi) (h3 : st0.ri = t.ri)
    (hcmd : (command (mkPic inp) (t.pi - 1) t.bi w).2.2.2 = some e) :
    body sw (mkPic inp) t = .fail [⟨[], inp ++ [32],
        caretLine (mkPic inp) (command (mkPic inp) (t.pi - 1) t.bi w).1 (t.pi - 1)
          ++ bytes ("HERE")⟩] e ∧
    Lint sw inp = .ret [bytes ("Error: ") ++ e, [], inp ++ [32],
        caretLine (mkPic inp) (command (mkPic inp) (t.pi - 1) t.bi w).1 (t.pi - 1)
          ++ bytes ("HERE")] := by
  have h0 := byteAt_mkPic_zero inp
  obtain ⟨i1, -⟩ := Inv_reach sw inp t hreach
  obtain ⟨p, hpart⟩ := outPart_some sw (mkPic inp) st0
  have hb : body sw (mkPic inp) t = .fail [⟨[], inp ++ [32],
        caretLine (mkPic inp) (command (mkPic inp) (t.pi - 1) t.bi w).1 (t.pi - 1)
          ++ bytes ("HERE")⟩] e := by
    rw [hbody, emit_eq sw (mkPic inp) st0 w p hpart]
    have hri2 : ¬ (st0.ri < 0 ∨ 255 < st0.ri) := by
      have : (0 : Int) ≤ (t.rp.length : Int) := by positivity
      omega
    rw [if_neg hri2, if_neg (by omega), h1, h2]
    simp only [hcmd, slice_mkPic_all]
  refine ⟨hb, ?_⟩
  have hscan : scan sw inp = .fail [⟨[], inp ++ [32],
        caretLine (mkPic inp) (command (mkPic inp) (t.pi - 1) t.bi w).1 (t.pi - 1)
          ++ bytes ("HERE")⟩] e := by
    unfold scan
    rw [Reach.run_eq h0 hreach _ (by simp [init])]
    obtain ⟨k, hk⟩ : ∃ k, (mkPic inp).length = k + 1 := ⟨inp.length + 1, by rw [length_mkPic]⟩
    rw [hk, run_succ, if_pos ⟨by omega, hri⟩, hb]
  rw [Lint_of_fail sw inp _ e hscan]
  simp

theorem command_at (pic : Str) (pi : Nat) (bi : Ctr) :
    command pic pi bi 64 =
      ((ckVarblen pic pi bi).1, (ckVarblen pic pi bi).2.1, 78, (ckVarblen pic pi bi).2.2) := by
  unfold command
  rw [if_neg (by decide), if_pos rfl]

theorem command_B (pic : Str) (pi : Nat) (bi : Ctr) (hpi : 0 < pi) :
    command pic pi bi 66 = (pi, bi.add 1, 76,
      if 49 ≤ byteAt pic (pi - 1) ∧ byteAt pic (pi - 1) ≤ 72 ∧ byteAt pic (pi - 1) ≠ 58 ∧
          byteAt pic (pi - 1) ≠ 59 ∧ byteAt pic (pi - 1) ≠ 66 then some errMisleading
      else none) := by
  unfold command
  rw [if_pos (Or.inr rfl), if_pos ⟨hpi, rfl⟩]
  simp only [lor1_iff]
  by_cases h : 49 ≤ byteAt pic (pi - 1) ∧ byteAt pic (pi - 1) ≤ 72 ∧ byteAt pic (pi - 1) ≠ 58 ∧
          byteAt pic (pi - 1) ≠ 59 ∧ byteAt pic (pi - 1) ≠ 66
  · rw [if_pos h, if_pos (by omega)]
  · rw [if_neg h, if_neg (by omega)]

/-! ## The bit count of a variable field -/

theorem bitCount_digits (pic : Str) (pi t u : Nat) (h1 : byteAt pic (pi - 2) = 48 + t)
    (h2 : byteAt pic (pi - 1) = 48 + u) (ht : t ≤ 9) (hu : u ≤ 9) :
    bitCount pic pi = 10 * t + u := by
  unfold bitCount
  rw [h1, h2]
  omega

theorem ckVarblen_ok_count (pic : Str) (pi : Nat) (bi : Ctr)
    (h : (ckVarblen pic pi bi).2.2 = none) :
    3 ≤ pi ∧ 1 ≤ bitCount pic pi ∧ bitCount pic pi ≤ 64 := by
  unfold ckVarblen at h
  by_cases c1 : pi < 3
  · rw [if_pos c1] at h; simp at h
  rw [if_neg c1] at h
  simp only at h
  by_cases c2 : bitCount pic pi = 0 ∨ bitCount pic pi > 64
  · rw [if_pos c2] at h; simp at h
  omega

theorem ckVarblen_bad_count (pic : Str) (pi : Nat) (bi : Ctr) (hpi : 3 ≤ pi)
    (hk : bitCount pic pi = 0 ∨ 64 < bitCount pic pi) :
    ckVarblen pic pi bi = (pi - 2, bi, some errBadBitcount) := by
  unfold ckVarblen
  rw [if_neg (by omega)]
  simp only
  rw [if_pos hk]

theorem ckVarblen_misplaced (pic : Str) (pi : Nat) (bi : Ctr) (hpi : pi < 3) :
    ckVarblen pic pi bi = (0, bi, some errMisplaced) := by
  unfold ckVarblen
  rw [if_pos hpi]

theorem ckVarblen_lead (pic : Str) (pi : Nat) (bi : Ctr) (hpi : 3 ≤ pi)
    (hk : 1 ≤ bitCount pic pi ∧ bitCount pic pi ≤ 64) (hbang : byteAt pic (pi - 3) ≠ 33) :
    ckVarblen pic pi bi =
      if leadDist (bitCount pic pi) ≤ pi ∧ byteAt pic (pi - leadDist (bitCount pic pi)) = 68 then
        (pi - leadDist (bitCount pic pi), bi.add (bitCount pic pi), none)
      else if 14 ≤ pi ∧ byteAt pic (pi - 14) = 73 then
        if slice pic (pi - 14) (pi + 1) = bytes ("IPv4.Address32@") then
          (pi - 14, bi.add 32, none)
        else (pi - 14, bi.add 32, some errIPv4)
      else (pi - 2, bi, some errNoStart) := by
  have hd := leadDist_ge (bitCount pic pi)
  unfold ckVarblen
  rw [if_neg (by omega)]
  simp only
  rw [if_neg (by omega), if_neg (fun h => hbang h.2)]
  by_cases c1 : leadDist (bitCount pic pi) ≤ pi ∧
      byteAt pic (pi - leadDist (bitCount pic pi)) = 68
  · rw [if_pos c1, if_pos ⟨by omega, c1.2⟩]
  rw [if_neg c1, if_neg (fun h => c1 ⟨by omega, h.2⟩)]
  by_cases c2 : 14 ≤ pi ∧ byteAt pic (pi - 14) = 73
  · rw [if_pos c2, if_pos ⟨by omega, c2.2⟩]
    have e : pi - 14 + 15 = pi + 1 := by omega
    rw [e]
    by_cases c3 : slice pic (pi - 14) (pi + 1) = bytes ("IPv4.Address32@")
    · rw [if_pos c3, if_neg (fun h => h c3)]
    · rw [if_neg c3, if_pos c3]
  · rw [if_neg c2, if_neg (fun h => c2 ⟨by omega, h.2⟩)]

/-- C14 fails on the code: `ckVarblen` never tests that the two bytes before
`@` are digits.  It computes `k` from them in `uint8` arithmetic and accepts
whatever gives `1 ≤ k ≤ 64`: `!0:@` is accepted as a field of 10 bits (`:` is
read as the digit ten) and `!/;@` as a field of 1 bit (`/` gives 255, then
`10 * 255 + 11` wraps to 1).  The rest of the claim holds: on success the
computed `k` is in `1..64`; a computed `k` of 0 or above 64 gives
"Bad bitcount."; an `@` at an index below 3 gives "Misplaced @". -/
theorem ckVarblen_count_unchecked :
    ckVarblen (mkPic (bytes ("!0:@"))) 4 ⟨0, 0⟩ = (1, ⟨10, 10⟩, none) ∧
    Lint sampleWidth (bytes ("!0:@")) = .ret [bytes ("OK."), bytes ("bits:|9 10b 0|"),
      bytes ("            ^|"), bytes ("cmds:¨¨¨¨!0:@¨")] ∧
    ckVarblen (mkPic (bytes ("!/;@"))) 4 ⟨0, 0⟩ = (1, ⟨1, 1⟩, none) ∧
    Lint sampleWidth (bytes ("!/;@")) = .ret [bytes ("OK."), bytes ("bits:|   0|"),
      bytes ("         ^|"), bytes ("cmds:¨!/;@¨")] ∧
    (∀ (pic : Str) (pi : Nat) (bi : Ctr), (ckVarblen pic pi bi).2.2 = none →
      3 ≤ pi ∧ 1 ≤ bitCount pic pi ∧ bitCount pic pi ≤ 64) ∧
    (∀ (pic : Str) (pi : Nat) (bi : Ctr), 3 ≤ pi →
      (bitCount pic pi = 0 ∨ 64 < bitCount pic pi) →
      ckVarblen pic pi bi = (pi - 2, bi, some errBadBitcount)) ∧
    (∀ (pic : Str) (pi : Nat) (bi : Ctr), pi < 3 →
      ckVarblen pic pi bi = (0, bi, some errMisplaced)) :=
  ⟨by decide!, by decide!, by decide!, by decide!, ckVarblen_ok_count, ckVarblen_bad_count,
    ckVarblen_misplaced⟩

/-- C15. Decimal lead-in: let the `@` stand at `pi ≥ 3`, after the two digits
`t`, `u` of `k = 10 t + u` with `1 ≤ k ≤ 64`, with no `!` directly before the
digits, and let `d` be 4 when `k ≤ 16` and `k / 3` (rounded down) when
`k > 16`.  Then `ckVarblen` accepts the field as a decimal field (position
moved by `d` to the marker, exactly `k` bits committed, no error) exactly
when the letter `D` stands `d` positions to the left of the `@`; and when
neither that nor the letter `I` 14 positions to the left is found, it reports
"Can't find valid start command for this dd@." at position `pi - 2`. -/
theorem ckVarblen_decimal (pic : Str) (pi t u : Nat) (bi : Ctr) (hpi : 3 ≤ pi)
    (h1 : byteAt pic (pi - 2) = 48 + t) (h2 : byteAt pic (pi - 1) = 48 + u)
    (ht : t ≤ 9) (hu : u ≤ 9) (hk1 : 1 ≤ 10 * t + u) (hk2 : 10 * t + u ≤ 64)
    (hbang : byteAt pic (pi - 3) ≠ 33) :
    (ckVarblen pic pi bi =
        (pi - (if 10 * t + u ≤ 16 then 4 else (10 * t + u) / 3), bi.add (10 * t + u), none) ↔
      ((if 10 * t + u ≤ 16 then 4 else (10 * t + u) / 3) ≤ pi ∧
        byteAt pic (pi - (if 10 * t + u ≤ 16 then 4 else (10 * t + u) / 3)) = 68)) ∧
    (¬ ((if 10 * t + u ≤ 16 then 4 else (10 * t + u) / 3) ≤ pi ∧
        byteAt pic (pi - (if 10 * t + u ≤ 16 then 4 else (10 * t + u) / 3)) = 68) →
      ¬ (14 ≤ pi ∧ byteAt pic (pi - 14) = 73) →
      ckVarblen pic pi bi = (pi - 2, bi, some errNoStart)) := by
  have hk := bitCount_digits pic pi t u h1 h2 ht hu
  have hd : leadDist (10 * t + u) = if 10 * t + u ≤ 16 then 4 else (10 * t + u) / 3 := by
    unfold leadDist
    by_cases c : 10 * t + u ≤ 16
    · rw [if_pos c, if_neg (by omega)]
    · rw [if_neg c, if_pos (by omega)]
  have hd4 := leadDist_ge (10 * t + u)
  have hlead := ckVarblen_lead pic pi bi hpi (by rw [hk]; exact ⟨hk1, hk2⟩) hbang
  rw [hk, hd] at hlead
  rw [hd] at hd4
  generalize (if 10 * t + u ≤ 16 then 4 else (10 * t + u) / 3) = d at hlead hd hd4 ⊢
  refine ⟨⟨fun h => ?_, fun h => ?_⟩, fun hD hI => ?_⟩
  · by_contra hD
    rw [hlead, if_neg hD] at h
    by_cases c2 : 14 ≤ pi ∧ byteAt pic (pi - 14) = 73
    · rw [if_pos c2] at h
      by_cases c3 : slice pic (pi - 14) (pi + 1) = bytes ("IPv4.Address32@")
      · rw [if_pos c3] at h
        simp only [Prod.mk.injEq, Ctr.add, Ctr.mk.injEq] at h
        obtain ⟨e1, ⟨-, e2⟩, -⟩ := h
        have e3 : 10 * t + u = 32 := by omega
        have e4 : d = 10 := by
          rw [← hd]; unfold leadDist; rw [e3]; rfl
        omega
      · rw [if_neg c3] at h
        simp at h
    · rw [if_neg c2] at h
      simp at h
  · rw [hlead, if_pos h]
  · rw [hlead, if_neg hD, if_neg hI]

theorem ckVarblen_decimal_witness :
    ckVarblen (mkPic (bytes ("D.11@"))) 5 ⟨0, 0⟩ =
      (5 - (if 10 * 1 + 1 ≤ 16 then 4 else (10 * 1 + 1) / 3), Ctr.add ⟨0, 0⟩ (10 * 1 + 1), none) ∧
    ckVarblen (mkPic (bytes ("D.11@"))) 5 ⟨0, 0⟩ = (1, ⟨11, 11⟩, none) :=
  ⟨(ckVarblen_decimal (mkPic (bytes ("D.11@"))) 5 1 1 ⟨0, 0⟩ (by decide) (by decide) (by decide)
    (by decide) (by decide) (by decide) (by decide) (by decide)).1.mpr ⟨by decide, by decide⟩,
    by decide!⟩

/-- C16. IPv4 lead-in: let the scan reach, unshielded, an `@` at `p = pi - 1`
for which `ckVarblen` comes to its IPv4 branch (bit count in `1..64`, no `!`
and no `D` lead-in, the byte 14 positions to the left is `I`).  Then
`ckVarblen` succeeds if and only if the 15 bytes `pic[p-14 .. p]` are
`IPv4.Address32@`; it then commits exactly 32 bits and moves the position to
the `I`.  On a mismatch it fails with "Invalid pic for IPv4." and `Lint`
returns that status with a caret line over `pic[:p]` that has a caret for
every character starting at index `p - 16` or later and a blank for every
earlier one; shown under the input, which is `pic[1:]`, the carets lie under
all of `pic[p-15 .. p]`, so under the whole shorthand `pic[p-14 .. p]`. -/
theorem Lint_ipv4 (sw : Str → Nat) (inp : Str) (t : State)
    (hreach : Reach sw (mkPic inp) (init inp) t) (hri : 0 ≤ t.ri)
    (hq : t.quoted = false) (hl : t.label = false) (hpi : 4 ≤ t.pi)
    (hat : byteAt (mkPic inp) (t.pi - 1) = 64) (hesc : byteAt (mkPic inp) (t.pi - 2) ≠ 92)
    (hk : 1 ≤ bitCount (mkPic inp) (t.pi - 1) ∧ bitCount (mkPic inp) (t.pi - 1) ≤ 64)
    (hbang : byteAt (mkPic inp) (t.pi - 1 - 3) ≠ 33)
    (hD : ¬ (leadDist (bitCount (mkPic inp) (t.pi - 1)) ≤ t.pi - 1 ∧
      byteAt (mkPic inp) (t.pi - 1 - leadDist (bitCount (mkPic inp) (t.pi - 1))) = 68))
    (hI : 14 ≤ t.pi - 1 ∧ byteAt (mkPic inp) (t.pi - 1 - 14) = 73) :
    ((ckVarblen (mkPic inp) (t.pi - 1) t.bi).2.2 = none ↔
      slice (mkPic inp) (t.pi - 1 - 14) (t.pi - 1 + 1) = bytes ("IPv4.Address32@")) ∧
    (slice (mkPic inp) (t.pi - 1 - 14) (t.pi - 1 + 1) = bytes ("IPv4.Address32@") →
      ckVarblen (mkPic inp) (t.pi - 1) t.bi = (t.pi - 1 - 14, t.bi.add 32, none)) ∧
    (slice (mkPic inp) (t.pi - 1 - 14) (t.pi - 1 + 1) ≠ bytes ("IPv4.Address32@") →
      ckVarblen (mkPic inp) (t.pi - 1) t.bi = (t.pi - 1 - 14, t.bi.add 32, some errIPv4) ∧
      Lint sw inp = .ret [bytes ("Error: Invalid pic for IPv4."), [], inp ++ [32],
        caretLine (mkPic inp) (t.pi - 1 - 14) (t.pi - 1) ++ bytes ("HERE")] ∧
      ∀ (j i : Nat), (runeStarts (t.pi - 1) 0 ((mkPic inp).take (t.pi - 1)))[j]? = some i →
        (caretLine (mkPic inp) (t.pi - 1 - 14) (t.pi - 1))[j]? =
          some (if t.pi - 1 - 16 ≤ i then 94 else 32)) := by
  have hlead := ckVarblen_lead (mkPic inp) (t.pi - 1) t.bi (by omega) hk hbang
  rw [if_neg hD, if_pos hI] at hlead
  have hyes : slice (mkPic inp) (t.pi - 1 - 14) (t.pi - 1 + 1) = bytes ("IPv4.Address32@") →
      ckVarblen (mkPic inp) (t.pi - 1) t.bi = (t.pi - 1 - 14, t.bi.add 32, none) := by
    intro h
    rw [hlead, if_pos h]
  have hno : slice (mkPic inp) (t.pi - 1 - 14) (t.pi - 1 + 1) ≠ bytes ("IPv4.Address32@") →
      ckVarblen (mkPic inp) (t.pi - 1) t.bi =
        (t.pi - 1 - 14, t.bi.add 32, some errIPv4) := by
    intro h
    rw [hlead, if_neg h]
  refine ⟨⟨fun h => ?_, fun h => by rw [hyes h]⟩, hyes, fun h => ⟨hno h, ?_, ?_⟩⟩
  · by_contra hc
    rw [hno hc] at h
    simp at h
  · have hbody : body sw (mkPic inp) t = emit sw (mkPic inp) { t with pi := t.pi - 1 } 64 := by
      have := body_letter sw (mkPic inp) t (by omega)
        (by have e : t.pi - 1 - 1 = t.pi - 2 := by omega
            rw [e]; exact hesc) hq hl (by rw [hat]; decide)
      rw [hat] at this
      exact this
    have hcmd := command_at (mkPic inp) (t.pi - 1) t.bi
    have hf := (Lint_fail_at sw inp t _ 64 errIPv4 hreach (by omega) hri hbody rfl rfl rfl
      (by rw [hcmd, hno h])).2
    rw [hcmd, hno h] at hf
    exact hf
  · intro j i hj
    unfold caretLine
    rw [List.getElem?_map, hj]
    have e : t.pi - 1 - 14 - 2 = t.pi - 1 - 16 := by omega
    simp only [Option.map_some', ge_iff_le, e]

theorem Lint_ipv4_witness :
    ckVarblen (mkPic (bytes ("IPv4,Address32@"))) (16 - 1) ⟨0, 0⟩ =
      (16 - 1 - 14, Ctr.add ⟨0, 0⟩ 32, some errIPv4) ∧
    Lint sampleWidth (bytes ("IPv4,Address32@")) = .ret
      [bytes ("Error: Invalid pic for IPv4."), [], bytes ("IPv4,Address32@") ++ [32],
        caretLine (mkPic (bytes ("IPv4,Address32@"))) (16 - 1 - 14) (16 - 1)
          ++ bytes ("HERE")] ∧
    caretLine (mkPic (bytes ("IPv4,Address32@"))) (16 - 1 - 14) (16 - 1) ++ bytes ("HERE") =
      bytes ("^^^^^^^^^^^^^^^HERE") :=
  ⟨((Lint_ipv4 sampleWidth (bytes ("IPv4,Address32@")) (init (bytes ("IPv4,Address32@")))
      (Reach.refl _) (by decide) (by decide) (by decide) (by decide) (by decide) (by decide)
      (by decide) (by decide) (by decide) (by decide)).2.2 (by decide)).1,
   ((Lint_ipv4 sampleWidth (bytes ("IPv4,Address32@")) (init (bytes ("IPv4,Address32@")))
      (Reach.refl _) (by decide) (by decide) (by decide) (by decide) (by decide) (by decide)
      (by decide) (by decide) (by decide) (by decide)).2.2 (by decide)).2.1,
   by decide!⟩

/-- C17 fails on the code: the escape is honoured only by the first switch of
the loop of `ckPicStr`; the loops of `ckRanges` that collect a run look at the
byte to the left without looking for a backslash before it.  In `\HH` the
unescaped `H` is the command and its run takes the escaped `H` too: 8 bits
are committed, while `\xH` commits 4.  So is every run of `H` that follows an
escaped `H`: `ckRanges` commits 8 bits for `\HH` in any context. -/
theorem Lint_escaped_H_extends_run :
    Lint sampleWidth (bytes ("\\HH")) = .ret [bytes ("OK."), bytes ("bits:|7 8b 0|"),
      bytes ("           ^|"), bytes ("cmds:¨¨¨¨\\HH¨")] ∧
    Lint sampleWidth (bytes ("\\xH")) = .ret [bytes ("OK."), bytes ("bits:|3 4b 0|"),
      bytes ("           ^|"), bytes ("cmds:¨¨¨¨\\xH¨")] ∧
    (finalState (scan sampleWidth (bytes ("\\HH")))).bi = ⟨8, 8⟩ ∧
    (finalState (scan sampleWidth (bytes ("\\xH")))).bi = ⟨4, 4⟩ ∧
    (∀ (pre post : Str) (bi : Ctr),
      ckRanges (pre ++ [92, 72, 72] ++ post) (pre.length + 2) bi =
        (pre.length + 1, bi.add 8, none)) := by
  refine ⟨by decide!, by decide!, by decide!, by decide!, fun pre post bi => ?_⟩
  have h := ckRanges_hex_plain (pre ++ [92, 72, 72] ++ post) (pre.length + 1) 2 bi
    (by decide)
    (fun i hi => by
      have e : pre.length + 1 + i = pre.length + (1 + i) := by omega
      rw [e, byteAt_mid pre [92, 72, 72] post (1 + i) (by simp; omega)]
      have : i = 0 ∨ i = 1 := by omega
      rcases this with rfl | rfl <;> rfl)
    (Or.inr (by
      have e : pre.length + 1 - 1 = pre.length + 0 := by omega
      rw [e, byteAt_mid pre [92, 72, 72] post 0 (by simp)]
      decide))
  exact h

/-! ## Single-bit commands -/

theorem Reach.trans {sw : Str → Nat} {pic : Str} {s t u : State} (h1 : Reach sw pic s t)
    (h2 : Reach sw pic t u) : Reach sw pic s u := by
  induction h2 with
  | refl => exact h1
  | step _ h3 h4 h5 ih => exact Reach.step ih h3 h4 h5

theorem byteAt_lt (s : Str) (i : Nat) (h : byteAt s i ≠ 0) : i < s.length := by
  by_contra hc
  apply h
  unfold byteAt
  exact List.getD_eq_default _ _ (by omega)

theorem slice_one (s : Str) (a : Nat) (h : a < s.length) : slice s a (a + 1) = [byteAt s a] := by
  rw [slice_snoc s a a (le_refl a) h, slice_self]
  rfl

theorem body_single (sw : Str → Nat) (pic : Str) (t : State) (hpi : 2 ≤ t.pi) (hri : 0 ≤ t.ri)
    (hri2 : t.ri ≤ 255) (hq : t.quoted = false) (hesc : byteAt pic (t.pi - 2) ≠ 92)
    (hc : (60 ≤ byteAt pic (t.pi - 1) ∧ byteAt pic (t.pi - 1) ≤ 63) ∨
      (byteAt pic (t.pi - 1) = 66 ∧ t.label = false ∧
        ¬ (49 ≤ byteAt pic (t.pi - 2) ∧ byteAt pic (t.pi - 2) ≤ 72 ∧
          byteAt pic (t.pi - 2) ≠ 58 ∧ byteAt pic (t.pi - 2) ≠ 59 ∧
          byteAt pic (t.pi - 2) ≠ 66))) :
    ∃ P u, outPart sw pic { t with pi := t.pi - 1 } = some P ∧ body sw pic t = .cont u ∧
      u.pi = t.pi - 1 ∧ u.bi = t.bi.add 1 ∧ u.curbitstart = t.bi ∧ u.curpicend = t.pi - 1 ∧
      u.prevcmd = 76 ∧ u.ri = t.ri - 1 ∧ u.quoted = false ∧
      (byteAt pic (t.pi - 1) = 66 → u.label = false) ∧ u.rp = P :: t.rp ∧
      (byteAt pic (t.pi - 1) ≠ 66 → u.label = true) := by
  obtain ⟨P, hP⟩ := outPart_some sw pic { t with pi := t.pi - 1 }
  have e2 : t.pi - 1 - 1 = t.pi - 2 := by omega
  rcases hc with hm | ⟨hB, hl, hx⟩
  · have hb := body_mark sw pic t (by omega) (by rw [e2]; exact hesc) hq hm
    have hP2 : outPart sw pic { t with pi := t.pi - 1, label := true } = some P := hP
    have hcmd := command_mark pic (t.pi - 1) t.bi (byteAt pic (t.pi - 1)) hm
    rw [emit_eq sw pic _ _ P hP2, if_neg (by show ¬ (t.ri < 0 ∨ 255 < t.ri); omega),
      if_neg (by show ¬ (t.pi - 1 ≤ 0); omega)] at hb
    simp only [hcmd] at hb
    refine ⟨P, _, hP, hb, ?_⟩
    simp only [afterCmd, hcmd]
    exact ⟨trivial, trivial, trivial, trivial, trivial, trivial, hq, fun h => by omega, trivial,
      fun _ => trivial⟩
  · have hb := body_letter sw pic t (by omega) (by rw [e2]; exact hesc) hq hl
      (by rw [hB]; decide)
    rw [hB] at hb
    have hcmd := command_B pic (t.pi - 1) t.bi (by omega)
    rw [e2, if_neg hx] at hcmd
    rw [emit_eq sw pic _ _ P hP, if_neg (by show ¬ (t.ri < 0 ∨ 255 < t.ri); omega),
      if_neg (by show ¬ (t.pi - 1 ≤ 0); omega)] at hb
    simp only [hcmd] at hb
    refine ⟨P, _, hP, hb, ?_⟩
    simp only [afterCmd, hcmd]
    exact ⟨trivial, trivial, trivial, trivial, trivial, trivial, hq, fun _ => hl, trivial,
      fun h => absurd hB h⟩

theorem renderPart_single (sw : Str → Nat) (pic : Str) (a c : Nat) (bi : Ctr)
    (hv : bi.val < 65536) (hc : c ≠ 0) (h1 : byteAt pic a = c) (h2 : byteAt pic (a + 1) = c) :
    renderPart sw pic a (a + 1) (bi.add 1) bi = some (singleBitField sw c bi.val) := by
  have hl2 : a + 1 < pic.length := byteAt_lt pic (a + 1) (by rw [h2]; exact hc)
  have hw : ((bi.add 1).val + 65536 - bi.val) % 65536 = 1 := by
    simp only [Ctr.add]; omega
  have s1 : slice pic a (a + 1) = [c] := by rw [slice_one pic a (by omega), h1]
  have s2 : slice pic (a + 1) (a + 1 + 1) = [c] := by rw [slice_one pic (a + 1) hl2, h2]
  rw [renderPart_eq, hw, s1, s2]
  simp only [bitsSegment, singleBitField, if_pos, Nat.lt_one_iff, Nat.one_pos, if_true]

theorem run_single_bits (sw : Str → Nat) (pic : Str) (c : Nat)
    (hc : (60 ≤ c ∧ c ≤ 63) ∨ c = 66) :
    ∀ (m a : Nat) (t : State), 1 ≤ a → t.pi = a + (m + 1) →
      (∀ i, i < m + 1 → byteAt pic (a + i) = c) → byteAt pic (a - 1) ≠ 92 →
      t.quoted = false →
      (c = 66 → t.label = false ∧ ¬ (49 ≤ byteAt pic (a - 1) ∧ byteAt pic (a - 1) ≤ 72 ∧
        byteAt pic (a - 1) ≠ 58 ∧ byteAt pic (a - 1) ≠ 59 ∧ byteAt pic (a - 1) ≠ 66)) →
      (m : Int) ≤ t.ri → t.ri ≤ 255 → t.bi.val < 65536 →
      ∃ u P, Reach sw pic t u ∧ outPart sw pic { t with pi := t.pi - 1 } = some P ∧
        u.pi = a ∧ u.bi = t.bi.add (m + 1) ∧ u.curbitstart = t.bi.add m ∧ u.curpicend = a ∧
        u.prevcmd = 76 ∧ u.ri = t.ri - (m + 1) ∧ u.quoted = false ∧
        (c = 66 → u.label = false) ∧
        u.rp = ((List.range m).map (fun j => singleBitField sw c (t.bi.add j).val)).reverse
          ++ P :: t.rp := by
  have hc92 : c ≠ 92 := by omega
  have hc0 : c ≠ 0 := by omega
  intro m
  induction m with
  | zero =>
    intro a t ha hp hrun hesc hq hB hri hri2 hv
    have e1 : t.pi - 1 = a := by omega
    have e2 : t.pi - 2 = a - 1 := by omega
    have hw : byteAt pic (t.pi - 1) = c := by
      rw [e1]; exact hrun 0 (by omega)
    obtain ⟨P, u, h1, h2, h3, h4, h5, h6, h7, h8, h9, h10, h11, -⟩ :=
      body_single sw pic t (by omega) (by omega) hri2 hq (by rw [e2]; exact hesc)
        (by
          rw [hw, e2]
          rcases hc with hm | hb
          · exact Or.inl hm
          · exact Or.inr ⟨hb, (hB hb).1, (hB hb).2⟩)
    refine ⟨u, P, Reach.step (Reach.refl t) (by omega) (by omega) h2, h1, by omega, h4, ?_, by omega,
      h7, by omega, h9, fun hb => h10 (by rw [hw]; exact hb), ?_⟩
    · rw [h5]
      simp only [Ctr.add, Nat.add_zero]
      rw [Nat.mod_eq_of_lt hv]
    · rw [h11]
      simp
  | succ m ih =>
    intro a t ha hp hrun hesc hq hB hri hri2 hv
    have hba : byteAt pic a = c := hrun 0 (by omega)
    obtain ⟨u, P, r1, r2, r3, r4, r5, r6, r7, r8, r9, r10, r11⟩ :=
      ih (a + 1) t (by omega) (by omega)
        (fun i hi => by
          have e : a + 1 + i = a + (i + 1) := by omega
          rw [e]; exact hrun (i + 1) (by omega))
        (by simp only [Nat.add_sub_cancel]; rw [hba]; exact hc92) hq
        (fun hb => ⟨(hB hb).1, by simp only [Nat.add_sub_cancel]; rw [hba]; omega⟩)
        (by omega) hri2 hv
    have e1 : u.pi - 1 = a := by omega
    have e2 : u.pi - 2 = a - 1 := by omega
    have hw : byteAt pic (u.pi - 1) = c := by rw [e1]; exact hba
    obtain ⟨P1, u1, h1, h2, h3, h4, h5, h6, h7, h8, h9, h10, h11, -⟩ :=
      body_single sw pic u (by omega) (by omega) (by omega) r9 (by rw [e2]; exact hesc)
        (by
          rw [hw, e2]
          rcases hc with hm | hb
          · exact Or.inl hm
          · exact Or.inr ⟨hb, r10 hb, (hB hb).2⟩)
    have hP1 : P1 = singleBitField sw c (t.bi.add m).val := by
      have hr := renderPart_single sw pic a c (t.bi.add m)
        (by simp only [Ctr.add]; omega) hc0 hba
        (by have := hrun 1 (by omega); exact this)
      rw [Ctr.add_add] at hr
      have ho : outPart sw pic { u with pi := u.pi - 1 } =
          renderPart sw pic (u.pi - 1) u.curpicend u.bi u.curbitstart := by
        unfold outPart
        rw [if_neg (by show ¬ (u.prevcmd = 84); omega)]
      rw [ho, e1, r6, r4, r5, hr] at h1
      exact (Option.some.inj h1).symm
    refine ⟨u1, P, Reach.step r1 (by omega) (by omega) h2, r2, by omega, ?_, ?_, by omega,
      h7, by omega, h9, fun hb => h10 (by rw [hw]; exact hb), ?_⟩
    · rw [h4, r4, Ctr.add_add]
    · rw [h5, r4]
    · rw [h11, r11, hP1, List.range_succ, List.map_append, List.reverse_append]
      simp

/-- C13 as stated fails on the code: the check after a `B` is a check for a
glued command letter `A` .. `H`, not only for `E`, `F` and `H`.  In `AB` the
`B` is rejected though `A` is none of `E`, `F`, `H`. -/
theorem Lint_B_after_A_rejected :
    Lint sampleWidth (bytes ("AB")) = .ret
      [bytes ("Error: Misleading use of B/E/F number. See section \x27Valid Numbers\x27 in docs."),
       [], bytes ("AB "), bytes ("^^HERE")] := by
  decide!

/-- C13, amended. 1-bit chain rule: whenever the scan of a picture reaches,
unshielded, a `B` at `p = pi - 1` that has a character `x` of the input
immediately to its left (`p ≥ 2`), then: if `x` is a command letter `A` ..
`H` other than `B` (`A`, `C`, `D`, `E`, `F`, `G` or `H`), scanning stops
there and `Lint` returns the status
`Error: Misleading use of B/E/F number. See section 'Valid Numbers' in docs.`;
if `x` is `B`, a byte above `H` (so any other letter), `:`, `;` or a byte
below `1`, the `B` is accepted: the pass commits exactly one bit and the scan
goes on at `p`. -/
theorem Lint_B_chain (sw : Str → Nat) (inp : Str) (t : State)
    (hreach : Reach sw (mkPic inp) (init inp) t) (hri : 0 ≤ t.ri)
    (hq : t.quoted = false) (hl : t.label = false) (hpi : 3 ≤ t.pi)
    (hB : byteAt (mkPic inp) (t.pi - 1) = 66) (hesc : byteAt (mkPic inp) (t.pi - 2) ≠ 92) :
    ((65 ≤ byteAt (mkPic inp) (t.pi - 2) ∧ byteAt (mkPic inp) (t.pi - 2) ≤ 72 ∧
        byteAt (mkPic inp) (t.pi - 2) ≠ 66) →
      Lint sw inp = .ret
        [bytes ("Error: Misleading use of B/E/F number. See section \x27Valid Numbers\x27 in docs."),
         [], inp ++ [32], caretLine (mkPic inp) (t.pi - 1) (t.pi - 1) ++ bytes ("HERE")]) ∧
    ((byteAt (mkPic inp) (t.pi - 2) = 66 ∨ 72 < byteAt (mkPic inp) (t.pi - 2) ∨
        byteAt (mkPic inp) (t.pi - 2) = 58 ∨ byteAt (mkPic inp) (t.pi - 2) = 59 ∨
        byteAt (mkPic inp) (t.pi - 2) < 49) →
      ∃ u, body sw (mkPic inp) t = .cont u ∧ u.pi = t.pi - 1 ∧ u.bi = t.bi.add 1 ∧
        u.curbitstart = t.bi ∧ u.rp.length = t.rp.length + 1) := by
  obtain ⟨i1, -⟩ := Inv_reach sw inp t hreach
  have hri2 : t.ri ≤ 255 := by
    have : (0 : Int) ≤ (t.rp.length : Int) := by positivity
    omega
  have e2 : t.pi - 1 - 1 = t.pi - 2 := by omega
  constructor
  · intro hx
    have hbody : body sw (mkPic inp) t = emit sw (mkPic inp) { t with pi := t.pi - 1 } 66 := by
      have := body_letter sw (mkPic inp) t (by omega) (by rw [e2]; exact hesc) hq hl
        (by rw [hB]; decide)
      rw [hB] at this
      exact this
    have hcmd := command_B (mkPic inp) (t.pi - 1) t.bi (by omega)
    rw [e2, if_pos (by omega)] at hcmd
    have hf := (Lint_fail_at sw inp t _ 66 errMisleading hreach (by omega) hri hbody rfl rfl rfl
      (by rw [hcmd])).2
    rw [hcmd] at hf
    exact hf
  · intro hx
    obtain ⟨P, u, h1, h2, h3, h4, h5, h6, h7, h8, h9, h10, h11, -⟩ :=
      body_single sw (mkPic inp) t (by omega) hri hri2 hq hesc (Or.inr ⟨hB, hl, by omega⟩)
    exact ⟨u, h2, h3, h4, h5, by rw [h11]; rfl⟩

theorem Lint_B_chain_witness :
    Lint sampleWidth (bytes ("HB")) = .ret
      [bytes ("Error: Misleading use of B/E/F number. See section \x27Valid Numbers\x27 in docs."),
       [], bytes ("HB") ++ [32],
       caretLine (mkPic (bytes ("HB"))) (3 - 1) (3 - 1) ++ bytes ("HERE")] :=
  (Lint_B_chain sampleWidth (bytes ("HB")) (init (bytes ("HB"))) (Reach.refl _) (by decide)
    (by decide) (by decide) (by decide) (by decide) (by decide)).1 (by decide)

/-- C19 as stated fails on the code: two adjacent marks `==` are two fields of
one bit each (`bits:|1|0|`), not one field of two bits. -/
theorem Lint_two_marks_two_fields :
    Lint sampleWidth (bytes ("==")) = .ret [bytes ("OK."), bytes ("bits:|1|0|"),
      bytes ("      ^ ^|"), bytes ("cmds:¨=¨=¨")] ∧
    fieldCount (finalState (scan sampleWidth (bytes ("==")))) = 2 :=
  ⟨by decide!, by decide!⟩

/-- C19, amended. Single-bit commands do not merge: whenever the scan of a
picture reaches, outside quotes, the last of a run of `n ≥ 2` adjacent
identical single-bit commands `c` at `a .. a+n-1` (one of the marks `<`, `=`,
`>`, `?`, or the letter `B` outside a label and after a byte below `1`, `:`,
`;` or above `H`), with room for `n` parts in the output buffer, the scan
takes them as `n` commands of one bit each: after `n` passes it stands at
`a`, the counter has advanced by `n`, the field of the leftmost command is
open with width 1, and the other `n - 1` commands have been written as
`n - 1` separate single-bit fields at the bits `bi .. bi+n-2`, each with the
label `c`. -/
theorem single_bits_separate (sw : Str → Nat) (inp : Str) (t : State) (a n c : Nat)
    (hreach : Reach sw (mkPic inp) (init inp) t) (hn : 2 ≤ n) (ha : 1 ≤ a)
    (hp : t.pi = a + n) (hrun : ∀ i, i < n → byteAt (mkPic inp) (a + i) = c)
    (hesc : byteAt (mkPic inp) (a - 1) ≠ 92) (hq : t.quoted = false)
    (hc : (60 ≤ c ∧ c ≤ 63) ∨ (c = 66 ∧ t.label = false ∧
      (byteAt (mkPic inp) (a - 1) < 49 ∨ byteAt (mkPic inp) (a - 1) = 58 ∨
        byteAt (mkPic inp) (a - 1) = 59 ∨ 72 < byteAt (mkPic inp) (a - 1))))
    (hroom : (n : Int) - 1 ≤ t.ri) :
    ∃ u P, Reach sw (mkPic inp) (init inp) u ∧ u.pi = a ∧ u.bi = t.bi.add n ∧
      u.curbitstart = t.bi.add (n - 1) ∧
      (u.bi.val + 65536 - u.curbitstart.val) % 65536 = 1 ∧
      u.rp = ((List.range (n - 1)).map (fun j => singleBitField sw c (t.bi.add j).val)).reverse
        ++ P :: t.rp ∧
      u.rp.length = t.rp.length + n := by
  obtain ⟨i1, i2, -⟩ := Inv_reach sw inp t hreach
  have hri2 : t.ri ≤ 255 := by
    have : (0 : Int) ≤ (t.rp.length : Int) := by positivity
    omega
  have hv : t.bi.val < 65536 := by
    unfold Ctr.ok at i2
    omega
  obtain ⟨m, rfl⟩ : ∃ m, n = m + 1 := ⟨n - 1, by omega⟩
  obtain ⟨u, P, r1, r2, r3, r4, r5, r6, r7, r8, r9, r10, r11⟩ :=
    run_single_bits sw (mkPic inp) c (by omega) m a t ha hp hrun hesc hq
      (fun hb => by
        rcases hc with hm | ⟨-, hl, hx⟩
        · omega
        · exact ⟨hl, by omega⟩)
      (by omega) hri2 hv
  refine ⟨u, P, Reach.trans hreach r1, r3, r4, by rw [r5]; rfl, ?_, by rw [r11]; rfl, ?_⟩
  · rw [r4, r5]
    simp only [Ctr.add]
    omega
  · rw [r11]
    simp
    omega

theorem single_bits_separate_witness :
    ∃ u P, Reach sampleWidth (mkPic (bytes ("=="))) (init (bytes ("=="))) u ∧ u.pi = 1 ∧
      u.bi = Ctr.add ⟨0, 0⟩ 2 ∧ u.curbitstart = Ctr.add ⟨0, 0⟩ (2 - 1) ∧
      (u.bi.val + 65536 - u.curbitstart.val) % 65536 = 1 ∧
      u.rp = ((List.range (2 - 1)).map
          (fun j => singleBitField sampleWidth 61 (Ctr.add ⟨0, 0⟩ j).val)).reverse
        ++ P :: [⟨[124], [124], []⟩] ∧
      u.rp.length = [(⟨[124], [124], []⟩ : Part)].length + 2 :=
  single_bits_separate sampleWidth (bytes ("==")) (init (bytes ("=="))) 1 2 61 (Reach.refl _)
    (by decide) (by decide) (by decide)
    (fun i hi => by
      have : i = 0 ∨ i = 1 := by omega
      rcases this with rfl | rfl <;> decide)
    (by decide) (by decide) (Or.inl (by decide)) (by decide)

/-! ## The label shield -/

theorem body_shielded (sw : Str → Nat) (pic : Str) (t : State) (hpi : 2 ≤ t.pi)
    (hesc : byteAt pic (t.pi - 2) ≠ 92) (hq : t.quoted = false) (hl : t.label = true)
    (hw : byteAt pic (t.pi - 1) ≠ 39)
    (hm : ¬ (60 ≤ byteAt pic (t.pi - 1) ∧ byteAt pic (t.pi - 1) ≤ 63)) :
    body sw pic t = .cont { t with pi := t.pi - 1 } := by
  have e2 : t.pi - 1 - 1 = t.pi - 2 := by omega
  have h63 : byteAt pic (t.pi - 1) ||| 3 ≠ 63 := by
    rw [Ne, lor3_iff]; exact hm
  unfold body
  simp only
  rw [if_neg (by omega), if_neg (fun h => hesc (by rw [← e2]; exact h.2)),
    if_neg (fun h => hw h.1), if_neg hw, if_neg (fun h => by simp [hq] at h),
    if_pos ⟨hl, h63⟩]

theorem run_shielded (sw : Str → Nat) (pic : Str) (h0 : byteAt pic 0 ≠ 92) :
    ∀ (k : Nat) (t : State), t.pi = k + 1 → t.quoted = false → t.label = true → 0 ≤ t.ri →
      (∀ i, 1 ≤ i → i ≤ k → byteAt pic i ≠ 39 ∧ byteAt pic i ≠ 92 ∧
        ¬ (60 ≤ byteAt pic i ∧ byteAt pic i ≤ 63)) →
      Reach sw pic t { t with pi := 1 } := by
  intro k
  induction k with
  | zero =>
    intro t hp _ _ _ _
    have e : ({ t with pi := 1 } : State) = t := by
      cases t
      simp only [State.mk.injEq, and_true] at hp ⊢
      omega
    rw [e]
    exact Reach.refl t
  | succ k ih =>
    intro t hp hq hl hri hL
    have hb := body_shielded sw pic t (by omega)
      (by
        have e : t.pi - 2 = k := by omega
        rw [e]
        by_cases hk : k = 0
        · rw [hk]; exact h0
        · exact (hL k (by omega) (by omega)).2.1) hq hl
      (by
        have e : t.pi - 1 = k + 1 := by omega
        rw [e]; exact (hL (k + 1) (by omega) (by omega)).1)
      (by
        have e : t.pi - 1 = k + 1 := by omega
        rw [e]; exact (hL (k + 1) (by omega) (by omega)).2.2)
    have h2 := ih { t with pi := t.pi - 1 } (by show t.pi - 1 = k + 1; omega) hq hl hri
      (fun i hi1 hi2 => hL i hi1 (by omega))
    exact Reach.head (by omega) hri hb h2

theorem slice_mkPic_head (inp : Str) (k : Nat) (hk : k ≤ inp.length) :
    slice (mkPic inp) 0 (k + 1) = 63 :: inp.take k := by
  unfold slice mkPic
  rw [List.drop_zero, List.append_assoc, List.singleton_append, List.take_succ_cons,
    List.take_append_of_le_length hk]

/-- C18. Label shield: for every string `L` without apostrophe, backslash and
single-bit mark, and every mark `m` among `<`, `=`, `>`, `?`, `Lint(L + m)`
returns `OK.` with exactly one field, of width 1 at bit 0, whose label is
`L + m`: the bits line is `bits:`, the single-bit segment `|0` padded to the
width the code measures for the label (that of `?` + `L`), and the closing
bar; the cmds line shows `L + m` unchanged after the filler; one bit is
committed in all, whatever command letters `L` contains. -/
theorem Lint_label_shield (sw : Str → Nat) (L : Str) (m : Nat)
    (hL : ∀ b ∈ L, b ≠ 39 ∧ b ≠ 92 ∧ ¬ (60 ≤ b ∧ b ≤ 63)) (hm : 60 ≤ m ∧ m ≤ 63) :
    Lint sw (L ++ [m]) = .ret
      [bytes ("OK."),
       bytes ("bits:") ++ singleBitSpec 0 (sw (63 :: L)) ++ [124],
       bytes ("     ") ++ ([32] ++
         List.replicate ((singleBitSpec 0 (sw (63 :: L))).length - 2) 32 ++ [94]) ++ [124],
       bytes ("cmds:¨") ++
         (List.replicate ((singleBitSpec 0 (sw (63 :: L))).length - (sw (63 :: L) + 1)) dia).flatten
         ++ (L ++ [m]) ++ dia] ∧
    (finalState (scan sw (L ++ [m]))).bi = ⟨1, 1⟩ ∧
    fieldCount (finalState (scan sw (L ++ [m]))) = 1 := by
  have h0 := byteAt_mkPic_zero (L ++ [m])
  have hlen : (mkPic (L ++ [m])).length = L.length + 3 := by
    rw [length_mkPic]; simp
  have hpi : (init (L ++ [m])).pi = L.length + 2 := by simp [init, hlen]
  have hbyte : ∀ i, 1 ≤ i → i ≤ L.length → byteAt (mkPic (L ++ [m])) i ∈ L := by
    intro i hi1 hi2
    obtain ⟨j, rfl⟩ : ∃ j, i = j + 1 := ⟨i - 1, by omega⟩
    rw [byteAt_mkPic_succ (L ++ [m]) j (by simp; omega), byteAt_append_left _ _ _ (by omega)]
    exact byteAt_mem L j (by omega)
  have hmark : byteAt (mkPic (L ++ [m])) (L.length + 1) = m := by
    rw [byteAt_mkPic_succ (L ++ [m]) L.length (by simp),
      byteAt_append_right _ _ _ (le_refl _)]
    simp [byteAt]
  have hesc : byteAt (mkPic (L ++ [m])) L.length ≠ 92 := by
    by_cases hz : L.length = 0
    · rw [hz, h0]; decide
    · exact (hL _ (hbyte L.length (by omega) (le_refl _))).2.1
  -- the pass at the mark
  obtain ⟨P, u, h1, h2, h3, h4, h5, h6, h7, h8, h9, h10, h11, h12⟩ :=
    body_single sw (mkPic (L ++ [m])) (init (L ++ [m])) (by omega) (by simp [init])
      (by simp [init]) rfl
      (by
        have e : (init (L ++ [m])).pi - 2 = L.length := by omega
        rw [e]; exact hesc)
      (Or.inl (by
        have e : (init (L ++ [m])).pi - 1 = L.length + 1 := by omega
        rw [e, hmark]; exact hm))
  have hP : P = ⟨[], [], []⟩ := by
    have ho : outPart sw (mkPic (L ++ [m]))
        { init (L ++ [m]) with pi := (init (L ++ [m])).pi - 1 } =
        some ⟨[], [], slice (mkPic (L ++ [m])) (L.length + 2) (L.length + 2)⟩ := by
      unfold outPart
      simp [init, hlen]
    rw [ho, slice_self] at h1
    exact (Option.some.inj h1).symm
  have hlab : u.label = true := by
    apply h12
    have e : (init (L ++ [m])).pi - 1 = L.length + 1 := by omega
    rw [e, hmark]; omega
  -- the passes over the label
  have hr := run_shielded sw (mkPic (L ++ [m])) (by rw [h0]; decide) L.length u (by omega) h9 hlab
    (by rw [h8]; simp [init])
    (fun i hi1 hi2 => hL _ (hbyte i hi1 hi2))
  -- the pass at the sentinel
  have hsl1 : slice (mkPic (L ++ [m])) 0 (L.length + 1) = 63 :: L := by
    rw [slice_mkPic_head (L ++ [m]) L.length (by simp)]
    simp
  have hsl2 : slice (mkPic (L ++ [m])) (0 + 1) (L.length + 1 + 1) = L ++ [m] := by
    have := slice_mkPic (L ++ [m])
    simp only [List.length_append, List.length_singleton] at this
    exact this
  obtain ⟨F, hFdef⟩ : ∃ F : Part, F =
      ⟨singleBitSpec 0 (sw (63 :: L)),
        [32] ++ List.replicate ((singleBitSpec 0 (sw (63 :: L))).length - 2) 32 ++ [94],
        (List.replicate ((singleBitSpec 0 (sw (63 :: L))).length - (sw (63 :: L) + 1))
          dia).flatten ++ (L ++ [m]) ++ dia⟩ := ⟨_, rfl⟩
  have hF : renderPart sw (mkPic (L ++ [m])) 0 (L.length + 1) ((⟨0, 0⟩ : Ctr).add 1) ⟨0, 0⟩
      = some F := by
    rw [renderPart_eq, hsl1, hsl2, hFdef]
    simp [bitsSegment, Ctr.add]
  have hbody : body sw (mkPic (L ++ [m])) { u with pi := 1 } =
      .brk (afterLast { u with pi := 0 } F) := by
    rw [body_zero sw (mkPic (L ++ [m])) { u with pi := 1 } rfl]
    have ho : outPart sw (mkPic (L ++ [m])) { u with pi := 0 } = some F := by
      unfold outPart
      rw [if_neg (by show ¬ (u.prevcmd = 84); omega)]
      show renderPart sw (mkPic (L ++ [m])) 0 u.curpicend u.bi u.curbitstart = _
      rw [h6, h4, h5]
      have e : (init (L ++ [m])).pi - 1 = L.length + 1 := by omega
      rw [e]
      exact hF
    show emit sw (mkPic (L ++ [m])) { u with pi := 0 } 63 = .brk (afterLast { u with pi := 0 } F)
    rw [emit_eq sw (mkPic (L ++ [m])) _ 63 F ho,
      if_neg (by show ¬ (u.ri < 0 ∨ 255 < u.ri); rw [h8]; simp [init]),
      if_pos (by show (0 : Nat) ≤ 0; omega)]
  have hscan : scan sw (L ++ [m]) = .done (afterLast { u with pi := 0 } F) := by
    unfold scan
    have hreach : Reach sw (mkPic (L ++ [m])) (init (L ++ [m])) { u with pi := 1 } :=
      Reach.trans (Reach.step (Reach.refl _) (by omega) (by simp [init]) h2) hr
    rw [Reach.run_eq h0 hreach _ (by simp [init])]
    rw [hlen]
    exact run_brk sw (mkPic (L ++ [m])) _ _ _ (by show 0 < 1; omega)
      (by show 0 ≤ u.ri; rw [h8]; simp [init]) hbody
  have hLint := Lint_of_done sw (L ++ [m]) _ hscan (by simp [afterLast, h11, init])
  rw [hscan]
  simp only [finalState, fieldCount, afterLast, h11, hP, h4, hFdef] at hLint ⊢
  refine ⟨?_, rfl, by simp [init]⟩
  rw [hLint]
  simp [bitsOf, marksOf, picsOf, init, Ctr.add]

theorem Lint_label_shield_witness :
    Lint sampleWidth (bytes ("Flag ABCEFGH@") ++ [61]) = .ret
      [bytes ("OK."),
       bytes ("bits:") ++ singleBitSpec 0 (sampleWidth (63 :: bytes ("Flag ABCEFGH@"))) ++ [124],
       bytes ("     ") ++ ([32] ++ List.replicate
         ((singleBitSpec 0 (sampleWidth (63 :: bytes ("Flag ABCEFGH@")))).length - 2) 32 ++ [94])
         ++ [124],
       bytes ("cmds:¨") ++
         (List.replicate ((singleBitSpec 0 (sampleWidth (63 :: bytes ("Flag ABCEFGH@")))).length
           - (sampleWidth (63 :: bytes ("Flag ABCEFGH@")) + 1)) dia).flatten
         ++ (bytes ("Flag ABCEFGH@") ++ [61]) ++ dia] ∧
    (finalState (scan sampleWidth (bytes ("Flag ABCEFGH@") ++ [61]))).bi = ⟨1, 1⟩ ∧
    fieldCount (finalState (scan sampleWidth (bytes ("Flag ABCEFGH@") ++ [61]))) = 1 :=
  Lint_label_shield sampleWidth (bytes ("Flag ABCEFGH@")) 61 (by decide) (by decide)

/-! ## Runs of `F` and the asterisk -/

theorem byteAt_before (pre : Str) (rest : Str) (x : Nat) :
    (0 < pre.length ∧ byteAt (pre ++ rest) (pre.length - 1) = x) ↔
      (pre.getLast? = some x) := by
  rcases List.eq_nil_or_concat pre with h | ⟨p, y, h⟩
  · simp [h]
  · have h1 : byteAt pre (pre.length - 1) = y := byteAt_getLast pre y (by simp [h])
    rw [byteAt_append_left pre rest _ (by simp [h]), h1]
    simp [h]

theorem ckRanges_F_run_asterisk (pre post : Str) (n : Nat) (bi : Ctr) (hn : 1 ≤ n)
    (hpre : pre.getLast? ≠ some 70) :
    ckRanges (pre ++ List.replicate n 70 ++ ([42] ++ post)) (pre.length + n - 1) bi =
      if n = 2 ∧ pre.getLast? = some 69 then (pre.length - 1, bi.add (3 * n + 2), none)
      else (pre.length, bi.add (3 * n), none) := by
  have hrun : ∀ i, i < n →
      byteAt (pre ++ List.replicate n 70 ++ ([42] ++ post)) (pre.length + i) = 70 := by
    intro i hi
    rw [byteAt_mid pre _ _ i (by simpa using hi)]
    exact byteAt_replicate n 70 i hi
  have hb : ∀ x, (0 < pre.length ∧
      byteAt (pre ++ List.replicate n 70 ++ ([42] ++ post)) (pre.length - 1) = x) ↔
      pre.getLast? = some x := by
    intro x
    rw [List.append_assoc]
    exact byteAt_before pre _ x
  have hstop : pre.length = 0 ∨
      byteAt (pre ++ List.replicate n 70 ++ ([42] ++ post)) (pre.length - 1) ≠ 70 := by
    by_cases h : pre.length = 0
    · exact Or.inl h
    · exact Or.inr (fun hx => hpre ((hb 70).mp ⟨by omega, hx⟩))
  have hast : byteAt (pre ++ List.replicate n 70 ++ ([42] ++ post)) (pre.length + n) = 42 := by
    have := byteAt_post pre (List.replicate n 70) ([42] ++ post) 0
    simp only [List.length_replicate, Nat.add_zero] at this
    rw [this]
    rfl
  have hlen : (pre ++ List.replicate n 70 ++ ([42] ++ post)).length
      = pre.length + n + 1 + post.length := by
    simp; omega
  generalize pre ++ List.replicate n 70 ++ ([42] ++ post) = pic at hrun hb hstop hast hlen ⊢
  rw [ckRanges_F_aux pic pre.length n bi hn hrun hstop]
  have e : pre.length + n - 1 + 1 = pre.length + n := by omega
  rw [if_pos (by rw [if_pos (by omega), e]; exact hast)]
  unfold octPrefix
  by_cases c : n = 2 ∧ pre.getLast? = some 69
  · have c2 := (hb 69).mpr c.2
    rw [if_pos c, if_pos ⟨c.1, c2.1, c2.2⟩]
    simp only [Ctr.add_add]
  · rw [if_neg c, if_neg (fun h => c ⟨h.1, (hb 69).mp ⟨h.2.1, h.2.2⟩⟩)]

theorem ckRanges_F_run_plain (pre post : Str) (n : Nat) (bi : Ctr) (hn : 3 ≤ n)
    (hpre : pre.getLast? ≠ some 70) (hpost : post.head? ≠ some 42) :
    ckRanges (pre ++ List.replicate n 70 ++ post) (pre.length + n - 1) bi =
      (pre.length, bi.add (3 * n), some errMisleading) := by
  have hrun : ∀ i, i < n →
      byteAt (pre ++ List.replicate n 70 ++ post) (pre.length + i) = 70 := by
    intro i hi
    rw [byteAt_mid pre _ _ i (by simpa using hi)]
    exact byteAt_replicate n 70 i hi
  have hstop : pre.length = 0 ∨
      byteAt (pre ++ List.replicate n 70 ++ post) (pre.length - 1) ≠ 70 := by
    by_cases h : pre.length = 0
    · exact Or.inl h
    · right
      intro hx
      apply hpre
      rw [List.append_assoc] at hx
      exact (byteAt_before pre _ 70).mp ⟨by omega, hx⟩
  have hoff : byteAt (pre ++ List.replicate n 70 ++ post) (pre.length + n) ≠ 42 := by
    have := byteAt_post pre (List.replicate n 70) post 0
    simp only [List.length_replicate, Nat.add_zero] at this
    rw [this, byteAt_zero_head]
    cases post with
    | nil => simp
    | cons x r =>
      simp only [List.head?_cons, Option.getD_some]
      intro hx
      apply hpost
      simp [hx]
  generalize pre ++ List.replicate n 70 ++ post = pic at hrun hstop hoff ⊢
  rw [ckRanges_F_aux pic pre.length n bi (by omega) hrun hstop]
  have e : pre.length + n - 1 + 1 = pre.length + n := by omega
  have hoff2 : ¬ ((if pre.length + n - 1 < pic.length - 1 then
      byteAt pic (pre.length + n - 1 + 1) else 0) = 42) := by
    by_cases c : pre.length + n - 1 < pic.length - 1
    · rw [if_pos c, e]; exact hoff
    · rw [if_neg c]; decide
  have hoct : octPrefix pic pre.length (bi.add (3 * n)) n = (pre.length, bi.add (3 * n), false) := by
    unfold octPrefix
    rw [if_neg (by omega)]
  rw [if_neg hoff2, if_neg (by omega), hoct]
  simp

/-- C21. Suppression for 3-bit runs: called on the last letter of a run of
`n ≥ 1` adjacent `F` (the byte before the run, if any, is not `F`) that is
followed by `*`, `ckRanges` returns no error, whatever precedes the run; it
commits exactly `3n` bits and stays at the first `F`, except that for `n = 2`
after an `E` it commits 2 bits more and moves to the `E`.  A run of `n ≥ 3`
that is not followed by `*` is rejected with "Misleading use of B/E/F number.
...".  So `FFF*` is accepted with `OK.` as one 9-bit field and `FFF` is
rejected. -/
theorem ckRanges_F_asterisk_suppresses (pre post : Str) (n : Nat) (bi : Ctr) (hn : 1 ≤ n)
    (hpre : pre.getLast? ≠ some 70) :
    ckRanges (pre ++ List.replicate n 70 ++ ([42] ++ post)) (pre.length + n - 1) bi =
      (if n = 2 ∧ pre.getLast? = some 69 then (pre.length - 1, bi.add (3 * n + 2), none)
       else (pre.length, bi.add (3 * n), none)) ∧
    (3 ≤ n → post.head? ≠ some 42 →
      ckRanges (pre ++ List.replicate n 70 ++ post) (pre.length + n - 1) bi =
        (pre.length, bi.add (3 * n), some errMisleading)) ∧
    Lint sampleWidth (bytes ("FFF*")) = .ret [bytes ("OK."), bytes ("bits:|8 9b 0|"),
      bytes ("           ^|"), bytes ("cmds:¨¨¨¨FFF¨*")] ∧
    Lint sampleWidth (bytes ("FFF")) = .ret
      [bytes ("Error: Misleading use of B/E/F number. See section \x27Valid Numbers\x27 in docs."),
       [], bytes ("FFF "), bytes ("^^^HERE")] :=
  ⟨ckRanges_F_run_asterisk pre post n bi hn hpre,
    fun h3 hpost => ckRanges_F_run_plain pre post n bi h3 hpre hpost, by decide!, by decide!⟩

theorem ckRanges_F_asterisk_suppresses_witness :
    ckRanges (bytes ("perm:") ++ List.replicate 3 70 ++ ([42] ++ bytes (" rwx"))) (5 + 3 - 1)
        ⟨0, 0⟩ = (5, ⟨9, 9⟩, none) ∧
    ckRanges (bytes ("0E") ++ List.replicate 2 70 ++ ([42] ++ [])) (2 + 2 - 1)
        ⟨0, 0⟩ = (1, ⟨8, 8⟩, none) :=
  ⟨(ckRanges_F_asterisk_suppresses (bytes ("perm:")) (bytes (" rwx")) 3 ⟨0, 0⟩ (by decide)
      (by decide)).1,
   (ckRanges_F_asterisk_suppresses (bytes ("0E")) [] 2 ⟨0, 0⟩ (by decide) (by decide)).1⟩

/-! ## Runes of the caret line -/

theorem runeLen_cases (b0 : Nat) (t : Str) :
    runeLen (b0 :: t) = 1 ∨
    (runeLen (b0 :: t) = 2 ∧ 1 ≤ t.length ∧ 128 ≤ byteAt t 0) ∨
    (runeLen (b0 :: t) = 3 ∧ 2 ≤ t.length ∧ 128 ≤ byteAt t 0 ∧ 128 ≤ byteAt t 1) ∨
    (runeLen (b0 :: t) = 4 ∧ 3 ≤ t.length ∧ 128 ≤ byteAt t 0 ∧ 128 ≤ byteAt t 1 ∧
      128 ≤ byteAt t 2) := by
  have hlo : 128 ≤ (if b0 = 0xE0 then 0xA0 else if b0 = 0xF0 then 0x90 else 0x80 : Nat) := by
    split_ifs <;> omega
  unfold runeLen
  dsimp only
  by_cases c0 : b0 < 0xC2 ∨ 0xF4 < b0
  · left; rw [if_pos c0]
  rw [if_neg c0]
  generalize (if b0 = 0xE0 then 0xA0 else if b0 = 0xF0 then 0x90 else 0x80 : Nat) = lo at hlo ⊢
  generalize (if b0 = 0xED then 0x9F else if b0 = 0xF4 then 0x8F else 0xBF : Nat) = hi
  generalize (if b0 < 0xE0 then 2 else if b0 < 0xF0 then 3 else 4 : Nat) = sz
  cases t with
  | nil => left; rfl
  | cons b1 t1 =>
    dsimp only
    by_cases c1 : b1 < lo ∨ hi < b1
    · left; rw [if_pos c1]
    rw [if_neg c1]
    by_cases c2 : sz ≤ 2
    · right; left
      rw [if_pos c2]
      exact ⟨rfl, by simp, by simp only [byteAt, List.getD_cons_zero]; omega⟩
    rw [if_neg c2]
    cases t1 with
    | nil => left; rfl
    | cons b2 t2 =>
      dsimp only
      by_cases c3 : b2 < 0x80 ∨ 0xBF < b2
      · left; rw [if_pos c3]
      rw [if_neg c3]
      by_cases c4 : sz ≤ 3
      · right; right; left
        rw [if_pos c4]
        exact ⟨rfl, by simp, by simp only [byteAt, List.getD_cons_zero]; omega,
          by simp only [byteAt, List.getD_cons_succ, List.getD_cons_zero]; omega⟩
      rw [if_neg c4]
      cases t2 with
      | nil => left; rfl
      | cons b3 t3 =>
        dsimp only
        by_cases c5 : b3 < 0x80 ∨ 0xBF < b3
        · left; rw [if_pos c5]
        right; right; right
        rw [if_neg c5]
        exact ⟨rfl, by simp, by simp only [byteAt, List.getD_cons_zero]; omega,
          by simp only [byteAt, List.getD_cons_succ, List.getD_cons_zero]; omega,
          by simp only [byteAt, List.getD_cons_succ, List.getD_cons_zero]; omega⟩

theorem runeLen_facts (s : Str) :
    runeLen s ≤ s.length ∧ (s ≠ [] → 1 ≤ runeLen s ∧ runeLen s ≤ 4) ∧
      ∀ j, 0 < j → j < runeLen s → 128 ≤ byteAt s j := by
  cases s with
  | nil => simp [runeLen]
  | cons b0 t =>
    have key : ∀ j, byteAt (b0 :: t) (j + 1) = byteAt t j := fun j => by
      simp [byteAt]
    rcases runeLen_cases b0 t with h | ⟨h, h1, h2⟩ | ⟨h, h1, h2, h3⟩ | ⟨h, h1, h2, h3, h4⟩
    · rw [h]
      exact ⟨by simp, fun _ => by omega, fun j hj1 hj2 => by omega⟩
    · rw [h]
      refine ⟨by simp; omega, fun _ => by omega, fun j hj1 hj2 => ?_⟩
      have e : j = 0 + 1 := by omega
      rw [e, key]; exact h2
    · rw [h]
      refine ⟨by simp; omega, fun _ => by omega, fun j hj1 hj2 => ?_⟩
      have e : j = 0 + 1 ∨ j = 1 + 1 := by omega
      rcases e with e | e <;> rw [e, key] <;> assumption
    · rw [h]
      refine ⟨by simp; omega, fun _ => by omega, fun j hj1 hj2 => ?_⟩
      have e : j = 0 + 1 ∨ j = 1 + 1 ∨ j = 2 + 1 := by omega
      rcases e with e | e | e <;> rw [e, key] <;> assumption

theorem byteAt_drop (s : Str) (k j : Nat) : byteAt (s.drop k) j = byteAt s (k + j) := by
  simp [byteAt, List.getD_eq_getElem?_getD, List.getElem?_drop]

theorem byteAt_take (s : Str) (k j : Nat) (h : j < k) : byteAt (s.take k) j = byteAt s j := by
  simp [byteAt, List.getD_eq_getElem?_getD, List.getElem?_take, h]

theorem runeStarts_nil (f i : Nat) : runeStarts f i [] = [] := by
  cases f <;> rfl

theorem runeStarts_cons (f i b : Nat) (t : Str) :
    runeStarts (f + 1) i (b :: t) =
      i :: runeStarts f (i + runeLen (b :: t)) ((b :: t).drop (runeLen (b :: t))) := rfl

theorem runeStarts_facts :
    ∀ (f i : Nat) (s : Str), s.length ≤ f →
      (∀ x ∈ runeStarts f i s, i ≤ x) ∧
      (runeStarts f i s).Pairwise (fun a b => a < b) ∧
      (∀ j, j < s.length → byteAt s j < 128 → i + j ∈ runeStarts f i s) ∧
      (s ≠ [] → ∃ x ∈ runeStarts f i s, i + s.length ≤ x + 4) := by
  intro f
  induction f with
  | zero =>
    intro i s hs
    have : s = [] := List.length_eq_zero.mp (by omega)
    subst this
    simp [runeStarts]
  | succ f ih =>
    intro i s hs
    cases s with
    | nil => simp [runeStarts]
    | cons b t =>
      obtain ⟨k1, k2, k3⟩ := runeLen_facts (b :: t)
      obtain ⟨k4, k5⟩ := k2 (by simp)
      have hlen : ((b :: t).drop (runeLen (b :: t))).length ≤ f := by
        simp only [List.length_drop, List.length_cons] at hs ⊢
        omega
      obtain ⟨a1, a2, a3, a4⟩ := ih (i + runeLen (b :: t)) ((b :: t).drop (runeLen (b :: t))) hlen
      rw [runeStarts_cons]
      refine ⟨?_, ?_, ?_, ?_⟩
      · intro x hx
        rcases List.mem_cons.mp hx with h | h
        · omega
        · have := a1 x h
          omega
      · rw [List.pairwise_cons]
        refine ⟨fun x hx => ?_, a2⟩
        have := a1 x hx
        omega
      · intro j hj hb
        by_cases hj0 : j = 0
        · subst hj0
          exact List.mem_cons_self _ _
        · have hjk : runeLen (b :: t) ≤ j := by
            by_contra hc
            have := k3 j (by omega) (by omega)
            omega
          have := a3 (j - runeLen (b :: t))
            (by simp only [List.length_drop]; omega)
            (by rw [byteAt_drop]
                have e : runeLen (b :: t) + (j - runeLen (b :: t)) = j := by omega
                rw [e]; exact hb)
          have e2 : i + runeLen (b :: t) + (j - runeLen (b :: t)) = i + j := by omega
          rw [e2] at this
          exact List.mem_cons_of_mem _ this
      · intro _
        by_cases hd : (b :: t).drop (runeLen (b :: t)) = []
        · refine ⟨i, List.mem_cons_self _ _, ?_⟩
          have : (b :: t).length ≤ runeLen (b :: t) := List.drop_eq_nil_iff.mp hd
          omega
        · obtain ⟨x, hx, hx2⟩ := a4 hd
          refine ⟨x, List.mem_cons_of_mem _ hx, ?_⟩
          simp only [List.length_drop] at hx2
          omega

theorem runeStarts_length (f : Nat) :
    ∀ (i j : Nat) (s : Str), (runeStarts f i s).length = (runeStarts f j s).length := by
  induction f with
  | zero => intro i j s; rfl
  | succ f ih =>
    intro i j s
    cases s with
    | nil => rfl
    | cons b t =>
      rw [runeStarts_cons, runeStarts_cons, List.length_cons, List.length_cons, ih _ (j + runeLen (b :: t))]

theorem caret_shape (c : Nat) :
    ∀ (l : List Nat), l.Pairwise (fun a b => a < b) →
      ∃ k j, l.map (fun i => if i ≥ c then 94 else 32) =
          List.replicate k 32 ++ List.replicate j 94 ∧
        k + j = l.length ∧ ((∃ x ∈ l, c ≤ x) → 1 ≤ j) := by
  intro l
  induction l with
  | nil => intro _; exact ⟨0, 0, rfl, rfl, fun ⟨x, hx, _⟩ => by simp at hx⟩
  | cons x l ih =>
    intro hp
    rw [List.pairwise_cons] at hp
    obtain ⟨k, j, h1, h2, h3⟩ := ih hp.2
    by_cases hx : c ≤ x
    · refine ⟨0, l.length + 1, ?_, by simp, fun _ => by omega⟩
      rw [List.replicate_zero, List.nil_append, List.eq_replicate_iff]
      refine ⟨by simp, fun b hb => ?_⟩
      rw [List.mem_map] at hb
      obtain ⟨y, hy, rfl⟩ := hb
      rcases List.mem_cons.mp hy with h | h
      · subst h; rw [if_pos hx]
      · have := hp.1 y h
        rw [if_pos (by omega)]
    · refine ⟨k + 1, j, ?_, by simp; omega, fun ⟨y, hy, hy2⟩ => ?_⟩
      · rw [List.map_cons, h1, if_neg hx, List.replicate_succ, List.cons_append]
      · rcases List.mem_cons.mp hy with h | h
        · subst h; exact absurd hy2 hx
        · exact h3 ⟨y, h, hy2⟩

/-! ## Where a validator stops -/

theorem nextF_pos (pic : Str) :
    ∀ (p : Nat) (bi : Ctr) (efs : Nat),
      ((nextF pic p bi efs).1 < p → byteAt pic (nextF pic p bi efs).1 = 70) ∧
      (nextF pic p bi efs).2.2 = efs + (p - (nextF pic p bi efs).1) := by
  intro p
  induction p with
  | zero => intro bi efs; simp [nextF]
  | succ p ih =>
    intro bi efs
    simp only [nextF]
    by_cases h : byteAt pic p = 70
    · rw [if_pos h]
      obtain ⟨h1, h2⟩ := ih (bi.add 3) (efs + 1)
      have h3 := nextF_le pic p (bi.add 3) (efs + 1)
      refine ⟨fun _ => ?_, by omega⟩
      by_cases c : (nextF pic p (bi.add 3) (efs + 1)).1 < p
      · exact h1 c
      · have e : (nextF pic p (bi.add 3) (efs + 1)).1 = p := by omega
        rw [e]; exact h
    · rw [if_neg h]
      exact ⟨fun hc => by simp at hc, by simp⟩

theorem nextE_pos (pic : Str) :
    ∀ (p : Nat) (bi : Ctr) (efs : Nat),
      ((nextE pic p bi efs).1 < p → byteAt pic (nextE pic p bi efs).1 = 69) ∧
      (nextE pic p bi efs).2.2 = efs + (p - (nextE pic p bi efs).1) := by
  intro p
  induction p with
  | zero => intro bi efs; simp [nextE]
  | succ p ih =>
    intro bi efs
    simp only [nextE]
    by_cases h : byteAt pic p = 69
    · rw [if_pos h]
      obtain ⟨h1, h2⟩ := ih (bi.add 2) (efs + 1)
      have h3 := nextE_le pic p (bi.add 2) (efs + 1)
      refine ⟨fun _ => ?_, by omega⟩
      by_cases c : (nextE pic p (bi.add 2) (efs + 1)).1 < p
      · exact h1 c
      · have e : (nextE pic p (bi.add 2) (efs + 1)).1 = p := by omega
        rw [e]; exact h
    · rw [if_neg h]
      exact ⟨fun hc => by simp at hc, by simp⟩

theorem ckRanges_err_pos (pic : Str) (pi : Nat) (bi : Ctr) (e : Str)
    (h : (ckRanges pic pi bi).2.2 = some e) : caretCond pic (ckRanges pic pi bi).1 pi := by
  have hH := nextH_le pic pi bi
  have hH2 := hexCompleter_le pic (nextH pic pi bi).1 (nextH pic pi bi).2
  have hF := nextF_le pic pi bi 1
  obtain ⟨hF3, hF4⟩ := nextF_pos pic pi bi 1
  have hE := nextE_le pic pi bi 1
  obtain ⟨hE3, hE4⟩ := nextE_pos pic pi bi 1
  unfold caretCond
  unfold ckRanges at h ⊢
  simp only at h ⊢
  by_cases h1 : byteAt pic pi = 72
  · rw [if_pos h1] at h ⊢
    simp only at h ⊢
    by_cases c : (hexCompleter pic (nextH pic pi bi).1 (nextH pic pi bi).2).1 > 0 ∧
        (byteAt pic ((hexCompleter pic (nextH pic pi bi).1 (nextH pic pi bi).2).1 - 1) = 72 ∨
         byteAt pic ((hexCompleter pic (nextH pic pi bi).1 (nextH pic pi bi).2).1 - 1) = 70 ∨
         byteAt pic ((hexCompleter pic (nextH pic pi bi).1 (nextH pic pi bi).2).1 - 1) = 69 ∨
         byteAt pic ((hexCompleter pic (nextH pic pi bi).1 (nextH pic pi bi).2).1 - 1) = 66)
    · right; right; left
      exact ⟨by omega, by omega, by omega⟩
    · rw [if_neg c] at h
      simp at h
  rw [if_neg h1] at h ⊢
  by_cases h2 : byteAt pic pi = 67
  · rw [if_pos h2] at h; simp at h
  rw [if_neg h2] at h ⊢
  by_cases h3 : byteAt pic pi = 65
  · rw [if_pos h3] at h; simp at h
  rw [if_neg h3] at h ⊢
  by_cases h4 : byteAt pic pi = 71
  · rw [if_pos h4] at h; simp at h
  rw [if_neg h4] at h ⊢
  by_cases h5 : byteAt pic pi = 70
  · rw [if_pos h5] at h ⊢
    simp only at h ⊢
    by_cases c1 : (if pi < pic.length - 1 then byteAt pic (pi + 1) else 0) = 42
    · rw [if_pos c1] at h; simp at h
    rw [if_neg c1] at h
    by_cases c2 : (nextF pic pi bi 1).2.2 = 1 ∧ ((0 : Nat) < 65 ∨ (0 : Nat) > 72)
    · rw [if_pos c2] at h; simp at h
    have hefs : (nextF pic pi bi 1).2.2 ≠ 1 := fun hc => c2 ⟨hc, Or.inl (by decide)⟩
    have hlt : (nextF pic pi bi 1).1 < pi := by omega
    have hb := hF3 hlt
    unfold octPrefix
    by_cases c3 : (nextF pic pi bi 1).2.2 = 2 ∧ (nextF pic pi bi 1).1 > 0 ∧
        byteAt pic ((nextF pic pi bi 1).1 - 1) = 69
    · rw [if_pos c3]
      right; left
      simp only
      omega
    · rw [if_neg c3]
      right; right; right
      simp only
      exact ⟨hlt, by omega⟩
  rw [if_neg h5] at h ⊢
  by_cases h6 : byteAt pic pi = 69
  · rw [if_pos h6] at h ⊢
    simp only at h ⊢
    by_cases c1 : (if (nextE pic pi bi 1).1 < pic.length - 1 then
        byteAt pic ((nextE pic pi bi 1).1 + 1) else 0) = 42
    · rw [if_pos c1] at h; simp at h
    rw [if_neg c1] at h
    by_cases c2 : (nextE pic pi bi 1).2.2 = 1 ∧ (nextE pic pi bi 1).1 = 0
    · rw [if_pos c2] at h; simp at h
    rw [if_neg c2] at h
    by_cases c3 : (nextE pic pi bi 1).2.2 = 1 ∧
        ((if (nextE pic pi bi 1).1 > 0 then byteAt pic ((nextE pic pi bi 1).1 - 1) else 0) < 65 ∨
         (if (nextE pic pi bi 1).1 > 0 then byteAt pic ((nextE pic pi bi 1).1 - 1) else 0) > 72)
    · rw [if_pos c3] at h; simp at h
    by_cases c4 : (nextE pic pi bi 1).2.2 = 1
    · have hp : (nextE pic pi bi 1).1 > 0 := by omega
      rw [if_pos hp] at c3
      right; right; left
      exact ⟨by omega, hE, by omega⟩
    · have hlt : (nextE pic pi bi 1).1 < pi := by omega
      have hb := hE3 hlt
      right; right; right
      exact ⟨hlt, by omega⟩
  rw [if_neg h6] at h
  simp at h

theorem ckVarblen_err_pos (pic : Str) (pi : Nat) (bi : Ctr) (e : Str)
    (h : (ckVarblen pic pi bi).2.2 = some e) : caretCond pic (ckVarblen pic pi bi).1 pi := by
  unfold caretCond
  by_cases c1 : pi < 3
  · rw [ckVarblen_misplaced pic pi bi c1]
    left; simp
  by_cases c2 : bitCount pic pi = 0 ∨ 64 < bitCount pic pi
  · rw [ckVarblen_bad_count pic pi bi (by omega) c2]
    right; left
    simp only
    omega
  by_cases c3 : byteAt pic (pi - 3) = 33
  · exfalso
    unfold ckVarblen at h
    rw [if_neg c1] at h
    simp only at h
    rw [if_neg (by omega), if_pos ⟨by omega, c3⟩] at h
    simp at h
  rw [ckVarblen_lead pic pi bi (by omega) (by omega) c3] at h ⊢
  by_cases c4 : leadDist (bitCount pic pi) ≤ pi ∧
      byteAt pic (pi - leadDist (bitCount pic pi)) = 68
  · rw [if_pos c4] at h; simp at h
  rw [if_neg c4] at h ⊢
  by_cases c5 : 14 ≤ pi ∧ byteAt pic (pi - 14) = 73
  · rw [if_pos c5] at h ⊢
    by_cases c6 : slice pic (pi - 14) (pi + 1) = bytes ("IPv4.Address32@")
    · rw [if_pos c6] at h; simp at h
    · rw [if_neg c6]
      right; left
      simp only
      omega
  · rw [if_neg c5]
    right; left
    simp only
    omega

theorem command_err_pos (pic : Str) (pi : Nat) (bi : Ctr) (w : Nat) (e : Str) (hpi : 0 < pi)
    (h : (command pic pi bi w).2.2.2 = some e) : caretCond pic (command pic pi bi w).1 pi := by
  by_cases c1 : w ||| 3 = 63
  · rw [command_mark pic pi bi w ((lor3_iff w).mp c1)] at h
    simp at h
  by_cases c2 : w = 66
  · subst c2
    rw [command_B pic pi bi hpi] at h ⊢
    by_cases c : 49 ≤ byteAt pic (pi - 1) ∧ byteAt pic (pi - 1) ≤ 72 ∧ byteAt pic (pi - 1) ≠ 58 ∧
          byteAt pic (pi - 1) ≠ 59 ∧ byteAt pic (pi - 1) ≠ 66
    · unfold caretCond
      right; right; left
      simp only
      exact ⟨hpi, le_refl _, by omega⟩
    · rw [if_neg c] at h
      simp at h
  by_cases c3 : w = 64
  · subst c3
    rw [command_at] at h ⊢
    exact ckVarblen_err_pos pic pi bi e h
  · have hc : command pic pi bi w =
        ((ckRanges pic pi bi).1, (ckRanges pic pi bi).2.1, 78, (ckRanges pic pi bi).2.2) := by
      unfold command
      rw [if_neg (fun hh => by rcases hh with hh | hh <;> [exact c1 hh; exact c2 hh]),
        if_neg c3]
    rw [hc] at h ⊢
    exact ckRanges_err_pos pic pi bi e h

theorem caretCond_caret (pic : Str) (p cpe : Nat) (h0 : byteAt pic 0 < 128) (h1 : 1 ≤ cpe)
    (h2 : cpe ≤ pic.length) (hc : caretCond pic p cpe) :
    ∃ x ∈ runeStarts cpe 0 (pic.take cpe), p - 2 ≤ x := by
  have hlen : (pic.take cpe).length = cpe := by
    rw [List.length_take]; omega
  obtain ⟨-, -, a3, a4⟩ := runeStarts_facts cpe 0 (pic.take cpe) (by omega)
  rw [hlen] at a3 a4
  have hne : pic.take cpe ≠ [] := by
    intro hh
    rw [hh] at hlen
    simp at hlen
    omega
  have hin : ∀ j, j < cpe → byteAt pic j < 128 → j ∈ runeStarts cpe 0 (pic.take cpe) := by
    intro j hj hb
    have := a3 j hj (by rw [byteAt_take pic cpe j hj]; exact hb)
    rw [Nat.zero_add] at this
    exact this
  rcases hc with c | c | ⟨c1, c2, c3⟩ | ⟨c1, c2⟩
  · exact ⟨0, hin 0 (by omega) h0, by omega⟩
  · obtain ⟨x, hx, hx2⟩ := a4 hne
    exact ⟨x, hx, by omega⟩
  · exact ⟨p - 1, hin (p - 1) (by omega) c3, by omega⟩
  · exact ⟨p, hin p c1 c2, by omega⟩

/-! ## The pass that fails -/

theorem run_fail_reach (sw : Str → Nat) (pic : Str) :
    ∀ (n : Nat) (s : State) (rp : List Part) (e : Str), run sw pic n s = .fail rp e →
      ∃ t, Reach sw pic s t ∧ 0 < t.pi ∧ 0 ≤ t.ri ∧ body sw pic t = .fail rp e := by
  intro n
  induction n with
  | zero =>
    intro s rp e h
    by_cases hc : s.pi > 0 ∧ s.ri ≥ 0
    · rw [run, if_pos hc] at h
      simp at h
    · rw [run_stop sw pic 0 s hc] at h
      simp at h
  | succ n ih =>
    intro s rp e h
    rw [run_succ] at h
    by_cases hc : s.pi > 0 ∧ s.ri ≥ 0
    · rw [if_pos hc] at h
      cases hb : body sw pic s with
      | cont s1 =>
        rw [hb] at h
        obtain ⟨t, ht, hfin⟩ := ih s1 rp e h
        exact ⟨t, Reach.head hc.1 hc.2 hb ht, hfin⟩
      | brk s1 => rw [hb] at h; simp at h
      | fail rp1 e1 =>
        rw [hb] at h
        simp only [Run.fail.injEq] at h
        obtain ⟨h1, h2⟩ := h
        subst h1 h2
        exact ⟨s, Reach.refl s, hc.1, hc.2, hb⟩
      | panic => rw [hb] at h; simp at h
    · rw [if_neg hc] at h
      simp at h

theorem emit_fail (sw : Str → Nat) (pic : Str) (st : State) (w : Nat) (rp : List Part)
    (e : Str) (h : emit sw pic st w = .fail rp e) :
    0 < st.pi ∧ (command pic st.pi st.bi w).2.2.2 = some e ∧
      rp = [⟨[], slice pic 1 pic.length,
        caretLine pic (command pic st.pi st.bi w).1 st.pi ++ bytes ("HERE")⟩] := by
  obtain ⟨p, hp⟩ := outPart_some sw pic st
  rw [emit_eq sw pic st w p hp] at h
  by_cases c1 : st.ri < 0 ∨ 255 < st.ri
  · rw [if_pos c1] at h; simp at h
  rw [if_neg c1] at h
  by_cases c2 : st.pi ≤ 0
  · rw [if_pos c2] at h; simp at h
  rw [if_neg c2] at h
  cases hc : (command pic st.pi st.bi w).2.2.2 with
  | none => rw [hc] at h; simp at h
  | some e1 =>
    rw [hc] at h
    simp only [Step.fail.injEq] at h
    obtain ⟨h1, h2⟩ := h
    subst h2
    exact ⟨by omega, rfl, h1.symm⟩

theorem body_fail (sw : Str → Nat) (pic : Str) (t : State) (rp : List Part) (e : Str)
    (h0 : byteAt pic 0 = 63) (hpi : 0 < t.pi) (h : body sw pic t = .fail rp e) :
    1 ≤ t.pi - 1 ∧
      (command pic (t.pi - 1) t.bi (byteAt pic (t.pi - 1))).2.2.2 = some e ∧
      rp = [⟨[], slice pic 1 pic.length,
        caretLine pic (command pic (t.pi - 1) t.bi (byteAt pic (t.pi - 1))).1 (t.pi - 1)
          ++ bytes ("HERE")⟩] := by
  rcases body_cases sw pic t hpi h0 with ⟨s1, hb, -, -⟩ | ⟨st0, w, hb, ha, hw⟩
  · rw [hb] at h; simp at h
  · rw [hb] at h
    obtain ⟨h1, h2, h3⟩ := emit_fail sw pic st0 w rp e h
    obtain ⟨a1, a2, -⟩ := ha
    have hw2 : w = byteAt pic st0.pi := by
      rcases hw with hz | ⟨hw1, -⟩
      · omega
      · exact hw1
    rw [hw2, a1, a2] at h2 h3
    exact ⟨by omega, h2, h3⟩

theorem take_mkPic (inp : Str) (c : Nat) (hc : c ≤ inp.length) :
    (mkPic inp).take (c + 1) = 63 :: inp.take c := by
  unfold mkPic
  rw [List.append_assoc, List.singleton_append, List.take_succ_cons,
    List.take_append_of_le_length hc]

theorem runeStarts_mkPic (inp : Str) (c : Nat) (hc : c ≤ inp.length) :
    (runeStarts (c + 1) 0 ((mkPic inp).take (c + 1))).length =
      (runeStarts c 0 (inp.take c)).length + 1 := by
  rw [take_mkPic inp c hc, runeStarts_cons]
  have h1 : runeLen (63 :: inp.take c) = 1 := by
    unfold runeLen
    dsimp only
    rw [if_pos (Or.inl (by decide))]
  rw [h1, List.length_cons, List.drop_succ_cons, List.drop_zero,
    runeStarts_length c (0 + 1) 0]

/-- C22. Positional diagnostics: whenever a validator fails during the scan
of an input (the loop of `ckPicStr` ends in the error `e`), the failing pass
is reached by ordinary passes and stops the scan at the command at
`cpe = pi - 1`, whose validator returned the error `e` and the position `p`;
`Lint` returns the status `Error: ` + `e`, an empty bits line, the input
followed by one space as marks line, and a cmds line made of `k` spaces, then
`j ≥ 1` carets, then `HERE`.  That line has one mark per character of
`pic[:cpe]`, the sentinel-prefixed string up to but excluding the last byte of
the command, which is one mark more than the input has characters before
that byte, so the last caret has the place of the last character of the
command; the mark of the character at byte index `i` is a caret exactly when
`i ≥ p - 2`. -/
theorem Lint_positional (sw : Str → Nat) (inp : Str) (rp : List Part) (e : Str)
    (h : scan sw inp = .fail rp e) :
    ∃ (t : State) (k j : Nat),
      Reach sw (mkPic inp) (init inp) t ∧ body sw (mkPic inp) t = .fail rp e ∧
      1 ≤ t.pi - 1 ∧ t.pi - 1 ≤ inp.length ∧
      (command (mkPic inp) (t.pi - 1) t.bi (byteAt (mkPic inp) (t.pi - 1))).2.2.2 = some e ∧
      Lint sw inp = .ret [bytes ("Error: ") ++ e, [], inp ++ [32],
        List.replicate k 32 ++ List.replicate j 94 ++ bytes ("HERE")] ∧
      1 ≤ j ∧
      k + j = (runeStarts (t.pi - 1) 0 ((mkPic inp).take (t.pi - 1))).length ∧
      k + j = (runeStarts (t.pi - 2) 0 (inp.take (t.pi - 2))).length + 1 ∧
      caretLine (mkPic inp)
          (command (mkPic inp) (t.pi - 1) t.bi (byteAt (mkPic inp) (t.pi - 1))).1 (t.pi - 1) =
        List.replicate k 32 ++ List.replicate j 94 ∧
      ∀ (idx i : Nat),
        (runeStarts (t.pi - 1) 0 ((mkPic inp).take (t.pi - 1)))[idx]? = some i →
        (List.replicate k 32 ++ List.replicate j 94)[idx]? = some
          (if (command (mkPic inp) (t.pi - 1) t.bi (byteAt (mkPic inp) (t.pi - 1))).1 - 2 ≤ i
            then 94 else 32) := by
  have h0 := byteAt_mkPic_zero inp
  have hlen := length_mkPic inp
  unfold scan at h
  obtain ⟨t, hreach, hpi, hri, hbody⟩ := run_fail_reach sw (mkPic inp) _ _ rp e h
  obtain ⟨-, -, -, i4, i5, -⟩ := Inv_reach sw inp t hreach
  obtain ⟨b1, b2, b3⟩ := body_fail sw (mkPic inp) t rp e h0 hpi hbody
  have hcond := command_err_pos (mkPic inp) (t.pi - 1) t.bi (byteAt (mkPic inp) (t.pi - 1)) e
    (by omega) b2
  obtain ⟨x, hx, hx2⟩ := caretCond_caret (mkPic inp) _ (t.pi - 1) (by rw [h0]; decide) b1
    (by omega) hcond
  obtain ⟨-, hsorted, -, -⟩ := runeStarts_facts (t.pi - 1) 0 ((mkPic inp).take (t.pi - 1))
    (by rw [List.length_take]; omega)
  obtain ⟨k, j, c1, c2, c3⟩ := caret_shape
    ((command (mkPic inp) (t.pi - 1) t.bi (byteAt (mkPic inp) (t.pi - 1))).1 - 2) _ hsorted
  have hcl : caretLine (mkPic inp)
      (command (mkPic inp) (t.pi - 1) t.bi (byteAt (mkPic inp) (t.pi - 1))).1 (t.pi - 1) =
        List.replicate k 32 ++ List.replicate j 94 := by
    unfold caretLine
    exact c1
  have hrunes := runeStarts_mkPic inp (t.pi - 2) (by omega)
  have e1 : t.pi - 2 + 1 = t.pi - 1 := by omega
  rw [e1] at hrunes
  refine ⟨t, k, j, hreach, hbody, b1, by omega, b2, ?_, c3 ⟨x, hx, hx2⟩, c2, by omega, hcl, ?_⟩
  · have hscan : scan sw inp = .fail rp e := by unfold scan; exact h
    rw [Lint_of_fail sw inp rp e hscan, b3, hcl, slice_mkPic_all]
    simp
  · intro idx i hi
    rw [← hcl]
    unfold caretLine
    rw [List.getElem?_map, hi]
    simp only [Option.map_some', ge_iff_le]

theorem Lint_positional_witness :
    ∃ (t : State) (k j : Nat),
      Reach sampleWidth (mkPic (bytes ("D.22@"))) (init (bytes ("D.22@"))) t ∧
      body sampleWidth (mkPic (bytes ("D.22@"))) t =
        .fail [⟨[], bytes ("D.22@ "), bytes (" ^^^^HERE")⟩] errNoStart ∧
      1 ≤ t.pi - 1 ∧ t.pi - 1 ≤ (bytes ("D.22@")).length ∧
      (command (mkPic (bytes ("D.22@"))) (t.pi - 1) t.bi
            (byteAt (mkPic (bytes ("D.22@"))) (t.pi - 1))).2.2.2 = some errNoStart ∧
      Lint sampleWidth (bytes ("D.22@")) = .ret
        [bytes ("Error: ") ++ errNoStart, [], (bytes ("D.22@")) ++ [32],
        List.replicate k 32 ++ List.replicate j 94 ++ bytes ("HERE")] ∧
      1 ≤ j ∧
      k + j = (runeStarts (t.pi - 1) 0 ((mkPic (bytes ("D.22@"))).take (t.pi - 1))).length ∧
      k + j = (runeStarts (t.pi - 2) 0 ((bytes ("D.22@")).take (t.pi - 2))).length + 1 ∧
      caretLine (mkPic (bytes ("D.22@")))
          (command (mkPic (bytes ("D.22@"))) (t.pi - 1) t.bi
            (byteAt (mkPic (bytes ("D.22@"))) (t.pi - 1))).1 (t.pi - 1) =
        List.replicate k 32 ++ List.replicate j 94 ∧
      ∀ (idx i : Nat),
        (runeStarts (t.pi - 1) 0 ((mkPic (bytes ("D.22@"))).take (t.pi - 1)))[idx]? = some i →
        (List.replicate k 32 ++ List.replicate j 94)[idx]? = some
          (if (command (mkPic (bytes ("D.22@"))) (t.pi - 1) t.bi
            (byteAt (mkPic (bytes ("D.22@"))) (t.pi - 1))).1 - 2 ≤ i
            then 94 else 32) :=
  Lint_positional sampleWidth (bytes ("D.22@"))
    [⟨[], bytes ("D.22@ "), bytes (" ^^^^HERE")⟩] errNoStart (by decide!)

end Bplint
